import Mathlib

/-!
Verification of the hloo Hamming-distance lookup engine.

This file gives a shallow embedding of the core of the repository:
the bit-permutation compiler (bit_permute/src/bit_block.rs and
bit_permute/src/permutations.rs), the word-level execution of the
compiled op streams (as generated by bit_permute_macro/src/bit_op.rs
and bit_permute_macro/src/permutation.rs), the in-memory index
(src/index/mem_index.rs), the lookup coordinator (src/lookup.rs),
the extended binary search (src/util.rs) and the memory-mapped
vector header checks (src/mmvec.rs), and proves or refutes the
specified properties.

Machine integers (u64 masks, uN words) are modelled as Nat with
explicit bounds or reductions mod 2 ^ w where overflow matters.
-/

namespace Hloo

/-! ## u64 bit-counting primitives (trailing_zeros, trailing_ones, leading_ones) -/

/-- Fueled trailing-zeros count; with fuel 64 this matches u64::trailing_zeros
for every value below 2 ^ 64 (and returns 64 on input 0). -/
def tzGo : Nat → Nat → Nat
  | 0, _ => 0
  | fuel + 1, m => if m % 2 = 1 then 0 else 1 + tzGo fuel (m / 2)

/-- Model of u64::trailing_zeros. -/
def trailingZeros64 (m : Nat) : Nat := tzGo 64 m

/-- Fueled trailing-ones count. -/
def toGo : Nat → Nat → Nat
  | 0, _ => 0
  | fuel + 1, m => if m % 2 = 1 then 1 + toGo fuel (m / 2) else 0

/-- Model of u64::trailing_ones. -/
def trailingOnes64 (m : Nat) : Nat := toGo 64 m

/-- Count of consecutive set bits of m from bit position i - 1 downwards. -/
def loGo : Nat → Nat → Nat
  | 0, _ => 0
  | i + 1, m => if Nat.testBit m i then 1 + loGo i m else 0

/-- Model of u64::leading_ones. -/
def leadingOnes64 (m : Nat) : Nat := loGo 64 m

/-- Model of u64::MAX. -/
def u64Max : Nat := 2 ^ 64 - 1

/-! ## bit_block.rs : masks and bit blocks -/

/-- Source bit_block.rs compute_mask: a mask of len ones starting at bit pos
(bit positions counted from the least significant bit, as in the source). -/
def computeMask (pos len : Nat) : Nat := ((1 <<< len) - 1) <<< pos

/-- Source bit_block.rs unmask: recover (pos, len) from a mask. -/
def unmask (m : Nat) : Nat × Nat :=
  let pos := trailingZeros64 m
  (pos, trailingOnes64 (m >>> pos))

/-- Source bit_block.rs combine_masks: masks whose ranges are adjacent
combine into their union. -/
def combineMasks (m1 m2 : Nat) : Option Nat :=
  let p1 := (unmask m1).1
  let l1 := (unmask m1).2
  let p2 := (unmask m2).1
  let l2 := (unmask m2).2
  if p1 + l1 = p2 ∨ p2 + l2 = p1 then some (m1 ||| m2) else none

/-- Source bit_block.rs BitBlock: a range of bits, tagged with the original
block number idx, a global start bit pos and a length len (asserted nonzero
at construction in the source). -/
structure BitBlock where
  idx : Nat
  pos : Nat
  len : Nat
deriving DecidableEq, Repr

instance : Inhabited BitBlock := ⟨⟨0, 0, 0⟩⟩

namespace BitBlock

/-- Global number of the bit this block starts at. -/
def startPos (b : BitBlock) : Nat := b.pos

/-- Global number of the bit this block ends at. -/
def endPos (b : BitBlock) : Nat := b.pos + b.len - 1

/-- Index of the word this block starts at. -/
def startWord (b : BitBlock) (w : Nat) : Nat := b.startPos / w

/-- Index of the word this block ends at. -/
def endWord (b : BitBlock) (w : Nat) : Nat := b.endPos / w

/-- Bit index of the end of the block within its last word; bits within a
word are enumerated in reverse order in the source. -/
def endBit (b : BitBlock) (w : Nat) : Nat := w - 1 - b.endPos % w

/-- Whether the block lies within a single word. -/
def isContiguous (b : BitBlock) (w : Nat) : Prop := b.startWord w = b.endWord w

instance (b : BitBlock) (w : Nat) : Decidable (b.isContiguous w) := by
  unfold isContiguous; infer_instance

/-- Source BitBlock::split: partition the block at word boundaries.
The source builds one part per word index from start_word to end_word. -/
def split (b : BitBlock) (w : Nat) : List BitBlock :=
  (List.range (b.endWord w - b.startWord w + 1)).map (fun i =>
    let wordIdx := b.startWord w + i
    let wordStartIdx := wordIdx * w
    let wordEndIdx := (wordIdx + 1) * w - 1
    let startIdx := max b.startPos wordStartIdx
    let endIdx := min b.endPos wordEndIdx
    BitBlock.mk b.idx startIdx (endIdx - startIdx + 1))

/-- Helper for move_to: walk the split parts, placing each at the running
target position and re-splitting it there. -/
def moveToGo (w : Nat) : Nat → List BitBlock → List (BitBlock × List BitBlock)
  | _, [] => []
  | partPos, part :: rest =>
    (part, (BitBlock.mk part.idx partPos part.len).split w) ::
      moveToGo w (partPos + part.len) rest

/-- Source BitBlock::move_to. -/
def moveTo (b : BitBlock) (newPos w : Nat) : List (BitBlock × List BitBlock) :=
  moveToGo w newPos (b.split w)

/-- Source BitBlock::bit_pos for a single-word block (the source returns
None otherwise and unwraps at call sites we model). -/
def bitPos (b : BitBlock) (w : Nat) : Nat := b.endBit w

/-- Source BitBlock::mask for a single-word block. -/
def mask (b : BitBlock) (w : Nat) : Nat := computeMask (b.bitPos w) b.len

end BitBlock

/-! ## bit_block.rs : BitOp -/

/-- Source bit_block.rs BitOp. Masks are u64 values, shifts are i64. -/
inductive BitOp where
  | maskShiftAndCopy (srcWord : Nat) (srcMask : Nat) (srcShift : Int) (dstWord : Nat)
  | maskAndCopy (srcWord : Nat) (srcMask : Nat) (dstWord : Nat)
  | copy (srcWord : Nat) (dstWord : Nat)
deriving DecidableEq, Repr

namespace BitOp

/-- Source BitOp::copy_block: choose the op variant from the coordinates of
two single-word blocks of equal length (the source unwraps coord/mask,
which exist exactly for single-word blocks). -/
def copyBlock (src dst : BitBlock) (w : Nat) : BitOp :=
  let srcWord := src.endWord w
  let srcBit := src.bitPos w
  let dstWord := dst.endWord w
  let dstBit := dst.bitPos w
  let srcMask := src.mask w
  if srcBit = dstBit then
    if src.len = w then .copy srcWord dstWord
    else .maskAndCopy srcWord srcMask dstWord
  else
    .maskShiftAndCopy srcWord srcMask ((dstBit : Int) - (srcBit : Int)) dstWord

/-- Source BitOp::mask_block. -/
def maskBlock (src : BitBlock) (w : Nat) : BitOp :=
  .maskAndCopy (src.startWord w) (src.mask w) (src.startWord w)

/-- Source BitOp::src_word. -/
def srcWord : BitOp → Nat
  | .maskShiftAndCopy s _ _ _ => s
  | .maskAndCopy s _ _ => s
  | .copy s _ => s

/-- Source BitOp::dst_word. -/
def dstWord : BitOp → Nat
  | .maskShiftAndCopy _ _ _ d => d
  | .maskAndCopy _ _ d => d
  | .copy _ d => d

/-- Source BitOp::shift. -/
def shift : BitOp → Int
  | .maskShiftAndCopy _ _ sh _ => sh
  | _ => 0

/-- Source BitOp::mask (u64::MAX for Copy). -/
def maskOf : BitOp → Nat
  | .maskShiftAndCopy _ m _ _ => m
  | .maskAndCopy _ m _ => m
  | .copy _ _ => u64Max

/-- Source BitOp::clone_with_mask (set_mask leaves Copy unchanged). -/
def cloneWithMask : BitOp → Nat → BitOp
  | .maskShiftAndCopy s _ sh d, m => .maskShiftAndCopy s m sh d
  | .maskAndCopy s _ d, m => .maskAndCopy s m d
  | .copy s d, _ => .copy s d

/-- Source BitOp::combine: ops equal up to their mask, with adjacent masks,
combine into one op carrying the union mask. -/
def combine (o1 o2 : BitOp) : Option BitOp :=
  if o1.cloneWithMask 0 = o2.cloneWithMask 0 then
    match combineMasks o1.maskOf o2.maskOf with
    | some m => some (o1.cloneWithMask m)
    | none => none
  else none

end BitOp

/-! ## bit_block.rs : PermutedBitBlock -/

/-- Source PermutedBitBlock: a block together with its position after the
permutation. -/
structure PermutedBitBlock where
  block : BitBlock
  newPos : Nat
deriving DecidableEq, Repr

namespace PermutedBitBlock

/-- Source PermutedBitBlock::apply: swap source and destination. -/
def papply (pb : PermutedBitBlock) : PermutedBitBlock :=
  ⟨BitBlock.mk pb.block.idx pb.newPos pb.block.len, pb.block.startPos⟩

/-- Inner walk of to_ops: for each destination sub-part, copy the matching
source sub-range. -/
def opsWalk (w : Nat) (idx : Nat) : Nat → List BitBlock → List BitOp
  | _, [] => []
  | srcPos, dst :: rest =>
    BitOp.copyBlock (BitBlock.mk idx srcPos dst.len) dst w ::
      opsWalk w idx (srcPos + dst.len) rest

/-- Source PermutedBitBlock::to_ops. -/
def toOps (pb : PermutedBitBlock) (w : Nat) : List BitOp :=
  (pb.block.moveTo pb.newPos w).flatMap (fun sd =>
    opsWalk w sd.1.idx sd.1.startPos sd.2)

/-- Source PermutedBitBlock::to_mask_ops. -/
def toMaskOps (pb : PermutedBitBlock) (w : Nat) : List BitOp :=
  (pb.papply.block.split w).map (fun b => BitOp.maskBlock b w)

end PermutedBitBlock

end Hloo

/-! ## permutations.rs : grouping, optimization, compilation -/

namespace Hloo

/-- Grouping key of itertools group_by in compile_permutation. -/
def opKey (op : BitOp) : Nat × Nat := (op.dstWord, op.srcWord)

/-- Maximal runs of consecutive ops sharing (dst_word, src_word), as
produced by itertools group_by in compile_permutation. -/
def groupRuns : List BitOp → List (List BitOp)
  | [] => []
  | op :: rest =>
    match groupRuns rest with
    | [] => [[op]]
    | [] :: runs => [op] :: [] :: runs
    | (r0 :: r) :: runs =>
      if opKey op = opKey r0 then (op :: r0 :: r) :: runs
      else [op] :: (r0 :: r) :: runs

/-- The inner loop of compile_permutation over one group: prev_op is the
pending op, combined with the next op when possible; when the combined
mask covers the whole word the op is rewritten as Copy. -/
def optRun (w : Nat) (optimize : Bool) (dstW srcW : Nat) : BitOp → List BitOp → List BitOp
  | prev, [] => [prev]
  | prev, op :: rest =>
    if optimize then
      match prev.combine op with
      | some combined =>
        if leadingOnes64 combined.maskOf = w then
          optRun w optimize dstW srcW (BitOp.copy srcW dstW) rest
        else
          optRun w optimize dstW srcW combined rest
      | none => prev :: optRun w optimize dstW srcW op rest
    else prev :: optRun w optimize dstW srcW op rest

/-- compile_permutation applied to one group (the source panics on an empty
group, which group_by never produces). -/
def compileGroup (w : Nat) (optimize : Bool) : List BitOp → List BitOp
  | [] => []
  | prev :: rest => optRun w optimize prev.dstWord prev.srcWord prev rest

/-- Source permutations.rs compile_permutation, as the map from a destination
word to its op list (the source returns a HashMap from dst_word to ops,
appending groups with equal dst_word in encounter order). -/
def compilePermutation (ops : List BitOp) (w : Nat) (optimize : Bool) (d : Nat) : List BitOp :=
  ((groupRuns ops).filter (fun run =>
    match run with
    | [] => false
    | op :: _ => op.dstWord = d)).flatMap (compileGroup w optimize)

/-- Source permutations.rs Permutation: head is the number of leading blocks
forming the masked prefix. -/
structure Permutation where
  head : Nat
  blocks : List PermutedBitBlock
deriving DecidableEq, Repr

instance : Inhabited Permutation := ⟨⟨0, []⟩⟩

/-- Helper of create_permuted_blocks: assign cumulative new positions. -/
def createPermutedBlocksGo : Nat → List BitBlock → List PermutedBitBlock
  | _, [] => []
  | acc, b :: rest => ⟨b, acc⟩ :: createPermutedBlocksGo (acc + b.len) rest

/-- Source permutations.rs create_permuted_blocks. -/
def createPermutedBlocks (bs : List BitBlock) : List PermutedBitBlock :=
  createPermutedBlocksGo 0 bs

namespace Permutation

/-- Source Permutation::from_blocks. -/
def fromBlocks (head : Nat) (bs : List BitBlock) : Permutation :=
  ⟨head, createPermutedBlocks bs⟩

/-- The op stream compiled by Permutation::compile_apply before grouping. -/
def applyStream (P : Permutation) (w : Nat) : List BitOp :=
  P.blocks.flatMap (fun pb => pb.toOps w)

/-- The op stream compiled by Permutation::compile_revert before grouping. -/
def revertStream (P : Permutation) (w : Nat) : List BitOp :=
  P.blocks.flatMap (fun pb => pb.papply.toOps w)

/-- The op stream compiled by Permutation::compile_top_mask before grouping. -/
def topMaskStream (P : Permutation) (w : Nat) : List BitOp :=
  (P.blocks.take P.head).flatMap (fun pb => pb.toOps w)

/-- Source Permutation::mask_bits. -/
def maskBits (P : Permutation) : Nat :=
  ((P.blocks.take P.head).map (fun pb => pb.block.len)).sum

/-- Source Permutation::mask_words. -/
def maskWords (P : Permutation) (w : Nat) : Nat :=
  P.maskBits / w + if P.maskBits % w = 0 then 0 else 1

/-- Source Permutation::blocks().len(), reported as n_blocks() by the
generated permuter. -/
def nBlocks (P : Permutation) : Nat := P.blocks.length

end Permutation

/-- Helper of split_bits_into_blocks: countdown recursion carrying the block
index and the accumulated start position. -/
def splitBlocksGo (f r : Nat) : Nat → Nat → Nat → List BitBlock
  | 0, _, _ => []
  | n + 1, i, acc =>
    let size := f / r + if i < f % r then 1 else 0
    BitBlock.mk i acc size :: splitBlocksGo f r n (i + 1) (acc + size)

/-- Source permutations.rs split_bits_into_blocks (asserts f >= r). -/
def splitBitsIntoBlocks (f r : Nat) : List BitBlock :=
  splitBlocksGo f r r 0 0

/-- Source permutations.rs reorder_blocks. -/
def reorderBlocks (blocks : List BitBlock) (order : List Nat) : List BitBlock :=
  order.map (fun p => blocks.getD p default) ++
    blocks.filter (fun b => ¬ order.contains b.idx)

/-- Model of itertools Itertools::combinations(k) on a list: all k-element
subsequences, in lexicographic order of positions. -/
def combinations : Nat → List Nat → List (List Nat)
  | 0, _ => [[]]
  | _ + 1, [] => []
  | k + 1, x :: xs => (combinations k xs).map (fun c => x :: c) ++ combinations (k + 1) xs

/-- Source permutations.rs create_permutations (the asserted preconditions
appear as hypotheses of the theorems below). -/
def createPermutations (totalBits wordBits r k : Nat) : List Permutation :=
  ((combinations k (List.range r)).map (fun order =>
    reorderBlocks (splitBitsIntoBlocks totalBits r) order)).map (fun blocks =>
      Permutation.fromBlocks k blocks)

/-! ## Word-level execution of compiled op streams

The generated code (bit_permute_macro/src/bit_op.rs) executes each op as
a straight-line statement over uN words: masked ops OR a shifted, masked
source word into the destination word, Copy overwrites it.  Every op
touches exactly one destination word, so the value of each output word is
the fold of the ops targeting it, in stream order, starting from the
zero-initialized default; uN arithmetic is modelled by reducing masks and
shifted values mod 2 ^ w. -/

/-- Shift by an i64 amount: negative shifts are logical right shifts of the
absolute value, as in the generated code. -/
def shiftApply (v : Nat) (s : Int) : Nat :=
  if s < 0 then v >>> s.natAbs else v <<< s.toNat

/-- The value an op contributes to its destination word (for Copy, the
value that overwrites it). -/
def contribVal (w : Nat) (x : List Nat) : BitOp → Nat
  | .copy s _ => x.getD s 0
  | .maskAndCopy s m _ => x.getD s 0 &&& (m % 2 ^ w)
  | .maskShiftAndCopy s m sh _ => shiftApply (x.getD s 0 &&& (m % 2 ^ w)) sh % 2 ^ w

/-- One generated statement: OR the contribution in, or overwrite for Copy. -/
def applyOp (w : Nat) (x : List Nat) (acc : Nat) (op : BitOp) : Nat :=
  match op with
  | .copy s _ => x.getD s 0
  | _ => acc ||| contribVal w x op

/-- The final value of one destination word after executing its op list. -/
def execWord (w : Nat) (x : List Nat) (ops : List BitOp) : Nat :=
  ops.foldl (applyOp w x) 0

/-- Execute a compiled stream into nOut zero-initialized output words. -/
def execStream (w : Nat) (opsFor : Nat → List BitOp) (nOut : Nat) (x : List Nat) : List Nat :=
  (List.range nOut).map (fun d => execWord w x (opsFor d))

namespace Permutation

/-- The generated apply function of a variant (nw = f / w output words). -/
def applyW (P : Permutation) (w nw : Nat) (x : List Nat) : List Nat :=
  execStream w (compilePermutation (P.applyStream w) w true) nw x

/-- The generated revert function of a variant. -/
def revertW (P : Permutation) (w nw : Nat) (x : List Nat) : List Nat :=
  execStream w (compilePermutation (P.revertStream w) w true) nw x

/-- The generated mask function of a variant (nmw = number of words of the
Mask type). -/
def maskW (P : Permutation) (w nmw : Nat) (x : List Nat) : List Nat :=
  execStream w (compilePermutation (P.topMaskStream w) w true) nmw x

end Permutation

/-- MSB-first bit of a word array at global position q, matching the bit
order used by the source (bit w - 1 - q % w of word q / w). -/
def getBit (w : Nat) (x : List Nat) (q : Nat) : Bool :=
  Nat.testBit (x.getD (q / w) 0) (w - 1 - q % w)

/-- The specified destination bits of a permuted block list: position q of
the output carries bit pos + (q - newPos) of the input for the block whose
destination interval covers q, and 0 elsewhere. -/
def specBit (w : Nat) (pbs : List PermutedBitBlock) (x : List Nat) (q : Nat) : Bool :=
  match pbs.find? (fun pb => decide (pb.newPos ≤ q ∧ q < pb.newPos + pb.block.len)) with
  | some pb => getBit w x (pb.block.pos + (q - pb.newPos))
  | none => false

end Hloo

/-! ## Arithmetic and bit-level helper lemmas -/

namespace Hloo

theorem testBit_computeMask (p l i : Nat) :
    (computeMask p l).testBit i = decide (p ≤ i ∧ i < p + l) := by
  unfold computeMask
  rw [Nat.one_shiftLeft, Nat.testBit_shiftLeft, Nat.testBit_two_pow_sub_one]
  by_cases h1 : p ≤ i
  · by_cases h2 : i < p + l
    · simp [ge_iff_le, h1, h2, show i - p < l by omega]
    · simp [ge_iff_le, h1, h2, show ¬ (i - p < l) by omega]
  · simp [ge_iff_le, h1]

theorem computeMask_lt {p l w : Nat} (h : p + l ≤ w) : computeMask p l < 2 ^ w := by
  unfold computeMask
  rw [Nat.one_shiftLeft, Nat.shiftLeft_eq]
  calc (2 ^ l - 1) * 2 ^ p < 2 ^ l * 2 ^ p := by
        have h2 : 0 < 2 ^ p := Nat.pos_pow_of_pos p (by norm_num)
        have h3 : 0 < 2 ^ l := Nat.pos_pow_of_pos l (by norm_num)
        exact (Nat.mul_lt_mul_right h2).mpr (by omega)
    _ = 2 ^ (l + p) := by rw [Nat.pow_add]
    _ ≤ 2 ^ w := Nat.pow_le_pow_right (by norm_num) (by omega)

theorem computeMask_ne_zero {p l : Nat} (h : 0 < l) : computeMask p l ≠ 0 := by
  intro hz
  have := testBit_computeMask p l p
  rw [hz] at this
  simp at this
  omega

theorem testBit_of_lt_two_pow {n w i : Nat} (h : n < 2 ^ w) (hi : w ≤ i) :
    n.testBit i = false :=
  Nat.testBit_eq_false_of_lt (lt_of_lt_of_le h (Nat.pow_le_pow_right (by norm_num) hi))

/-- Splitting a global bit position within one word: division and remainder
of b + t when the word of b still has room for t. -/
theorem div_mod_within {w b t : Nat} (hw : 0 < w) (h : b % w + t < w) :
    (b + t) / w = b / w ∧ (b + t) % w = b % w + t := by
  have hb := Nat.div_add_mod b w
  constructor
  · have heq : b + t = w * (b / w) + (b % w + t) := by omega
    rw [heq, Nat.mul_add_div hw, Nat.div_eq_of_lt h]
    omega
  · have heq : b + t = w * (b / w) + (b % w + t) := by omega
    rw [heq, Nat.mul_add_mod, Nat.mod_eq_of_lt h]



theorem BitBlock.contiguous_iff {b : BitBlock} {w : Nat} (hw : 0 < w) (hl : 0 < b.len) :
    b.isContiguous w ↔ b.pos % w + b.len ≤ w := by
  unfold BitBlock.isContiguous BitBlock.startWord BitBlock.endWord
      BitBlock.startPos BitBlock.endPos
  constructor
  · intro h
    by_contra hc
    push_neg at hc
    have hge : b.pos + b.len - 1 ≥ w * (b.pos / w) + w := by
      have := Nat.div_add_mod b.pos w
      omega
    have hgt : (b.pos + b.len - 1) / w ≥ b.pos / w + 1 := by
      rw [ge_iff_le, Nat.le_div_iff_mul_le hw]
      have hmul : (b.pos / w + 1) * w = w * (b.pos / w) + w := by ring
      omega
    omega
  · intro h
    have h2 : b.pos % w + (b.len - 1) < w := by omega
    have hdiv := (div_mod_within hw h2).1
    have heq : b.pos + (b.len - 1) = b.pos + b.len - 1 := by omega
    rw [heq] at hdiv
    omega

/-- For a single-word block, positions and word-local bit indexes translate:
global position pos + t of the block lives at bit endBit + (len - 1 - t) of
word endWord, and endWord coincides with startWord. -/
theorem BitBlock.local_coords {b : BitBlock} {w : Nat} (hw : 0 < w) (hl : 0 < b.len)
    (hc : b.isContiguous w) {t : Nat} (ht : t < b.len) :
    (b.pos + t) / w = b.endWord w ∧
      w - 1 - (b.pos + t) % w = b.endBit w + (b.len - 1 - t) := by
  have hroom := (BitBlock.contiguous_iff hw hl).mp hc
  have h2 : b.pos % w + t < w := by omega
  have hd := div_mod_within hw h2
  have hend : b.endWord w = b.pos / w := by
    have h3 : b.pos % w + (b.len - 1) < w := by omega
    have hdiv := (div_mod_within hw h3).1
    unfold BitBlock.endWord BitBlock.endPos
    have heq : b.pos + (b.len - 1) = b.pos + b.len - 1 := by omega
    rw [heq] at hdiv
    omega
  constructor
  · omega
  · have h3 : b.pos % w + (b.len - 1) < w := by omega
    have hm := (div_mod_within hw h3).2
    unfold BitBlock.endBit BitBlock.endPos
    have heq : b.pos + (b.len - 1) = b.pos + b.len - 1 := by omega
    rw [← heq, hm]
    omega

theorem BitBlock.endBit_add_len_le {b : BitBlock} {w : Nat} (hw : 0 < w) (hl : 0 < b.len)
    (hc : b.isContiguous w) : b.endBit w + b.len ≤ w := by
  have hroom := (BitBlock.contiguous_iff hw hl).mp hc
  have h3 : b.pos % w + (b.len - 1) < w := by omega
  have hm := (div_mod_within hw h3).2
  unfold BitBlock.endBit BitBlock.endPos
  have heq : b.pos + (b.len - 1) = b.pos + b.len - 1 := by omega
  rw [← heq, hm]
  omega

/-- Conversely: a word/bit coordinate inside the span of a single-word block
determines the global position. -/
theorem BitBlock.global_of_local {b : BitBlock} {w : Nat} (hw : 0 < w) (hl : 0 < b.len)
    (hc : b.isContiguous w) {q : Nat}
    (hq : q / w = b.endWord w) (hbit : b.endBit w ≤ w - 1 - q % w)
    (hbit2 : w - 1 - q % w < b.endBit w + b.len) :
    b.pos ≤ q ∧ q < b.pos + b.len := by
  have hroom := (BitBlock.contiguous_iff hw hl).mp hc
  have hend : b.endWord w = b.pos / w := by
    have h3 : b.pos % w + (b.len - 1) < w := by omega
    have hdiv := (div_mod_within hw h3).1
    unfold BitBlock.endWord BitBlock.endPos
    have heq : b.pos + (b.len - 1) = b.pos + b.len - 1 := by omega
    rw [heq] at hdiv
    omega
  have hebit : b.endBit w = w - b.pos % w - b.len := by
    have h3 : b.pos % w + (b.len - 1) < w := by omega
    have hm := (div_mod_within hw h3).2
    unfold BitBlock.endBit BitBlock.endPos
    have heq : b.pos + (b.len - 1) = b.pos + b.len - 1 := by omega
    rw [← heq, hm]
    omega
  have hq1 := Nat.div_add_mod q w
  rw [hq, hend] at hq1
  have hq2 := Nat.div_add_mod b.pos w
  have hqm : q % w < w := Nat.mod_lt _ hw
  constructor <;> omega

end Hloo

/-! ## Op classification: regions, well-formedness, contributions -/

namespace Hloo

theorem two_pow_pos (w : Nat) : 0 < 2 ^ w := Nat.pos_pow_of_pos w (by norm_num)

/-- Whether an op is a Copy (overwriting) op. -/
def BitOp.isCopy : BitOp → Bool
  | .copy _ _ => true
  | _ => false

/-- The set of bits of the destination word an op writes, as a mask. -/
def opRegion (w : Nat) : BitOp → Nat
  | .copy _ _ => 2 ^ w - 1
  | .maskAndCopy _ m _ => m
  | .maskShiftAndCopy _ m sh _ => shiftApply m sh

/-- Well-formedness of a compiled op for word size w: masks are nonzero,
fit in the word, and shifted masks neither overflow nor lose bits. -/
def OpWF (w : Nat) : BitOp → Prop
  | .copy _ _ => True
  | .maskAndCopy _ m _ => m ≠ 0 ∧ m < 2 ^ w
  | .maskShiftAndCopy _ m sh _ =>
      m ≠ 0 ∧ m < 2 ^ w ∧ shiftApply m sh ≠ 0 ∧ shiftApply m sh < 2 ^ w ∧
        (sh < 0 → m % 2 ^ sh.natAbs = 0)

theorem shiftApply_mono {v m : Nat} (s : Int) (h : v ≤ m) :
    shiftApply v s ≤ shiftApply m s := by
  unfold shiftApply
  by_cases hs : s < 0
  · simp only [hs, if_true]
    rw [Nat.shiftRight_eq_div_pow, Nat.shiftRight_eq_div_pow]
    exact Nat.div_le_div_right h
  · simp only [hs, if_false]
    rw [Nat.shiftLeft_eq, Nat.shiftLeft_eq]
    exact Nat.mul_le_mul_right _ h

theorem shiftApply_computeMask (sb db len : Nat) :
    shiftApply (computeMask sb len) ((db : Int) - (sb : Int)) = computeMask db len := by
  apply Nat.eq_of_testBit_eq
  intro i
  unfold shiftApply
  by_cases hs : (db : Int) - (sb : Int) < 0
  · have hdb : db < sb := by omega
    have habs : ((db : Int) - (sb : Int)).natAbs = sb - db := by omega
    simp only [hs, if_true, habs]
    rw [Nat.testBit_shiftRight, testBit_computeMask, testBit_computeMask]
    by_cases h1 : db ≤ i
    · have : (sb ≤ sb - db + i ∧ sb - db + i < sb + len) ↔ (db ≤ i ∧ i < db + len) := by
        omega
      simp [this]
    · have h2 : ¬ (sb ≤ sb - db + i) := by omega
      simp [show ¬ (sb ≤ sb - db + i ∧ sb - db + i < sb + len) by tauto,
        show ¬ (db ≤ i ∧ i < db + len) by tauto]
  · have hdb : sb ≤ db := by omega
    have htn : ((db : Int) - (sb : Int)).toNat = db - sb := by omega
    simp only [hs, if_false, htn]
    rw [Nat.testBit_shiftLeft, testBit_computeMask, testBit_computeMask]
    by_cases h1 : db - sb ≤ i
    · have : (sb ≤ i - (db - sb) ∧ i - (db - sb) < sb + len) ↔ (db ≤ i ∧ i < db + len) := by
        omega
      simp [ge_iff_le, h1, this]
    · simp [ge_iff_le, h1, show ¬ (db ≤ i ∧ i < db + len) by omega]

theorem opRegion_lt {w : Nat} {op : BitOp} (h : OpWF w op) : opRegion w op < 2 ^ w := by
  cases op with
  | copy s d =>
    simp only [opRegion]
    have := two_pow_pos w
    omega
  | maskAndCopy s m d => exact h.2
  | maskShiftAndCopy s m sh d => exact h.2.2.2.1

theorem opRegion_ne_zero {w : Nat} {op : BitOp} (h : OpWF w op) (hw : 0 < w) :
    opRegion w op ≠ 0 := by
  cases op with
  | copy s d =>
    have h1 : (2 : Nat) ^ w ≥ 2 ^ 1 := Nat.pow_le_pow_right (by norm_num) hw
    simp [opRegion]
    omega
  | maskAndCopy s m d => exact h.1
  | maskShiftAndCopy s m sh d => exact h.2.2.1

theorem contribVal_lt {w : Nat} {x : List Nat} {op : BitOp}
    (hx : x.getD op.srcWord 0 < 2 ^ w) : contribVal w x op < 2 ^ w := by
  cases op with
  | copy s d => exact hx
  | maskAndCopy s m d =>
    calc x.getD s 0 &&& (m % 2 ^ w) ≤ m % 2 ^ w := Nat.and_le_right
      _ < 2 ^ w := Nat.mod_lt _ (two_pow_pos w)
  | maskShiftAndCopy s m sh d => exact Nat.mod_lt _ (two_pow_pos w)

/-- Contribution bits are contained in the op region. -/
theorem contrib_le_region {w : Nat} {x : List Nat} {op : BitOp} {j : Nat}
    (hx : x.getD op.srcWord 0 < 2 ^ w) (hwf : OpWF w op)
    (h : (contribVal w x op).testBit j = true) : (opRegion w op).testBit j = true := by
  cases op with
  | copy s d =>
    simp only [contribVal] at h
    simp only [BitOp.srcWord] at hx
    have hj : j < w := by
      by_contra hc
      rw [testBit_of_lt_two_pow hx (by omega)] at h
      exact Bool.false_ne_true h
    simp only [opRegion]
    have : (2 : Nat) ^ w - 1 = computeMask 0 w := by
      unfold computeMask
      rw [Nat.one_shiftLeft, Nat.shiftLeft_eq]
      ring_nf
    rw [this, testBit_computeMask]
    simp [hj]
  | maskAndCopy s m d =>
    simp only [contribVal] at h
    rw [Nat.testBit_land] at h
    have h2 := (Bool.and_eq_true _ _).mp h
    rw [Nat.testBit_mod_two_pow] at h2
    simp only [opRegion]
    exact (Bool.and_eq_true _ _).mp h2.2 |>.2
  | maskShiftAndCopy s m sh d =>
    simp only [contribVal] at h
    rw [Nat.testBit_mod_two_pow] at h
    have h2 := (Bool.and_eq_true _ _).mp h
    simp only [opRegion]
    have hm : m % 2 ^ w = m := Nat.mod_eq_of_lt hwf.2.1
    rw [hm] at h2
    -- the shifted masked value is bitwise below the shifted mask
    unfold shiftApply at h2 ⊢
    by_cases hs : sh < 0
    · simp only [hs, if_true] at h2 ⊢
      rw [Nat.testBit_shiftRight] at h2 ⊢
      rw [Nat.testBit_land] at h2
      exact ((Bool.and_eq_true _ _).mp h2.2).2
    · simp only [hs, if_false] at h2 ⊢
      rw [Nat.testBit_shiftLeft] at h2 ⊢
      have h3 := (Bool.and_eq_true _ _).mp h2.2
      rw [Nat.testBit_land] at h3
      exact (Bool.and_eq_true _ _).mpr ⟨h3.1, ((Bool.and_eq_true _ _).mp h3.2).2⟩

end Hloo

/-! ## Semantics of ops produced by copy_block -/

namespace Hloo

theorem copyBlock_srcWord (src dst : BitBlock) (w : Nat) :
    (BitOp.copyBlock src dst w).srcWord = src.endWord w := by
  unfold BitOp.copyBlock
  by_cases h1 : src.bitPos w = dst.bitPos w <;> by_cases h2 : src.len = w <;>
    simp [h1, h2, BitOp.srcWord]

theorem copyBlock_dstWord (src dst : BitBlock) (w : Nat) :
    (BitOp.copyBlock src dst w).dstWord = dst.endWord w := by
  unfold BitOp.copyBlock
  by_cases h1 : src.bitPos w = dst.bitPos w <;> by_cases h2 : src.len = w <;>
    simp [h1, h2, BitOp.dstWord]

theorem BitBlock.len_le_of_contiguous {b : BitBlock} {w : Nat} (hw : 0 < w)
    (hl : 0 < b.len) (hc : b.isContiguous w) : b.len ≤ w := by
  have := (BitBlock.contiguous_iff hw hl).mp hc
  omega

theorem copyBlock_cases (src dst : BitBlock) (w : Nat) :
    BitOp.copyBlock src dst w =
      if src.endBit w = dst.endBit w then
        (if src.len = w then BitOp.copy (src.endWord w) (dst.endWord w)
         else BitOp.maskAndCopy (src.endWord w) (computeMask (src.endBit w) src.len)
           (dst.endWord w))
      else BitOp.maskShiftAndCopy (src.endWord w) (computeMask (src.endBit w) src.len)
        ((dst.endBit w : Int) - (src.endBit w : Int)) (dst.endWord w) := rfl

theorem copyBlock_wf {src dst : BitBlock} {w : Nat} (hw : 0 < w)
    (hl : 0 < src.len) (hlen : src.len = dst.len)
    (hsc : src.isContiguous w) (hdc : dst.isContiguous w) :
    OpWF w (BitOp.copyBlock src dst w) := by
  have hsb := BitBlock.endBit_add_len_le hw hl hsc
  have hdb := BitBlock.endBit_add_len_le hw (hlen ▸ hl) hdc
  have hmlt : computeMask (src.endBit w) src.len < 2 ^ w := computeMask_lt (by omega)
  have hmne : computeMask (src.endBit w) src.len ≠ 0 := computeMask_ne_zero hl
  have hshift := shiftApply_computeMask (src.endBit w) (dst.endBit w) src.len
  rw [copyBlock_cases]
  by_cases h1 : src.endBit w = dst.endBit w
  · by_cases h2 : src.len = w
    · simp only [h1, h2, if_true, if_pos]
      trivial
    · simp only [h1, if_true, h2, if_false, if_pos, if_neg, ite_true, ite_false]
      exact ⟨h1 ▸ hmne, h1 ▸ hmlt⟩
  · simp only [h1, if_false, ite_false]
    refine ⟨hmne, hmlt, ?_, ?_, ?_⟩
    · rw [hshift]
      exact computeMask_ne_zero (by omega)
    · rw [hshift]
      exact computeMask_lt (by omega)
    · intro hneg
      have habs : ((dst.endBit w : Int) - (src.endBit w : Int)).natAbs
          = src.endBit w - dst.endBit w := by omega
      rw [habs]
      have hdvd : 2 ^ (src.endBit w - dst.endBit w) ∣ computeMask (src.endBit w) src.len := by
        unfold computeMask
        rw [Nat.one_shiftLeft, Nat.shiftLeft_eq]
        exact Dvd.dvd.mul_left (pow_dvd_pow 2 (by omega)) _
      omega

end Hloo

namespace Hloo

theorem copyBlock_region {src dst : BitBlock} {w : Nat} (hw : 0 < w)
    (hl : 0 < src.len) (hlen : src.len = dst.len)
    (hsc : src.isContiguous w) (hdc : dst.isContiguous w) :
    opRegion w (BitOp.copyBlock src dst w) = computeMask (dst.endBit w) dst.len := by
  have hsb := BitBlock.endBit_add_len_le hw hl hsc
  have hdb := BitBlock.endBit_add_len_le hw (hlen ▸ hl) hdc
  rw [copyBlock_cases]
  by_cases h1 : src.endBit w = dst.endBit w
  · by_cases h2 : src.len = w
    · simp only [h1, h2, if_true, ite_true, opRegion]
      have hdz : dst.endBit w = 0 := by omega
      unfold computeMask
      rw [Nat.one_shiftLeft, Nat.shiftLeft_eq, hdz, ← hlen, h2]
      simp
    · simp only [h1, h2, if_true, ite_true, ite_false, if_false, opRegion]
      rw [← hlen]
  · simp only [h1, if_false, ite_false, opRegion]
    rw [shiftApply_computeMask, ← hlen]

/-- Bit-level characterization of the contribution of a copy_block op:
bit j of the destination word receives source bit sb + (j - db) exactly on
the destination span [db, db + len). -/
theorem copyBlock_contrib {src dst : BitBlock} {w : Nat} (hw : 0 < w)
    (hl : 0 < src.len) (hlen : src.len = dst.len)
    (hsc : src.isContiguous w) (hdc : dst.isContiguous w)
    (x : List Nat) (hx : x.getD (src.endWord w) 0 < 2 ^ w) (j : Nat) :
    (contribVal w x (BitOp.copyBlock src dst w)).testBit j =
      (decide (dst.endBit w ≤ j ∧ j < dst.endBit w + dst.len) &&
        (x.getD (src.endWord w) 0).testBit (src.endBit w + (j - dst.endBit w))) := by
  have hsb := BitBlock.endBit_add_len_le hw hl hsc
  have hdb := BitBlock.endBit_add_len_le hw (hlen ▸ hl) hdc
  set v := x.getD (src.endWord w) 0 with hv
  rw [copyBlock_cases]
  by_cases h1 : src.endBit w = dst.endBit w
  · by_cases h2 : src.len = w
    · simp only [h1, h2, if_true, ite_true, contribVal]
      have hdz : dst.endBit w = 0 := by omega
      by_cases hj : j < w
      · have hidx : dst.endBit w + (j - dst.endBit w) = j := by omega
        rw [hidx]
        simp [hdz, ← hlen, h2, hj]
        rw [hv, List.getD_eq_getElem?_getD]
      · rw [testBit_of_lt_two_pow hx (by omega)]
        have hout : ¬ (dst.endBit w ≤ j ∧ j < dst.endBit w + dst.len) := by omega
        simp [hout, testBit_of_lt_two_pow hx (show w ≤ dst.endBit w + (j - dst.endBit w) by omega)]
    · simp only [h1, h2, if_true, ite_true, ite_false, if_false, contribVal]
      have hmod : computeMask (dst.endBit w) src.len % 2 ^ w =
          computeMask (dst.endBit w) src.len :=
        Nat.mod_eq_of_lt (computeMask_lt (by omega))
      rw [hmod, Nat.testBit_land, testBit_computeMask]
      by_cases hj : dst.endBit w ≤ j ∧ j < dst.endBit w + src.len
      · have hidx : dst.endBit w + (j - dst.endBit w) = j := by omega
        rw [hidx]
        rw [← hlen]
        simp [hj]
        rw [hv, List.getD_eq_getElem?_getD]
      · rw [← hlen]
        simp [hj]
  · simp only [h1, if_false, ite_false, contribVal]
    have hmods : computeMask (src.endBit w) src.len % 2 ^ w =
        computeMask (src.endBit w) src.len :=
      Nat.mod_eq_of_lt (computeMask_lt (by omega))
    rw [hmods]
    have hbound : shiftApply (v &&& computeMask (src.endBit w) src.len)
        ((dst.endBit w : Int) - (src.endBit w : Int)) < 2 ^ w := by
      calc shiftApply (v &&& computeMask (src.endBit w) src.len) _
          ≤ shiftApply (computeMask (src.endBit w) src.len)
            ((dst.endBit w : Int) - (src.endBit w : Int)) :=
            shiftApply_mono _ Nat.and_le_right
        _ = computeMask (dst.endBit w) src.len := shiftApply_computeMask _ _ _
        _ < 2 ^ w := computeMask_lt (by omega)
    rw [Nat.mod_eq_of_lt hbound]
    unfold shiftApply
    by_cases hs : (dst.endBit w : Int) - (src.endBit w : Int) < 0
    · have habs : ((dst.endBit w : Int) - (src.endBit w : Int)).natAbs
          = src.endBit w - dst.endBit w := by omega
      have hlt : dst.endBit w < src.endBit w := by omega
      simp only [hs, if_true, habs]
      rw [Nat.testBit_shiftRight, Nat.testBit_land, testBit_computeMask]
      by_cases hj : dst.endBit w ≤ j ∧ j < dst.endBit w + dst.len
      · have hidx : src.endBit w - dst.endBit w + j
            = src.endBit w + (j - dst.endBit w) := by omega
        have hcond : src.endBit w ≤ src.endBit w - dst.endBit w + j ∧
            src.endBit w - dst.endBit w + j < src.endBit w + src.len := by omega
        rw [hidx] at hcond ⊢
        simp [hj, hcond]
      · have hcond : ¬ (src.endBit w ≤ src.endBit w - dst.endBit w + j ∧
            src.endBit w - dst.endBit w + j < src.endBit w + src.len) := by omega
        simp [hj, hcond]
    · have htn : ((dst.endBit w : Int) - (src.endBit w : Int)).toNat
          = dst.endBit w - src.endBit w := by omega
      have hlt : src.endBit w < dst.endBit w := by omega
      simp only [hs, if_false, htn]
      rw [Nat.testBit_shiftLeft, Nat.testBit_land, testBit_computeMask]
      by_cases hj : dst.endBit w ≤ j ∧ j < dst.endBit w + dst.len
      · have hge : dst.endBit w - src.endBit w ≤ j := by omega
        have hidx : j - (dst.endBit w - src.endBit w)
            = src.endBit w + (j - dst.endBit w) := by omega
        have hcond : src.endBit w ≤ j - (dst.endBit w - src.endBit w) ∧
            j - (dst.endBit w - src.endBit w) < src.endBit w + src.len := by omega
        rw [hidx] at hcond ⊢
        simp [ge_iff_le, hge, hcond, hj]
      · by_cases hge : dst.endBit w - src.endBit w ≤ j
        · have hcond : ¬ (src.endBit w ≤ j - (dst.endBit w - src.endBit w) ∧
              j - (dst.endBit w - src.endBit w) < src.endBit w + src.len) := by omega
          simp [ge_iff_le, hge, hcond, hj]
        · simp [ge_iff_le, hge, hj]

end Hloo

/-! ## Tiling structure of split, move_to and to_ops -/

namespace Hloo

/-- A list of blocks tiling consecutive positions from s, each part lying in
a single word. -/
def TileList (w : Nat) : Nat → List BitBlock → Prop
  | _, [] => True
  | s, part :: rest =>
    part.pos = s ∧ 0 < part.len ∧ part.isContiguous w ∧
      TileList w (s + part.len) rest

/-- Pairs of source and destination blocks tiling consecutive source
positions from s and destination positions from d. -/
def TilePairs (w : Nat) : Nat → Nat → List (BitBlock × BitBlock) → Prop
  | _, _, [] => True
  | s, d, sd :: rest =>
    sd.1.pos = s ∧ sd.2.pos = d ∧ sd.1.len = sd.2.len ∧ 0 < sd.1.len ∧
      sd.1.isContiguous w ∧ sd.2.isContiguous w ∧
      TilePairs w (s + sd.1.len) (d + sd.1.len) rest

end Hloo

namespace Hloo

theorem split_contiguous {b : BitBlock} {w : Nat} (hw : 0 < w) (hl : 0 < b.len)
    (hc : b.isContiguous w) : b.split w = [b] := by
  have h3 : b.endPos / w = b.startWord w := by
    unfold BitBlock.isContiguous BitBlock.endWord at hc
    omega
  have h4 := Nat.div_add_mod b.endPos w
  rw [h3] at h4
  have h5 : b.endPos % w < w := Nat.mod_lt _ hw
  have h6 : (b.startWord w + 1) * w = w * b.startWord w + w := by ring
  have h7 : b.startWord w * w ≤ b.startPos := by
    have := Nat.div_mul_le_self b.startPos w
    unfold BitBlock.startWord
    omega
  unfold BitBlock.split
  rw [show b.endWord w - b.startWord w = 0 by rw [← hc]; omega]
  rw [show List.range (0 + 1) = [0] from rfl]
  simp only [List.map_cons, List.map_nil, Nat.add_zero]
  have hs : max b.startPos (b.startWord w * w) = b.startPos := by omega
  have he : min b.endPos ((b.startWord w + 1) * w - 1) = b.endPos := by omega
  rw [hs, he]
  have hlen : b.endPos - b.startPos + 1 = b.len := by
    unfold BitBlock.endPos BitBlock.startPos
    omega
  rw [hlen]
  simp [BitBlock.startPos]


theorem split_step {b : BitBlock} {w : Nat} (hw : 0 < w) (hl : 0 < b.len)
    (hc : ¬ b.isContiguous w) :
    b.split w =
      BitBlock.mk b.idx b.pos ((b.startWord w + 1) * w - b.pos) ::
        (BitBlock.mk b.idx ((b.startWord w + 1) * w)
          (b.pos + b.len - (b.startWord w + 1) * w)).split w := by
  have hle : b.startWord w ≤ b.endWord w := by
    unfold BitBlock.startWord BitBlock.endWord
    exact Nat.div_le_div_right (by unfold BitBlock.startPos BitBlock.endPos; omega)
  have hlt : b.startWord w < b.endWord w := by
    rcases Nat.lt_or_ge (b.startWord w) (b.endWord w) with h | h
    · exact h
    · exact absurd (by unfold BitBlock.isContiguous; omega) hc
  have hposlt : b.pos < (b.startWord w + 1) * w := by
    have h4 := Nat.div_add_mod b.pos w
    have h5 : b.pos % w < w := Nat.mod_lt _ hw
    have h6 : (b.startWord w + 1) * w = w * (b.pos / w) + w := by
      unfold BitBlock.startWord BitBlock.startPos
      ring
    omega
  have hendge : (b.startWord w + 1) * w ≤ b.endPos := by
    have h4 := Nat.div_add_mod b.endPos w
    have h6 : (b.startWord w + 1) * w ≤ w * (b.endPos / w) := by
      have h7 : b.startWord w + 1 ≤ b.endPos / w := hlt
      calc (b.startWord w + 1) * w ≤ b.endPos / w * w := Nat.mul_le_mul_right _ h7
        _ = w * (b.endPos / w) := Nat.mul_comm _ _
    omega
  have hendpos : b.endPos = b.pos + b.len - 1 := rfl
  set c := BitBlock.mk b.idx ((b.startWord w + 1) * w)
      (b.pos + b.len - (b.startWord w + 1) * w) with hcdef
  have hcsw : c.startWord w = b.startWord w + 1 := by
    unfold BitBlock.startWord BitBlock.startPos
    rw [hcdef]
    exact Nat.mul_div_cancel _ hw
  have hcend : c.endPos = b.endPos := by
    show (b.startWord w + 1) * w + (b.pos + b.len - (b.startWord w + 1) * w) - 1 = b.endPos
    unfold BitBlock.endPos
    omega
  have hcew : c.endWord w = b.endWord w := by
    unfold BitBlock.endWord
    rw [hcend]
  unfold BitBlock.split
  rw [hcsw, hcew]
  rw [show b.endWord w - b.startWord w + 1 = (b.endWord w - (b.startWord w + 1) + 1) + 1 by
    omega]
  rw [List.range_succ_eq_map]
  simp only [List.map_cons, List.map_map]
  congr 1
  · simp only [Nat.add_zero]
    have hsw2 : b.startWord w = b.pos / w := rfl
    have hs2 : max b.startPos (b.startWord w * w) = b.startPos := by
      rw [hsw2]
      show max b.pos (b.pos / w * w) = b.pos
      have := Nat.div_mul_le_self b.pos w
      omega
    have he : min b.endPos ((b.startWord w + 1) * w - 1) = (b.startWord w + 1) * w - 1 := by
      omega
    rw [hs2, he]
    have hpos : b.startPos = b.pos := rfl
    rw [hpos]
    congr 1
    omega
  · apply List.map_congr_left
    intro i hi
    simp only [Function.comp_apply, Nat.succ_eq_add_one]
    have hcsp : c.startPos = (b.startWord w + 1) * w := rfl
    rw [hcsp, hcend]
    have harg1 : b.startWord w + (i + 1) = b.startWord w + 1 + i := by omega
    rw [harg1]
    have hmle : (b.startWord w + 1) * w ≤ (b.startWord w + 1 + i) * w :=
      Nat.mul_le_mul_right _ (by omega)
    have hspos : b.startPos ⊔ ((b.startWord w + 1 + i) * w) = (b.startWord w + 1 + i) * w := by
      unfold BitBlock.startPos
      omega
    have hcpos : (b.startWord w + 1) * w ⊔ ((b.startWord w + 1 + i) * w)
        = (b.startWord w + 1 + i) * w := by omega
    rw [hspos, hcpos]


theorem pos_lt_startWord_succ_mul {b : BitBlock} {w : Nat} (hw : 0 < w) :
    b.pos < (b.startWord w + 1) * w := by
  have h4 := Nat.div_add_mod b.pos w
  have h5 : b.pos % w < w := Nat.mod_lt _ hw
  have h6 : (b.startWord w + 1) * w = w * (b.pos / w) + w := by
    unfold BitBlock.startWord BitBlock.startPos
    ring
  omega

theorem endPos_ge_of_not_contiguous {b : BitBlock} {w : Nat} (hw : 0 < w) (hl : 0 < b.len)
    (hc : ¬ b.isContiguous w) : (b.startWord w + 1) * w ≤ b.endPos := by
  have hle : b.startWord w ≤ b.endWord w := by
    unfold BitBlock.startWord BitBlock.endWord
    exact Nat.div_le_div_right (by unfold BitBlock.startPos BitBlock.endPos; omega)
  have hlt : b.startWord w < b.endWord w := by
    rcases Nat.lt_or_ge (b.startWord w) (b.endWord w) with h | h
    · exact h
    · exact absurd (by unfold BitBlock.isContiguous; omega) hc
  have h4 := Nat.div_add_mod b.endPos w
  have h6 : (b.startWord w + 1) * w ≤ w * (b.endPos / w) := by
    have h7 : b.startWord w + 1 ≤ b.endPos / w := hlt
    calc (b.startWord w + 1) * w ≤ b.endPos / w * w := Nat.mul_le_mul_right _ h7
      _ = w * (b.endPos / w) := Nat.mul_comm _ _
  omega

theorem split_tiles {w : Nat} (hw : 0 < w) :
    ∀ (n : Nat) (b : BitBlock), 0 < b.len → b.endWord w - b.startWord w = n →
      TileList w b.pos (b.split w) ∧ ((b.split w).map BitBlock.len).sum = b.len ∧
        (∀ p ∈ b.split w, p.idx = b.idx) := by
  intro n
  induction n with
  | zero =>
    intro b hl hn
    have hle : b.startWord w ≤ b.endWord w := by
      unfold BitBlock.startWord BitBlock.endWord
      exact Nat.div_le_div_right (by unfold BitBlock.startPos BitBlock.endPos; omega)
    have hc : b.isContiguous w := by
      unfold BitBlock.isContiguous
      omega
    rw [split_contiguous hw hl hc]
    refine ⟨⟨rfl, hl, hc, trivial⟩, by simp, by simp⟩
  | succ n ih =>
    intro b hl hn
    have hc : ¬ b.isContiguous w := by
      unfold BitBlock.isContiguous
      omega
    have hposlt := pos_lt_startWord_succ_mul (b := b) hw
    have hendge := endPos_ge_of_not_contiguous hw hl hc
    have hlenpos : b.pos + b.len - 1 = b.endPos := rfl
    set c := BitBlock.mk b.idx ((b.startWord w + 1) * w)
        (b.pos + b.len - (b.startWord w + 1) * w) with hcdef
    have hcl : 0 < c.len := by
      show 0 < b.pos + b.len - (b.startWord w + 1) * w
      omega
    have hcsw : c.startWord w = b.startWord w + 1 := by
      show (b.startWord w + 1) * w / w = b.startWord w + 1
      exact Nat.mul_div_cancel _ hw
    have hcend : c.endPos = b.endPos := by
      show (b.startWord w + 1) * w + (b.pos + b.len - (b.startWord w + 1) * w) - 1 = b.endPos
      unfold BitBlock.endPos
      omega
    have hcew : c.endWord w = b.endWord w := by
      unfold BitBlock.endWord
      rw [hcend]
    have hcn : c.endWord w - c.startWord w = n := by omega
    obtain ⟨iht, ihs, ihx⟩ := ih c hcl hcn
    rw [split_step hw hl hc]
    rw [← hcdef]
    have hheadc : (BitBlock.mk b.idx b.pos ((b.startWord w + 1) * w - b.pos)).isContiguous w := by
      rw [BitBlock.contiguous_iff hw (by show 0 < (b.startWord w + 1) * w - b.pos; omega)]
      show b.pos % w + ((b.startWord w + 1) * w - b.pos) ≤ w
      have h4 := Nat.div_add_mod b.pos w
      have h6 : (b.startWord w + 1) * w = w * (b.pos / w) + w := by
        unfold BitBlock.startWord BitBlock.startPos
        ring
      omega
    refine ⟨⟨rfl, by show 0 < (b.startWord w + 1) * w - b.pos; omega, hheadc, ?_⟩, ?_, ?_⟩
    · show TileList w (b.pos + ((b.startWord w + 1) * w - b.pos)) (c.split w)
      have : b.pos + ((b.startWord w + 1) * w - b.pos) = (b.startWord w + 1) * w := by omega
      rw [this]
      exact iht
    · simp only [List.map_cons, List.sum_cons]
      have : c.len = b.pos + b.len - (b.startWord w + 1) * w := rfl
      omega
    · intro p hp
      rcases List.mem_cons.mp hp with hp1 | hp1
      · rw [hp1]
      · exact ihx p hp1


theorem TilePairs_append {w : Nat} :
    ∀ (ps1 : List (BitBlock × BitBlock)) (s d : Nat) (ps2 : List (BitBlock × BitBlock)),
      TilePairs w s d ps1 →
      TilePairs w (s + (ps1.map (fun p => p.1.len)).sum)
        (d + (ps1.map (fun p => p.1.len)).sum) ps2 →
      TilePairs w s d (ps1 ++ ps2) := by
  intro ps1
  induction ps1 with
  | nil =>
    intro s d ps2 h1 h2
    simpa using h2
  | cons sd rest ih =>
    intro s d ps2 h1 h2
    obtain ⟨ha, hb, hcc, hdd, he, hf, hg⟩ := h1
    refine ⟨ha, hb, hcc, hdd, he, hf, ?_⟩
    apply ih _ _ ps2 hg
    simp only [List.map_cons, List.sum_cons] at h2
    have e1 : s + sd.1.len + (rest.map (fun p => p.1.len)).sum
        = s + (sd.1.len + (rest.map (fun p => p.1.len)).sum) := by omega
    have e2 : d + sd.1.len + (rest.map (fun p => p.1.len)).sum
        = d + (sd.1.len + (rest.map (fun p => p.1.len)).sum) := by omega
    rw [e1, e2]
    exact h2

theorem subblock_contiguous {parent : BitBlock} {w : Nat} (hw : 0 < w)
    (hpl : 0 < parent.len) (hpc : parent.isContiguous w)
    {off l : Nat} (hl : 0 < l) (hle : off + l ≤ parent.len) (idx : Nat) :
    (BitBlock.mk idx (parent.pos + off) l).isContiguous w := by
  rw [BitBlock.contiguous_iff hw hl]
  show (parent.pos + off) % w + l ≤ w
  have hp := (BitBlock.contiguous_iff hw hpl).mp hpc
  have hm := (div_mod_within hw (show parent.pos % w + off < w by omega)).2
  omega

theorem opsWalk_structure {w : Nat} (hw : 0 < w) (parent : BitBlock)
    (hpl : 0 < parent.len) (hpc : parent.isContiguous w) :
    ∀ (dsts : List BitBlock) (off d : Nat), TileList w d dsts →
      off + (dsts.map BitBlock.len).sum ≤ parent.len →
      ∃ pairs : List (BitBlock × BitBlock),
        PermutedBitBlock.opsWalk w parent.idx (parent.pos + off) dsts =
          pairs.map (fun p => BitOp.copyBlock p.1 p.2 w) ∧
        TilePairs w (parent.pos + off) d pairs ∧
        (pairs.map (fun p => p.1.len)).sum = (dsts.map BitBlock.len).sum := by
  intro dsts
  induction dsts with
  | nil =>
    intro off d ht hle
    exact ⟨[], rfl, trivial, by simp⟩
  | cons dst rest ih =>
    intro off d ht hle
    obtain ⟨hdpos, hdl, hdc, htrest⟩ := ht
    simp only [List.map_cons, List.sum_cons] at hle
    obtain ⟨pairs, hpeq, hptile, hpsum⟩ := ih (off + dst.len) (d + dst.len) htrest (by omega)
    refine ⟨(BitBlock.mk parent.idx (parent.pos + off) dst.len, dst) :: pairs, ?_, ?_, ?_⟩
    · simp only [PermutedBitBlock.opsWalk, List.map_cons]
      congr 1
      rw [show parent.pos + off + dst.len = parent.pos + (off + dst.len) by omega]
      exact hpeq
    · refine ⟨rfl, hdpos, rfl, hdl, ?_, hdc, ?_⟩
      · exact subblock_contiguous hw hpl hpc hdl (by omega) parent.idx
      · show TilePairs w (parent.pos + off + dst.len) (d + dst.len) pairs
        rw [show parent.pos + off + dst.len = parent.pos + (off + dst.len) by omega]
        exact hptile
    · simp only [List.map_cons, List.sum_cons]
      omega

theorem moveToGo_structure {w : Nat} (hw : 0 < w) :
    ∀ (parts : List BitBlock) (s d : Nat), TileList w s parts →
      ∃ pairs : List (BitBlock × BitBlock),
        (BitBlock.moveToGo w d parts).flatMap
            (fun sd => PermutedBitBlock.opsWalk w sd.1.idx sd.1.startPos sd.2) =
          pairs.map (fun p => BitOp.copyBlock p.1 p.2 w) ∧
        TilePairs w s d pairs ∧
        (pairs.map (fun p => p.1.len)).sum = (parts.map BitBlock.len).sum := by
  intro parts
  induction parts with
  | nil =>
    intro s d ht
    exact ⟨[], rfl, trivial, by simp⟩
  | cons part rest ih =>
    intro s d ht
    obtain ⟨hppos, hpl, hpc, htrest⟩ := ht
    set moved := BitBlock.mk part.idx d part.len with hmdef
    have hml : 0 < moved.len := hpl
    obtain ⟨hmt, hms, _⟩ := split_tiles hw (moved.endWord w - moved.startWord w) moved hml rfl
    have hmpos : moved.pos = d := rfl
    rw [hmpos] at hmt
    obtain ⟨pairs1, h1eq, h1tile, h1sum⟩ :=
      opsWalk_structure hw part hpl hpc (moved.split w) 0 d hmt
        (by rw [hms]; show 0 + part.len ≤ part.len; omega)
    obtain ⟨pairs2, h2eq, h2tile, h2sum⟩ := ih (s + part.len) (d + part.len) htrest
    refine ⟨pairs1 ++ pairs2, ?_, ?_, ?_⟩
    · simp only [BitBlock.moveToGo, List.flatMap_cons, List.map_append]
      rw [← hmdef, h2eq]
      have hsp : PermutedBitBlock.opsWalk w part.idx part.startPos (moved.split w)
          = PermutedBitBlock.opsWalk w part.idx (part.pos + 0) (moved.split w) := by
        rw [Nat.add_zero]
        rfl
      rw [hsp, h1eq]
    · rw [Nat.add_zero] at h1tile
      have h1tile2 : TilePairs w s d pairs1 := by rw [← hppos]; exact h1tile
      apply TilePairs_append pairs1 s d pairs2 h1tile2
      rw [h1sum, hms]
      exact h2tile
    · simp only [List.map_append, List.sum_append, List.map_cons, List.sum_cons]
      rw [h1sum, hms, h2sum]

theorem toOps_structure {w : Nat} (hw : 0 < w) (pb : PermutedBitBlock)
    (hl : 0 < pb.block.len) :
    ∃ pairs : List (BitBlock × BitBlock),
      pb.toOps w = pairs.map (fun p => BitOp.copyBlock p.1 p.2 w) ∧
      TilePairs w pb.block.pos pb.newPos pairs ∧
      (pairs.map (fun p => p.1.len)).sum = pb.block.len := by
  obtain ⟨ht, hs, _⟩ :=
    split_tiles hw (pb.block.endWord w - pb.block.startWord w) pb.block hl rfl
  obtain ⟨pairs, h1, h2, h3⟩ :=
    moveToGo_structure hw (pb.block.split w) pb.block.pos pb.newPos ht
  exact ⟨pairs, h1, h2, by rw [h3, hs]⟩

end Hloo

/-! ## OR-semantics of op lists -/

namespace Hloo

theorem lor_shiftLeft_distrib (a b t : Nat) :
    (a ||| b) <<< t = a <<< t ||| b <<< t := by
  apply Nat.eq_of_testBit_eq
  intro i
  rw [Nat.testBit_lor, Nat.testBit_shiftLeft, Nat.testBit_shiftLeft, Nat.testBit_shiftLeft,
    Nat.testBit_lor]
  by_cases h : t ≤ i <;> simp [ge_iff_le, h]

theorem lor_shiftRight_distrib (a b t : Nat) :
    (a ||| b) >>> t = a >>> t ||| b >>> t := by
  apply Nat.eq_of_testBit_eq
  intro i
  rw [Nat.testBit_lor, Nat.testBit_shiftRight, Nat.testBit_shiftRight, Nat.testBit_shiftRight,
    Nat.testBit_lor]

theorem shiftApply_lor (a b : Nat) (s : Int) :
    shiftApply (a ||| b) s = shiftApply a s ||| shiftApply b s := by
  unfold shiftApply
  by_cases h : s < 0 <;> simp only [h, if_true, if_false, ite_true, ite_false]
  · exact lor_shiftRight_distrib a b s.natAbs
  · exact lor_shiftLeft_distrib a b s.toNat

theorem land_lor_distrib (x a b : Nat) :
    x &&& (a ||| b) = (x &&& a) ||| (x &&& b) := by
  apply Nat.eq_of_testBit_eq
  intro i
  rw [Nat.testBit_lor, Nat.testBit_land, Nat.testBit_land, Nat.testBit_land, Nat.testBit_lor]
  cases x.testBit i <;> simp

theorem lor_mod_two_pow (a b t : Nat) :
    (a ||| b) % 2 ^ t = a % 2 ^ t ||| b % 2 ^ t := by
  apply Nat.eq_of_testBit_eq
  intro i
  rw [Nat.testBit_mod_two_pow, Nat.testBit_lor, Nat.testBit_lor, Nat.testBit_mod_two_pow,
    Nat.testBit_mod_two_pow]
  cases h : decide (i < t) <;> cases ha : a.testBit i <;> simp

theorem lor_eq_zero {a b : Nat} (h : a ||| b = 0) : a = 0 ∧ b = 0 := by
  constructor <;> apply Nat.eq_of_testBit_eq <;> intro i
  · have := congrArg (fun n => Nat.testBit n i) h
    simp only [Nat.testBit_lor] at this
    rcases Bool.or_eq_false_iff.mp (by simpa using this) with ⟨h1, _⟩
    simp [h1]
  · have := congrArg (fun n => Nat.testBit n i) h
    simp only [Nat.testBit_lor] at this
    rcases Bool.or_eq_false_iff.mp (by simpa using this) with ⟨_, h2⟩
    simp [h2]

/-- OR of all contributions of an op list. -/
def orContrib (w : Nat) (x : List Nat) (ops : List BitOp) : Nat :=
  ops.foldl (fun acc op => acc ||| contribVal w x op) 0

theorem foldl_lor_init (f : BitOp → Nat) :
    ∀ (ops : List BitOp) (a : Nat),
      ops.foldl (fun acc op => acc ||| f op) a =
        a ||| ops.foldl (fun acc op => acc ||| f op) 0 := by
  intro ops
  induction ops with
  | nil => intro a; simp
  | cons op rest ih =>
    intro a
    simp only [List.foldl_cons]
    rw [ih (a ||| f op), ih (0 ||| f op)]
    rw [Nat.zero_or, Nat.lor_assoc]

theorem orContrib_cons (w : Nat) (x : List Nat) (op : BitOp) (ops : List BitOp) :
    orContrib w x (op :: ops) = contribVal w x op ||| orContrib w x ops := by
  unfold orContrib
  simp only [List.foldl_cons]
  rw [foldl_lor_init (contribVal w x) ops (0 ||| contribVal w x op), Nat.zero_or]

theorem orContrib_append (w : Nat) (x : List Nat) (ops1 ops2 : List BitOp) :
    orContrib w x (ops1 ++ ops2) = orContrib w x ops1 ||| orContrib w x ops2 := by
  induction ops1 with
  | nil => simp [orContrib]
  | cons op rest ih =>
    rw [List.cons_append, orContrib_cons, orContrib_cons, ih, Nat.lor_assoc]

theorem orContrib_nil (w : Nat) (x : List Nat) : orContrib w x [] = 0 := rfl

theorem testBit_orContrib (w : Nat) (x : List Nat) :
    ∀ (ops : List BitOp) (j : Nat),
      (orContrib w x ops).testBit j = ops.any (fun op => (contribVal w x op).testBit j) := by
  intro ops
  induction ops with
  | nil => intro j; simp [orContrib]
  | cons op rest ih =>
    intro j
    rw [orContrib_cons, Nat.testBit_lor, ih j, List.any_cons]

theorem orContrib_lt {w : Nat} {x : List Nat} (hx : ∀ i, x.getD i 0 < 2 ^ w) :
    ∀ (ops : List BitOp), orContrib w x ops < 2 ^ w := by
  intro ops
  induction ops with
  | nil => exact two_pow_pos w
  | cons op rest ih =>
    rw [orContrib_cons]
    exact Nat.or_lt_two_pow (contribVal_lt (hx op.srcWord)) ih

theorem applyOp_noCopy {w : Nat} {x : List Nat} {op : BitOp} (h : op.isCopy = false)
    (a : Nat) : applyOp w x a op = a ||| contribVal w x op := by
  cases op with
  | copy s d => simp [BitOp.isCopy] at h
  | maskAndCopy s m d => rfl
  | maskShiftAndCopy s m sh d => rfl

theorem foldl_applyOp_noCopy {w : Nat} {x : List Nat} :
    ∀ (ops : List BitOp), (∀ op ∈ ops, op.isCopy = false) →
      ∀ a, ops.foldl (applyOp w x) a = a ||| orContrib w x ops := by
  intro ops
  induction ops with
  | nil => intro _ a; simp [orContrib]
  | cons op rest ih =>
    intro h a
    simp only [List.foldl_cons]
    rw [applyOp_noCopy (h op (List.mem_cons_self _ _)) a,
      ih (fun o ho => h o (List.mem_cons_of_mem _ ho)) (a ||| contribVal w x op),
      orContrib_cons, Nat.lor_assoc]

/-- Execution agrees with the OR of contributions as long as any Copy op
sits at the head of the word program. -/
theorem execWord_eq_orContrib {w : Nat} {x : List Nat} (ops : List BitOp)
    (h : ∀ op ∈ ops.tail, op.isCopy = false) :
    execWord w x ops = orContrib w x ops := by
  cases ops with
  | nil => rfl
  | cons op rest =>
    unfold execWord
    simp only [List.foldl_cons]
    rw [foldl_applyOp_noCopy rest h (applyOp w x 0 op), orContrib_cons]
    congr 1
    cases op with
    | copy s d => rfl
    | maskAndCopy s m d => simp [applyOp]
    | maskShiftAndCopy s m sh d => simp [applyOp]

end Hloo

/-! ## Structure of groupRuns -/

namespace Hloo

theorem groupRuns_flatten : ∀ (l : List BitOp), (groupRuns l).flatten = l := by
  intro l
  induction l with
  | nil => rfl
  | cons op rest ih =>
    cases hgr : groupRuns rest with
    | nil =>
      simp only [groupRuns, hgr]
      rw [hgr] at ih
      simp at ih
      simp [ih]
    | cons run runs =>
      cases run with
      | nil =>
        simp only [groupRuns, hgr]
        rw [hgr] at ih
        simp only [List.flatten_cons, List.flatten] at ih ⊢
        simp at ih ⊢
        exact ih
      | cons r0 r =>
        simp only [groupRuns, hgr]
        rw [hgr] at ih
        by_cases hk : opKey op = opKey r0
        · simp only [hk, if_true, ite_true]
          simp only [List.flatten_cons] at ih ⊢
          simp [← ih]
        · simp only [hk, if_false, ite_false]
          simp only [List.flatten_cons] at ih ⊢
          simp [← ih]

theorem groupRuns_runs_spec :
    ∀ (l : List BitOp) (run : List BitOp), run ∈ groupRuns l →
      run ≠ [] ∧ ∀ o ∈ run, ∀ o2 ∈ run, opKey o = opKey o2 := by
  intro l
  induction l with
  | nil => intro run h; simp [groupRuns] at h
  | cons op rest ih =>
    intro run hrun
    cases hgr : groupRuns rest with
    | nil =>
      rw [groupRuns, hgr] at hrun
      simp at hrun
      subst hrun
      refine ⟨by simp, ?_⟩
      intro o ho o2 ho2
      simp at ho ho2
      rw [ho, ho2]
    | cons run0 runs =>
      cases run0 with
      | nil =>
        rw [groupRuns, hgr] at hrun
        rcases List.mem_cons.mp hrun with h1 | h1
        · subst h1
          refine ⟨by simp, ?_⟩
          intro o ho o2 ho2
          simp at ho ho2
          rw [ho, ho2]
        · rcases List.mem_cons.mp h1 with h2 | h2
          · -- run = [] ∈ groupRuns rest: contradicts ih
            have := ih [] (by rw [hgr]; exact List.mem_cons_self _ _)
            exact absurd rfl (h2 ▸ this.1)
          · exact ih run (by rw [hgr]; exact List.mem_cons_of_mem _ h2)
      | cons r0 r =>
        rw [groupRuns, hgr] at hrun
        by_cases hk : opKey op = opKey r0
        · simp only [hk, if_true, ite_true] at hrun
          rcases List.mem_cons.mp hrun with h1 | h1
          · subst h1
            have hold := ih (r0 :: r) (by rw [hgr]; exact List.mem_cons_self _ _)
            refine ⟨by simp, ?_⟩
            intro o ho o2 ho2
            have key_of : ∀ z ∈ op :: r0 :: r, opKey z = opKey r0 := by
              intro z hz
              rcases List.mem_cons.mp hz with hz1 | hz1
              · rw [hz1, hk]
              · exact hold.2 z hz1 r0 (List.mem_cons_self _ _)
            rw [key_of o ho, key_of o2 ho2]
          · exact ih run (by rw [hgr]; exact List.mem_cons_of_mem _ h1)
        · simp only [hk, if_false, ite_false] at hrun
          rcases List.mem_cons.mp hrun with h1 | h1
          · subst h1
            refine ⟨by simp, ?_⟩
            intro o ho o2 ho2
            simp at ho ho2
            rw [ho, ho2]
          · exact ih run (by rw [hgr]; exact h1)

end Hloo

namespace Hloo

/-- The head-dst filter used by compilePermutation. -/
def runDstIs (d : Nat) (run : List BitOp) : Bool :=
  match run with
  | [] => false
  | op :: _ => op.dstWord = d

theorem flatten_filter_uniform (d : Nat) :
    ∀ (runs : List (List BitOp)),
      (∀ run ∈ runs, ∀ o ∈ run, ∀ o2 ∈ run, opKey o = opKey o2) →
      ((runs.filter (runDstIs d)).flatten : List BitOp) =
        runs.flatten.filter (fun op => op.dstWord = d) := by
  intro runs
  induction runs with
  | nil => intro _; rfl
  | cons run rest ih =>
    intro h
    have hrest := fun r hr => h r (List.mem_cons_of_mem _ hr)
    cases run with
    | nil =>
      simp only [List.filter_cons, runDstIs, List.flatten_cons]
      simp [ih hrest]
    | cons r0 r =>
      have hkey := h (r0 :: r) (List.mem_cons_self _ _)
      by_cases hd : r0.dstWord = d
      · have hall : ∀ o ∈ r0 :: r, o.dstWord = d := by
          intro o ho
          have := hkey o ho r0 (List.mem_cons_self _ _)
          unfold opKey at this
          have hfst := congrArg Prod.fst this
          simp at hfst
          rw [hfst, hd]
        rw [List.filter_cons_of_pos (by simp [runDstIs, hd])]
        rw [List.flatten_cons, List.flatten_cons, List.filter_append]
        congr 1
        · exact (List.filter_eq_self.mpr (by intro o ho; simp [hall o ho])).symm
        · exact ih hrest
      · have hall : ∀ o ∈ r0 :: r, ¬ o.dstWord = d := by
          intro o ho
          have := hkey o ho r0 (List.mem_cons_self _ _)
          unfold opKey at this
          have hfst := congrArg Prod.fst this
          simp at hfst
          rw [hfst]
          exact hd
        rw [List.filter_cons_of_neg (by simp [runDstIs, hd]), List.flatten_cons,
          List.filter_append, ih hrest]
        have hnil : List.filter (fun op => decide (op.dstWord = d)) (r0 :: r) = [] :=
          List.filter_eq_nil_iff.mpr (by intro o ho; simp [hall o ho])
        rw [hnil]
        simp

end Hloo

/-! ## Semantics of BitOp::combine and the optimizer loop -/

namespace Hloo

theorem loGo_le : ∀ (i m : Nat), loGo i m ≤ i := by
  intro i
  induction i with
  | zero => intro m; simp [loGo]
  | succ i ih =>
    intro m
    unfold loGo
    by_cases h : m.testBit i <;> simp [h]
    have := ih m
    omega

theorem loGo_full : ∀ (i m : Nat), loGo i m = i → ∀ j, j < i → m.testBit j = true := by
  intro i
  induction i with
  | zero => intro m _ j hj; omega
  | succ i ih =>
    intro m h j hj
    unfold loGo at h
    by_cases hb : m.testBit i
    · simp only [hb, if_true, ite_true] at h
      rcases Nat.lt_or_ge j i with hji | hji
      · exact ih m (by omega) j hji
      · have : j = i := by omega
        rw [this]
        exact hb
    · simp [hb] at h

theorem leadingOnes64_eq_word {m w : Nat} (hw : 0 < w) (hw64 : w ≤ 64) (hm : m < 2 ^ w)
    (h : leadingOnes64 m = w) : w = 64 ∧ m = 2 ^ 64 - 1 := by
  have hb63 : m.testBit 63 = true := by
    unfold leadingOnes64 at h
    unfold loGo at h
    by_cases hb : m.testBit 63
    · exact hb
    · simp [hb] at h
      omega
  have hw64eq : w = 64 := by
    by_contra hc
    have : w ≤ 63 := by omega
    have : m < 2 ^ 63 := lt_of_lt_of_le hm (Nat.pow_le_pow_right (by norm_num) this)
    rw [Nat.testBit_eq_false_of_lt this] at hb63
    exact Bool.false_ne_true hb63
  refine ⟨hw64eq, ?_⟩
  have hall := loGo_full 64 m (by unfold leadingOnes64 at h; omega)
  apply Nat.eq_of_testBit_eq
  intro i
  rw [Nat.testBit_two_pow_sub_one]
  rcases Nat.lt_or_ge i 64 with hi | hi
  · simp [hall i hi, hi]
  · rw [testBit_of_lt_two_pow (hw64eq ▸ hm) hi]
    simp
    omega

theorem combineMasks_some {m1 m2 m : Nat} (h : combineMasks m1 m2 = some m) :
    m = m1 ||| m2 := by
  unfold combineMasks at h
  by_cases hc : (unmask m1).1 + (unmask m1).2 = (unmask m2).1 ∨
      (unmask m2).1 + (unmask m2).2 = (unmask m1).1
  · simp only [hc, if_true, ite_true, Option.some.injEq] at h
    exact h.symm
  · simp [hc] at h

theorem combine_some_spec {w : Nat} {o1 o2 c : BitOp}
    (h1 : OpWF w o1) (h2 : OpWF w o2) (hc1 : o1.isCopy = false) (hc2 : o2.isCopy = false)
    (hcomb : o1.combine o2 = some c) (x : List Nat) :
    c.dstWord = o1.dstWord ∧ c.srcWord = o1.srcWord ∧ c.isCopy = false ∧ OpWF w c ∧
    opRegion w c = opRegion w o1 ||| opRegion w o2 ∧
    contribVal w x c = contribVal w x o1 ||| contribVal w x o2 ∧
    c.maskOf = o1.maskOf ||| o2.maskOf := by
  unfold BitOp.combine at hcomb
  by_cases hcl : o1.cloneWithMask 0 = o2.cloneWithMask 0
  · simp only [hcl, if_true, ite_true] at hcomb
    cases hcm : combineMasks o1.maskOf o2.maskOf with
    | none => rw [hcm] at hcomb; simp at hcomb
    | some m =>
      rw [hcm] at hcomb
      simp only [Option.some.injEq] at hcomb
      have hm := combineMasks_some hcm
      subst hm
      cases o1 with
      | copy s d => simp [BitOp.isCopy] at hc1
      | maskAndCopy s m1 d =>
        cases o2 with
        | copy s2 d2 => simp [BitOp.isCopy] at hc2
        | maskShiftAndCopy s2 m2 sh2 d2 => simp [BitOp.cloneWithMask] at hcl
        | maskAndCopy s2 m2 d2 =>
          simp only [BitOp.cloneWithMask, BitOp.maskAndCopy.injEq] at hcl
          obtain ⟨hse, -, hde⟩ := hcl
          subst hse
          subst hde
          subst hcomb
          simp only [BitOp.cloneWithMask, BitOp.maskOf, BitOp.dstWord, BitOp.srcWord,
            BitOp.isCopy, opRegion, contribVal]
          refine ⟨by trivial, by trivial, by trivial, ⟨?_, ?_⟩, by trivial, ?_, by trivial⟩
          · intro hz
            exact h1.1 (lor_eq_zero hz).1
          · exact Nat.or_lt_two_pow h1.2 h2.2
          · rw [lor_mod_two_pow, land_lor_distrib]
      | maskShiftAndCopy s m1 sh d =>
        cases o2 with
        | copy s2 d2 => simp [BitOp.isCopy] at hc2
        | maskAndCopy s2 m2 d2 => simp [BitOp.cloneWithMask] at hcl
        | maskShiftAndCopy s2 m2 sh2 d2 =>
          simp only [BitOp.cloneWithMask, BitOp.maskShiftAndCopy.injEq] at hcl
          obtain ⟨hse, -, hshe, hde⟩ := hcl
          subst hse
          subst hde
          subst hshe
          subst hcomb
          obtain ⟨m1ne, m1lt, r1ne, r1lt, neg1⟩ := h1
          obtain ⟨m2ne, m2lt, r2ne, r2lt, neg2⟩ := h2
          simp only [BitOp.cloneWithMask, BitOp.maskOf, BitOp.dstWord, BitOp.srcWord,
            BitOp.isCopy, opRegion, contribVal]
          refine ⟨by trivial, by trivial, by trivial, ⟨?_, ?_, ?_, ?_, ?_⟩, ?_, ?_, by trivial⟩
          · intro hz
            exact m1ne (lor_eq_zero hz).1
          · exact Nat.or_lt_two_pow m1lt m2lt
          · rw [shiftApply_lor]
            intro hz
            exact r1ne (lor_eq_zero hz).1
          · rw [shiftApply_lor]
            exact Nat.or_lt_two_pow r1lt r2lt
          · intro hneg
            rw [lor_mod_two_pow, neg1 hneg, neg2 hneg]
            rfl
          · rw [shiftApply_lor]
          · rw [lor_mod_two_pow, Nat.mod_eq_of_lt m1lt, Nat.mod_eq_of_lt m2lt,
              land_lor_distrib, shiftApply_lor, lor_mod_two_pow,
              ← Nat.mod_eq_of_lt m1lt, ← Nat.mod_eq_of_lt m2lt]
  · simp [hcl] at hcomb

end Hloo

namespace Hloo

theorem maskOf_lt {w : Nat} {op : BitOp} (h : OpWF w op) (hnc : op.isCopy = false) :
    op.maskOf < 2 ^ w := by
  cases op with
  | copy s d => simp [BitOp.isCopy] at hnc
  | maskAndCopy s m d => exact h.2
  | maskShiftAndCopy s m sh d => exact h.2.1

theorem maskOf_ne_zero {w : Nat} {op : BitOp} (h : OpWF w op) (hnc : op.isCopy = false) :
    op.maskOf ≠ 0 := by
  cases op with
  | copy s d => simp [BitOp.isCopy] at hnc
  | maskAndCopy s m d => exact h.1
  | maskShiftAndCopy s m sh d => exact h.1

theorem land_two_pow_sub_one {a w : Nat} (h : a < 2 ^ w) : a &&& (2 ^ w - 1) = a := by
  apply Nat.eq_of_testBit_eq
  intro i
  rw [Nat.testBit_land, Nat.testBit_two_pow_sub_one]
  rcases Nat.lt_or_ge i w with hi | hi
  · simp [hi]
  · rw [testBit_of_lt_two_pow h hi]
    simp

theorem land_lor_distrib_right (a b c : Nat) :
    (a ||| b) &&& c = (a &&& c) ||| (b &&& c) := by
  apply Nat.eq_of_testBit_eq
  intro i
  rw [Nat.testBit_lor, Nat.testBit_land, Nat.testBit_land, Nat.testBit_land, Nat.testBit_lor]
  cases a.testBit i <;> cases b.testBit i <;> cases c.testBit i <;> simp

/-- OR of all regions of an op list. -/
def orRegions (w : Nat) (ops : List BitOp) : Nat :=
  ops.foldl (fun acc op => acc ||| opRegion w op) 0

theorem orRegions_cons (w : Nat) (op : BitOp) (ops : List BitOp) :
    orRegions w (op :: ops) = opRegion w op ||| orRegions w ops := by
  unfold orRegions
  simp only [List.foldl_cons]
  rw [foldl_lor_init (opRegion w) ops (0 ||| opRegion w op), Nat.zero_or]

theorem land_orRegions_eq_zero {w a : Nat} :
    ∀ (ops : List BitOp), (∀ op ∈ ops, a &&& opRegion w op = 0) →
      a &&& orRegions w ops = 0 := by
  intro ops
  induction ops with
  | nil => intro _; simp [orRegions]
  | cons op rest ih =>
    intro h
    rw [orRegions_cons, land_lor_distrib]
    rw [h op (List.mem_cons_self _ _), ih (fun o ho => h o (List.mem_cons_of_mem _ ho))]
    rfl

/-- An op whose mask is all ones acts as a full-word copy. -/
theorem full_mask_semantics {w : Nat} {c : BitOp} {x : List Nat}
    (hw : 0 < w) (hwf : OpWF w c) (hnc : c.isCopy = false)
    (hm : c.maskOf = 2 ^ w - 1) (hx : x.getD c.srcWord 0 < 2 ^ w) :
    contribVal w x c = x.getD c.srcWord 0 ∧ opRegion w c = 2 ^ w - 1 := by
  have hp := two_pow_pos w
  have hmod : (2 ^ w - 1) % 2 ^ w = 2 ^ w - 1 := Nat.mod_eq_of_lt (by omega)
  cases c with
  | copy s d => simp [BitOp.isCopy] at hnc
  | maskAndCopy s m d =>
    simp only [BitOp.maskOf] at hm
    subst hm
    simp only [BitOp.srcWord] at hx
    simp only [contribVal, opRegion, BitOp.srcWord]
    exact ⟨by rw [hmod, land_two_pow_sub_one hx], by trivial⟩
  | maskShiftAndCopy s m sh d =>
    simp only [BitOp.maskOf] at hm
    subst hm
    obtain ⟨-, -, hrne, hrlt, hneg⟩ := hwf
    have hsh : sh = 0 := by
      rcases Int.lt_trichotomy sh 0 with h | h | h
      · exfalso
        have hmodz := hneg h
        have htpos : 1 ≤ sh.natAbs := by omega
        have hdvd2 : (2 : Nat) ∣ 2 ^ sh.natAbs := dvd_pow_self 2 (by omega)
        have hdvdm : (2 : Nat) ^ sh.natAbs ∣ 2 ^ w - 1 := Nat.dvd_of_mod_eq_zero hmodz
        have h2 : (2 : Nat) ∣ 2 ^ w - 1 := dvd_trans hdvd2 hdvdm
        have hodd : (2 ^ w - 1) % 2 = 1 := by
          have : 2 ^ w % 2 = 0 := by
            have : (2 : Nat) ∣ 2 ^ w := dvd_pow_self 2 (by omega)
            omega
          omega
        omega
      · exact h
      · exfalso
        have : shiftApply (2 ^ w - 1) sh = (2 ^ w - 1) <<< sh.toNat := by
          unfold shiftApply
          rw [if_neg (by omega)]
        rw [this, Nat.shiftLeft_eq] at hrlt
        have h1 : (2 : Nat) ≤ 2 ^ sh.toNat := by
          calc (2 : Nat) = 2 ^ 1 := by norm_num
            _ ≤ 2 ^ sh.toNat := Nat.pow_le_pow_right (by norm_num) (by omega)
        have h2 : (2 ^ w - 1) * 2 ≤ (2 ^ w - 1) * 2 ^ sh.toNat :=
          Nat.mul_le_mul_left _ h1
        have h3 : 2 ^ w ≤ (2 ^ w - 1) * 2 := by
          have h4 : (2 : Nat) ≤ 2 ^ w := by
            calc (2 : Nat) = 2 ^ 1 := by norm_num
              _ ≤ 2 ^ w := Nat.pow_le_pow_right (by norm_num) (by omega)
          omega
        omega
    subst hsh
    have hsa : ∀ v : Nat, shiftApply v 0 = v := by
      intro v
      unfold shiftApply
      rw [if_neg (by omega)]
      simp [Int.toNat]
    simp only [BitOp.srcWord] at hx
    simp only [contribVal, opRegion, BitOp.srcWord]
    rw [hmod, hsa, hsa, land_two_pow_sub_one hx, Nat.mod_eq_of_lt hx]
    exact ⟨rfl, rfl⟩

end Hloo

namespace Hloo

/-- Shorthand for the per-run hypotheses on ops. -/
def OpGood (w d s : Nat) (op : BitOp) : Prop :=
  op.dstWord = d ∧ op.srcWord = s ∧ OpWF w op ∧ op.isCopy = false

/-- Correctness of the optimizer loop over one group: the OR of
contributions and the OR of regions are preserved, destination and source
words are preserved, and a Copy is emitted only as the sole op of a group
covering the whole word. -/
theorem optRun_true_spec {w : Nat} (hw : 0 < w) (hw64 : w ≤ 64) (d s : Nat)
    (x : List Nat) (hxs : x.getD s 0 < 2 ^ w) :
    ∀ (rest : List BitOp) (prev : BitOp), OpGood w d s prev →
      (∀ op ∈ rest, OpGood w d s op) →
      List.Pairwise (fun o1 o2 => opRegion w o1 &&& opRegion w o2 = 0) (prev :: rest) →
      orContrib w x (optRun w true d s prev rest) =
          contribVal w x prev ||| orContrib w x rest ∧
      (∀ op ∈ optRun w true d s prev rest, op.dstWord = d ∧ op.srcWord = s) ∧
      ((∀ op ∈ optRun w true d s prev rest, op.isCopy = false) ∨
        (optRun w true d s prev rest = [BitOp.copy s d] ∧
          opRegion w prev ||| orRegions w rest = 2 ^ w - 1)) := by
  intro rest
  induction rest with
  | nil =>
    intro prev hprev _ _
    refine ⟨?_, ?_, Or.inl ?_⟩
    · rw [show optRun w true d s prev [] = [prev] from rfl, orContrib_cons, orContrib_nil]
    · intro op hop
      simp only [optRun, List.mem_singleton] at hop
      rw [hop]
      exact ⟨hprev.1, hprev.2.1⟩
    · intro op hop
      simp only [optRun, List.mem_singleton] at hop
      rw [hop]
      exact hprev.2.2.2
  | cons op rest2 ih =>
    intro prev hprev hall hpw
    have hop := hall op (List.mem_cons_self _ _)
    have hall2 : ∀ o ∈ rest2, OpGood w d s o := fun o ho => hall o (List.mem_cons_of_mem _ ho)
    have hpw1 := List.pairwise_cons.mp hpw
    have hpw2 := List.pairwise_cons.mp hpw1.2
    -- hpw1.1 : ∀ y ∈ op :: rest2, opRegion prev &&& opRegion y = 0
    -- hpw2.1 : ∀ y ∈ rest2, opRegion op &&& opRegion y = 0
    show orContrib w x (optRun w true d s prev (op :: rest2)) = _ ∧ _
    unfold optRun
    simp only [if_true, ite_true]
    cases hcomb : prev.combine op with
    | some c =>
      obtain ⟨hcd, hcs, hcnc, hcwf, hcreg, hccontrib, hcmask⟩ :=
        combine_some_spec hprev.2.2.1 hop.2.2.1 hprev.2.2.2 hop.2.2.2 hcomb x
      simp only [hcomb]
      by_cases hfull : leadingOnes64 c.maskOf = w
      · simp only [hfull, if_true, ite_true]
        obtain ⟨hw64eq, hmfull⟩ :=
          leadingOnes64_eq_word hw hw64 (maskOf_lt hcwf hcnc) hfull
        have hsrcc : x.getD c.srcWord 0 < 2 ^ w := by rw [hcs, hprev.2.1]; exact hxs
        obtain ⟨hcontribfull, hregfull⟩ :=
          full_mask_semantics hw hcwf hcnc (by rw [hmfull, hw64eq]) hsrcc
        have hrest2nil : rest2 = [] := by
          cases rest2 with
          | nil => rfl
          | cons o2 r2 =>
            exfalso
            have hdisj1 := hpw1.1 o2 (List.mem_cons_of_mem _ (List.mem_cons_self _ _))
            have hdisj2 := hpw2.1 o2 (List.mem_cons_self _ _)
            have ho2 := hall2 o2 (List.mem_cons_self _ _)
            have hreg2ne : opRegion w o2 ≠ 0 := opRegion_ne_zero ho2.2.2.1 hw
            have hreg2lt : opRegion w o2 < 2 ^ w := opRegion_lt ho2.2.2.1
            have hz : opRegion w c &&& opRegion w o2 = 0 := by
              rw [hcreg, land_lor_distrib_right, hdisj1, hdisj2]
              rfl
            rw [hregfull, Nat.land_comm, land_two_pow_sub_one hreg2lt] at hz
            exact hreg2ne hz
        subst hrest2nil
        refine ⟨?_, ?_, Or.inr ⟨rfl, ?_⟩⟩
        · show orContrib w x [BitOp.copy s d] = contribVal w x prev ||| orContrib w x [op]
          rw [orContrib_cons, orContrib_nil, orContrib_cons, orContrib_nil]
          have h1 : contribVal w x (BitOp.copy s d) = x.getD s 0 := rfl
          have h2 : x.getD s 0 = x.getD c.srcWord 0 := by rw [hcs, hprev.2.1]
          rw [h1, h2, ← hcontribfull, hccontrib, Nat.or_zero, Nat.or_zero]
        · intro o ho
          simp only [optRun, List.mem_singleton] at ho
          rw [ho]
          exact ⟨rfl, rfl⟩
        · rw [orRegions_cons]
          have h0 : orRegions w ([] : List BitOp) = 0 := rfl
          rw [h0, Nat.or_zero, ← hcreg, hregfull]
      · simp only [hfull, if_false, ite_false]
        have hcgood : OpGood w d s c := ⟨hcd ▸ hprev.1, by rw [hcs]; exact hprev.2.1, hcwf, hcnc⟩
        have hpwc : List.Pairwise (fun o1 o2 => opRegion w o1 &&& opRegion w o2 = 0)
            (c :: rest2) := by
          apply List.pairwise_cons.mpr
          refine ⟨?_, hpw2.2⟩
          intro y hy
          rw [hcreg, land_lor_distrib_right]
          rw [hpw1.1 y (List.mem_cons_of_mem _ hy), hpw2.1 y hy]
          rfl
        obtain ⟨ihc, ihk, ihd⟩ := ih c hcgood hall2 hpwc
        refine ⟨?_, ihk, ?_⟩
        · rw [ihc, hccontrib, orContrib_cons, Nat.lor_assoc]
        · rcases ihd with hleft | ⟨hright, hrreg⟩
          · exact Or.inl hleft
          · refine Or.inr ⟨hright, ?_⟩
            rw [orRegions_cons, ← Nat.lor_assoc, ← hcreg]
            exact hrreg
    | none =>
      simp only [hcomb]
      obtain ⟨ihc, ihk, ihd⟩ := ih op hop hall2 hpw1.2
      refine ⟨?_, ?_, ?_⟩
      · rw [orContrib_cons, ihc, orContrib_cons]
      · intro o ho
        rcases List.mem_cons.mp ho with h1 | h1
        · rw [h1]
          exact ⟨hprev.1, hprev.2.1⟩
        · exact ihk o h1
      · rcases ihd with hleft | ⟨hright, hrreg⟩
        · refine Or.inl ?_
          intro o ho
          rcases List.mem_cons.mp ho with h1 | h1
          · rw [h1]
            exact hprev.2.2.2
          · exact hleft o h1
        · exfalso
          have hprne : opRegion w prev ≠ 0 := opRegion_ne_zero hprev.2.2.1 hw
          have hprlt : opRegion w prev < 2 ^ w := opRegion_lt hprev.2.2.1
          have hdisj : opRegion w prev &&& (opRegion w op ||| orRegions w rest2) = 0 := by
            rw [land_lor_distrib]
            rw [hpw1.1 op (List.mem_cons_self _ _)]
            rw [land_orRegions_eq_zero rest2
              (fun o2 ho2 => hpw1.1 o2 (List.mem_cons_of_mem _ ho2))]
            rfl
          rw [hrreg, land_two_pow_sub_one hprlt] at hdisj
          exact hprne hdisj

end Hloo

namespace Hloo

theorem optRun_false_id {w d s : Nat} :
    ∀ (rest : List BitOp) (prev : BitOp), optRun w false d s prev rest = prev :: rest := by
  intro rest
  induction rest with
  | nil => intro prev; rfl
  | cons op rest2 ih =>
    intro prev
    unfold optRun
    simp only [Bool.false_eq_true, if_false, ite_false]
    rw [ih op]

theorem orRegions_append (w : Nat) (ops1 ops2 : List BitOp) :
    orRegions w (ops1 ++ ops2) = orRegions w ops1 ||| orRegions w ops2 := by
  induction ops1 with
  | nil => simp [orRegions]
  | cons op rest ih =>
    rw [List.cons_append, orRegions_cons, orRegions_cons, ih, Nat.lor_assoc]

/-- Specification of the output of compiling one group: contributions are
preserved, and a Copy appears only as the single op of a group covering the
whole destination word. -/
def RunOut (w : Nat) (x : List Nat) (d : Nat) (r out : List BitOp) : Prop :=
  orContrib w x out = orContrib w x r ∧
  (∀ op ∈ out, op.dstWord = d) ∧
  ((∀ op ∈ out, op.isCopy = false) ∨
    (∃ s, out = [BitOp.copy s d] ∧ orRegions w r = 2 ^ w - 1))

theorem copy_forces_singleton {w : Nat} (hw : 0 < w) {l : List BitOp}
    (hwfall : ∀ op ∈ l, OpWF w op)
    (hpw : List.Pairwise (fun o1 o2 => opRegion w o1 &&& opRegion w o2 = 0) l)
    {c : BitOp} (hcmem : c ∈ l) (hccopy : c.isCopy = true) : l = [c] := by
  have hregc : opRegion w c = 2 ^ w - 1 := by
    cases c with
    | copy s0 d0 => rfl
    | maskAndCopy s0 m0 d0 => simp [BitOp.isCopy] at hccopy
    | maskShiftAndCopy s0 m0 sh0 d0 => simp [BitOp.isCopy] at hccopy
  cases l with
  | nil => simp at hcmem
  | cons h t =>
    have hpw1 := List.pairwise_cons.mp hpw
    rcases List.mem_cons.mp hcmem with hch | hct
    · subst hch
      cases t with
      | nil => rfl
      | cons o2 t2 =>
        exfalso
        have hdisj := hpw1.1 o2 (List.mem_cons_self _ _)
        rw [hregc, Nat.land_comm,
          land_two_pow_sub_one (opRegion_lt (hwfall o2
            (List.mem_cons_of_mem _ (List.mem_cons_self _ _))))] at hdisj
        exact opRegion_ne_zero (hwfall o2
          (List.mem_cons_of_mem _ (List.mem_cons_self _ _))) hw hdisj
    · exfalso
      have hdisj := hpw1.1 c hct
      rw [hregc,
        land_two_pow_sub_one (opRegion_lt (hwfall h (List.mem_cons_self _ _)))] at hdisj
      exact opRegion_ne_zero (hwfall h (List.mem_cons_self _ _)) hw hdisj

theorem compileGroup_runOut {w : Nat} (hw : 0 < w) (hw64 : w ≤ 64) {x : List Nat}
    (hx : ∀ i, x.getD i 0 < 2 ^ w) (d : Nat) (opt : Bool) (r : List BitOp)
    (hne : r ≠ [])
    (hgood : ∀ op ∈ r, op.dstWord = d ∧ OpWF w op)
    (hkey : ∀ o ∈ r, ∀ o2 ∈ r, opKey o = opKey o2)
    (hpw : List.Pairwise (fun o1 o2 => opRegion w o1 &&& opRegion w o2 = 0) r) :
    RunOut w x d r (compileGroup w opt r) := by
  by_cases hcopy : ∃ c ∈ r, c.isCopy = true
  · obtain ⟨c, hcmem, hccopy⟩ := hcopy
    have hwfall : ∀ op ∈ r, OpWF w op := fun op hop => (hgood op hop).2
    have hsingle := copy_forces_singleton hw hwfall hpw hcmem hccopy
    subst hsingle
    have hcg : compileGroup w opt [c] = [c] := by
      unfold compileGroup
      unfold optRun
      rfl
    rw [hcg]
    obtain ⟨s0, d0, hcform⟩ : ∃ s0 d0, c = BitOp.copy s0 d0 := by
      cases c with
      | copy s0 d0 => exact ⟨s0, d0, rfl⟩
      | maskAndCopy s0 m0 d0 => simp [BitOp.isCopy] at hccopy
      | maskShiftAndCopy s0 m0 sh0 d0 => simp [BitOp.isCopy] at hccopy
    have hd0 : d0 = d := by
      have := (hgood c (List.mem_cons_self _ _)).1
      rw [hcform] at this
      exact this
    refine ⟨rfl, fun op hop => (hgood op hop).1, Or.inr ⟨s0, ?_, ?_⟩⟩
    · rw [hcform, hd0]
    · rw [orRegions_cons]
      have h0 : orRegions w ([] : List BitOp) = 0 := rfl
      rw [h0, Nat.or_zero]
      rw [hcform]
      rfl
  · push_neg at hcopy
    have hnocopy : ∀ op ∈ r, op.isCopy = false := by
      intro op hop
      cases hb : op.isCopy
      · rfl
      · exact absurd hb (by simpa using hcopy op hop)
    cases r with
    | nil => exact absurd rfl hne
    | cons h t =>
      have hsrc : ∀ op ∈ h :: t, op.srcWord = h.srcWord := by
        intro op hop
        have := hkey op hop h (List.mem_cons_self _ _)
        unfold opKey at this
        exact congrArg Prod.snd this
      cases opt with
      | false =>
        have hcg : compileGroup w false (h :: t) = h :: t := by
          show optRun w false h.dstWord h.srcWord h t = h :: t
          rw [optRun_false_id]
        rw [hcg]
        exact ⟨rfl, fun op hop => (hgood op hop).1, Or.inl hnocopy⟩
      | true =>
        have hgood2 : ∀ op ∈ h :: t, OpGood w d h.srcWord op := fun op hop =>
          ⟨(hgood op hop).1, hsrc op hop, (hgood op hop).2, hnocopy op hop⟩
        obtain ⟨hcontrib, hkeys, hdisj⟩ :=
          optRun_true_spec hw hw64 d h.srcWord x (hx h.srcWord) t h
            (hgood2 h (List.mem_cons_self _ _))
            (fun o ho => hgood2 o (List.mem_cons_of_mem _ ho)) hpw
        have hcg : compileGroup w true (h :: t) =
            optRun w true d h.srcWord h t := by
          show optRun w true h.dstWord h.srcWord h t = optRun w true d h.srcWord h t
          rw [(hgood h (List.mem_cons_self _ _)).1]
        refine ⟨?_, ?_, ?_⟩
        · rw [hcg, hcontrib, orContrib_cons]
        · intro op hop
          rw [hcg] at hop
          exact (hkeys op hop).1
        · rw [hcg]
          rcases hdisj with hleft | ⟨hform, hreg⟩
          · exact Or.inl hleft
          · refine Or.inr ⟨h.srcWord, hform, ?_⟩
            rw [orRegions_cons]
            exact hreg

end Hloo

namespace Hloo

/-- Assembling the per-run outputs of one destination word: contributions
are preserved and a Copy can only appear as the single op of the whole
word program. -/
theorem flatMap_runOut {w : Nat} (hw : 0 < w) {x : List Nat} (d : Nat)
    (cg : List BitOp → List BitOp) :
    ∀ (F : List (List BitOp)),
      (∀ r ∈ F, r ≠ [] ∧ (∀ op ∈ r, op.dstWord = d ∧ OpWF w op) ∧
        RunOut w x d r (cg r)) →
      List.Pairwise (fun l1 l2 => ∀ o1 ∈ l1, ∀ o2 ∈ l2,
        opRegion w o1 &&& opRegion w o2 = 0) F →
      orContrib w x (F.flatMap cg) = orContrib w x F.flatten ∧
      ((∀ op ∈ F.flatMap cg, op.isCopy = false) ∨
        (∃ s, F.flatMap cg = [BitOp.copy s d] ∧
          orRegions w F.flatten = 2 ^ w - 1)) := by
  intro F
  induction F with
  | nil => intro _ _; exact ⟨rfl, Or.inl (by simp)⟩
  | cons r F2 ih =>
    intro hgood hpw
    have hr := hgood r (List.mem_cons_self _ _)
    have hgood2 : ∀ r2 ∈ F2, r2 ≠ [] ∧ (∀ op ∈ r2, op.dstWord = d ∧ OpWF w op) ∧
        RunOut w x d r2 (cg r2) := fun r2 hr2 => hgood r2 (List.mem_cons_of_mem _ hr2)
    have hpw1 := List.pairwise_cons.mp hpw
    obtain ⟨ihc, ihd⟩ := ih hgood2 hpw1.2
    obtain ⟨hrc, hrdst, hrdisj⟩ := hr.2.2
    have hflat : (r :: F2).flatMap cg = cg r ++ F2.flatMap cg := by
      simp [List.flatMap_cons]
    have hflat2 : (r :: F2).flatten = r ++ F2.flatten := rfl
    constructor
    · rw [hflat, hflat2, orContrib_append, orContrib_append, hrc, ihc]
    · rcases hrdisj with hrleft | ⟨s0, hrcopy, hrreg⟩
      · rcases ihd with h2left | ⟨s2, h2copy, h2reg⟩
        · refine Or.inl ?_
          intro op hop
          rw [hflat] at hop
          rcases List.mem_append.mp hop with h1 | h1
          · exact hrleft op h1
          · exact h2left op h1
        · exfalso
          obtain ⟨h0, t0, hreq⟩ : ∃ h0 t0, r = h0 :: t0 := by
            cases r with
            | nil => exact absurd rfl hr.1
            | cons a b => exact ⟨a, b, rfl⟩
          have hh0 : h0 ∈ r := by rw [hreq]; exact List.mem_cons_self _ _
          have hh0wf := (hr.2.1 h0 hh0).2
          have hdisj0 : opRegion w h0 &&& orRegions w F2.flatten = 0 := by
            apply land_orRegions_eq_zero
            intro op hop
            obtain ⟨l2, hl2, hopl2⟩ := List.mem_flatten.mp hop
            exact hpw1.1 l2 hl2 h0 hh0 op hopl2
          rw [h2reg, land_two_pow_sub_one (opRegion_lt hh0wf)] at hdisj0
          exact opRegion_ne_zero hh0wf hw hdisj0
      · have hF2nil : F2 = [] := by
          cases F2 with
          | nil => rfl
          | cons r2 F3 =>
            exfalso
            have hr2 := hgood2 r2 (List.mem_cons_self _ _)
            obtain ⟨h2, t2, h2eq⟩ : ∃ h2 t2, r2 = h2 :: t2 := by
              cases r2 with
              | nil => exact absurd rfl hr2.1
              | cons a b => exact ⟨a, b, rfl⟩
            have hh2 : h2 ∈ r2 := by rw [h2eq]; exact List.mem_cons_self _ _
            have hh2wf := (hr2.2.1 h2 hh2).2
            have hdisj2 : opRegion w h2 &&& orRegions w r = 0 := by
              apply land_orRegions_eq_zero
              intro op hop
              rw [Nat.land_comm]
              exact hpw1.1 r2 (List.mem_cons_self _ _) op hop h2 hh2
            rw [hrreg, land_two_pow_sub_one (opRegion_lt hh2wf)] at hdisj2
            exact opRegion_ne_zero hh2wf hw hdisj2
        subst hF2nil
        refine Or.inr ⟨s0, ?_, ?_⟩
        · rw [hflat, hrcopy]
          rfl
        · rw [hflat2]
          simp only [List.flatten_nil, List.append_nil]
          exact hrreg

/-- Compiled op lists (with or without the optimizer) compute the OR of the
contributions of the source ops targeting the given destination word. -/
theorem compilePermutation_exec {w : Nat} (hw : 0 < w) (hw64 : w ≤ 64) {x : List Nat}
    (hx : ∀ i, x.getD i 0 < 2 ^ w) (S : List BitOp) (opt : Bool) (d : Nat)
    (hwf : ∀ op ∈ S, OpWF w op)
    (hpwS : List.Pairwise (fun o1 o2 => o1.dstWord = o2.dstWord →
      opRegion w o1 &&& opRegion w o2 = 0) S) :
    execWord w x (compilePermutation S w opt d) =
      orContrib w x (S.filter (fun op => op.dstWord = d)) := by
  have hcpdef : compilePermutation S w opt d =
      ((groupRuns S).filter (runDstIs d)).flatMap (compileGroup w opt) := rfl
  set F : List (List BitOp) := (groupRuns S).filter (runDstIs d) with hF
  have hmemG : ∀ r ∈ F, r ∈ groupRuns S := by
    intro r hr; exact (List.mem_filter.mp hr).1
  have hdstall : ∀ r ∈ F, ∀ op ∈ r, op.dstWord = d := by
    intro r hr op hop
    have hkey := (groupRuns_runs_spec S r (hmemG r hr)).2
    have hfil := (List.mem_filter.mp hr).2
    cases r with
    | nil => simp at hop
    | cons r0 rt =>
      have hr0 : r0.dstWord = d := by
        simp [runDstIs] at hfil; exact hfil
      have := hkey op hop r0 (List.mem_cons_self _ _)
      have hdd : op.dstWord = r0.dstWord := congrArg Prod.fst this
      rw [hdd, hr0]
  have hmemS : ∀ r ∈ F, ∀ op ∈ r, op ∈ S := by
    intro r hr op hop
    rw [← groupRuns_flatten S]
    exact List.mem_flatten.mpr ⟨r, hmemG r hr, hop⟩
  have hpwG : List.Pairwise (fun o1 o2 => o1.dstWord = o2.dstWord →
      opRegion w o1 &&& opRegion w o2 = 0) (groupRuns S).flatten := by
    rw [groupRuns_flatten]; exact hpwS
  have hpwFl := List.pairwise_flatten.mp hpwG
  have hgoodF : ∀ r ∈ F, r ≠ [] ∧ (∀ op ∈ r, op.dstWord = d ∧ OpWF w op) ∧
      RunOut w x d r (compileGroup w opt r) := by
    intro r hr
    have hspec := groupRuns_runs_spec S r (hmemG r hr)
    refine ⟨hspec.1, fun op hop => ⟨hdstall r hr op hop, hwf op (hmemS r hr op hop)⟩, ?_⟩
    have hpwr : List.Pairwise (fun o1 o2 =>
        opRegion w o1 &&& opRegion w o2 = 0) r := by
      refine (hpwFl.1 r (hmemG r hr)).imp_of_mem ?_
      intro a b ha hb hcond
      exact hcond (by rw [hdstall r hr a ha, hdstall r hr b hb])
    exact compileGroup_runOut hw hw64 hx d opt r hspec.1
      (fun op hop => ⟨hdstall r hr op hop, hwf op (hmemS r hr op hop)⟩)
      hspec.2 hpwr
  have hpwF : List.Pairwise (fun l1 l2 => ∀ o1 ∈ l1, ∀ o2 ∈ l2,
      opRegion w o1 &&& opRegion w o2 = 0) F := by
    refine (hpwFl.2.filter (runDstIs d)).imp_of_mem ?_
    intro l1 l2 h1 h2 hcond o1 ho1 o2 ho2
    exact hcond o1 ho1 o2 ho2
      (by rw [hdstall l1 h1 o1 ho1, hdstall l2 h2 o2 ho2])
  obtain ⟨hc, hdd⟩ := flatMap_runOut hw d (compileGroup w opt) F hgoodF hpwF
  have hFlat : F.flatten = S.filter (fun op => op.dstWord = d) := by
    rw [hF, flatten_filter_uniform d (groupRuns S)
      (fun run hrun => (groupRuns_runs_spec S run hrun).2), groupRuns_flatten]
  have htail : ∀ op ∈ (F.flatMap (compileGroup w opt)).tail, op.isCopy = false := by
    rcases hdd with hleft | ⟨s0, heq, _⟩
    · intro op hop
      exact hleft op (List.mem_of_mem_tail hop)
    · rw [heq]
      intro op hop
      simp at hop
  rw [hcpdef, execWord_eq_orContrib _ htail, hc, hFlat]

/-! ## Stream-level structure: disjoint regions and well-formedness -/

/-- Two single-word blocks with disjoint global position intervals landing
in the same word have disjoint masks. -/
theorem computeMask_disjoint_of_tiles {d1 d2 : BitBlock} {w : Nat} (hw : 0 < w)
    (h1l : 0 < d1.len) (h2l : 0 < d2.len)
    (h1c : d1.isContiguous w) (h2c : d2.isContiguous w)
    (hdisj : d1.pos + d1.len ≤ d2.pos ∨ d2.pos + d2.len ≤ d1.pos)
    (hword : d1.endWord w = d2.endWord w) :
    computeMask (d1.endBit w) d1.len &&& computeMask (d2.endBit w) d2.len = 0 := by
  apply Nat.eq_of_testBit_eq
  intro j
  rw [Nat.testBit_land, testBit_computeMask, testBit_computeMask, Nat.zero_testBit]
  by_cases hb1 : d1.endBit w ≤ j ∧ j < d1.endBit w + d1.len
  · by_cases hb2 : d2.endBit w ≤ j ∧ j < d2.endBit w + d2.len
    · exfalso
      have hjw : j < w := by
        have := BitBlock.endBit_add_len_le hw h1l h1c
        omega
      set q := w * d1.endWord w + (w - 1 - j) with hqdef
      have ht : w - 1 - j < w := by omega
      have hqd : q / w = d1.endWord w := by
        rw [hqdef, Nat.mul_add_div hw, Nat.div_eq_of_lt ht, Nat.add_zero]
      have hqm : q % w = w - 1 - j := by
        rw [hqdef, Nat.mul_add_mod, Nat.mod_eq_of_lt ht]
      have hj : w - 1 - q % w = j := by omega
      have hc1 := BitBlock.global_of_local hw h1l h1c hqd (by omega) (by omega)
      have hc2 := BitBlock.global_of_local hw h2l h2c (by rw [hqd, hword]) (by omega) (by omega)
      omega
    · simp [hb2]
  · simp [hb1]

/-- Every pair of a tiling is a pair of matching single-word blocks whose
destination lies inside the tiled destination interval. -/
theorem TilePairs_mem {w : Nat} :
    ∀ (pairs : List (BitBlock × BitBlock)) (s0 d0 : Nat), TilePairs w s0 d0 pairs →
      ∀ p ∈ pairs, p.1.len = p.2.len ∧ 0 < p.1.len ∧ p.1.isContiguous w ∧
        p.2.isContiguous w ∧ d0 ≤ p.2.pos ∧
        p.2.pos + p.2.len ≤ d0 + (pairs.map (fun r => r.1.len)).sum := by
  intro pairs
  induction pairs with
  | nil => intro s0 d0 _ p hp; simp at hp
  | cons a rest ih =>
    intro s0 d0 ht p hp
    obtain ⟨ha1, ha2, ha3, ha4, ha5, ha6, hrest⟩ := ht
    have hsum : ((a :: rest).map (fun r => r.1.len)).sum =
        a.1.len + (rest.map (fun r => r.1.len)).sum := by simp
    rcases List.mem_cons.mp hp with h | h
    · subst h
      exact ⟨ha3, ha4, ha5, ha6, by omega, by omega⟩
    · have hmem := ih (s0 + a.1.len) (d0 + a.1.len) hrest p h
      exact ⟨hmem.1, hmem.2.1, hmem.2.2.1, hmem.2.2.2.1, by omega, by omega⟩

/-- The destination blocks of a tiling occupy increasing disjoint
intervals. -/
theorem TilePairs_pairwise {w : Nat} :
    ∀ (pairs : List (BitBlock × BitBlock)) (s0 d0 : Nat), TilePairs w s0 d0 pairs →
      List.Pairwise (fun p r => p.2.pos + p.2.len ≤ r.2.pos) pairs := by
  intro pairs
  induction pairs with
  | nil => intro _ _ _; exact List.Pairwise.nil
  | cons a rest ih =>
    intro s0 d0 ht
    obtain ⟨ha1, ha2, ha3, ha4, ha5, ha6, hrest⟩ := ht
    refine List.pairwise_cons.mpr ⟨?_, ih _ _ hrest⟩
    intro r hr
    have := (TilePairs_mem rest _ _ hrest r hr).2.2.2.2.1
    omega

/-- Every op of to_ops is a copy_block of a matching single-word pair whose
destination lies inside the permuted interval of the block. -/
theorem toOps_mem {w : Nat} (hw : 0 < w) (pb : PermutedBitBlock)
    (hl : 0 < pb.block.len) :
    ∀ op ∈ pb.toOps w, ∃ p : BitBlock × BitBlock,
      op = BitOp.copyBlock p.1 p.2 w ∧ p.1.len = p.2.len ∧ 0 < p.1.len ∧
      p.1.isContiguous w ∧ p.2.isContiguous w ∧ pb.newPos ≤ p.2.pos ∧
      p.2.pos + p.2.len ≤ pb.newPos + pb.block.len := by
  obtain ⟨pairs, heq, ht, hsum⟩ := toOps_structure hw pb hl
  intro op hop
  rw [heq] at hop
  obtain ⟨p, hp, hpe⟩ := List.mem_map.mp hop
  have hmem := TilePairs_mem pairs _ _ ht p hp
  have hsum2 : (pairs.map (fun r => r.1.len)).sum = pb.block.len := hsum
  exact ⟨p, hpe.symm, hmem.1, hmem.2.1, hmem.2.2.1, hmem.2.2.2.1,
    hmem.2.2.2.2.1, by have := hmem.2.2.2.2.2; omega⟩

/-- getD of execStream below nOut. -/
theorem execStream_getD {w : Nat} (opsFor : Nat → List BitOp) (nOut : Nat) (x : List Nat)
    {d : Nat} (hd : d < nOut) :
    (execStream w opsFor nOut x).getD d 0 = execWord w x (opsFor d) := by
  unfold execStream
  rw [List.getD_eq_getElem?_getD, List.getElem?_map, List.getElem?_range hd]
  rfl

/-- All ops of an apply stream are well formed. -/
theorem streamWF {w : Nat} (hw : 0 < w) (pbs : List PermutedBitBlock)
    (hlen : ∀ pb ∈ pbs, 0 < pb.block.len) :
    ∀ op ∈ pbs.flatMap (fun pb => pb.toOps w), OpWF w op := by
  intro op hop
  obtain ⟨pb, hpb, hoppb⟩ := List.mem_flatMap.mp hop
  obtain ⟨p, hpe, h1, h2, h3, h4, _, _⟩ := toOps_mem hw pb (hlen pb hpb) op hoppb
  rw [hpe]
  exact copyBlock_wf hw h2 h1 h3 h4

/-- Two copy_block ops with disjoint destination position intervals have
disjoint regions when they target the same word. -/
theorem copyBlock_region_disjoint {w : Nat} (hw : 0 < w)
    {p r : BitBlock × BitBlock}
    (hp : p.1.len = p.2.len ∧ 0 < p.1.len ∧ p.1.isContiguous w ∧ p.2.isContiguous w)
    (hr : r.1.len = r.2.len ∧ 0 < r.1.len ∧ r.1.isContiguous w ∧ r.2.isContiguous w)
    (hdisj : p.2.pos + p.2.len ≤ r.2.pos ∨ r.2.pos + r.2.len ≤ p.2.pos) :
    (BitOp.copyBlock p.1 p.2 w).dstWord = (BitOp.copyBlock r.1 r.2 w).dstWord →
      opRegion w (BitOp.copyBlock p.1 p.2 w) &&& opRegion w (BitOp.copyBlock r.1 r.2 w) = 0 := by
  intro hdw
  rw [copyBlock_dstWord, copyBlock_dstWord] at hdw
  rw [copyBlock_region hw hp.2.1 hp.1 hp.2.2.1 hp.2.2.2,
    copyBlock_region hw hr.2.1 hr.1 hr.2.2.1 hr.2.2.2]
  exact computeMask_disjoint_of_tiles hw (hp.1 ▸ hp.2.1) (hr.1 ▸ hr.2.1)
    hp.2.2.2 hr.2.2.2 hdisj hdw

/-- Apply streams of blocks with pairwise disjoint destination intervals
have pairwise disjoint regions within each destination word. -/
theorem streamPairwise {w : Nat} (hw : 0 < w) (pbs : List PermutedBitBlock)
    (hlen : ∀ pb ∈ pbs, 0 < pb.block.len)
    (hdisj : List.Pairwise (fun a b => a.newPos + a.block.len ≤ b.newPos ∨
      b.newPos + b.block.len ≤ a.newPos) pbs) :
    List.Pairwise (fun o1 o2 => o1.dstWord = o2.dstWord →
      opRegion w o1 &&& opRegion w o2 = 0) (pbs.flatMap (fun pb => pb.toOps w)) := by
  rw [show pbs.flatMap (fun pb => pb.toOps w)
      = (pbs.map (fun pb => pb.toOps w)).flatten from rfl]
  apply List.pairwise_flatten.mpr
  constructor
  · intro l hl
    obtain ⟨pb, hpb, hle⟩ := List.mem_map.mp hl
    obtain ⟨pairs, heq, ht, _⟩ := toOps_structure hw pb (hlen pb hpb)
    rw [← hle, heq]
    apply List.pairwise_map.mpr
    refine (TilePairs_pairwise pairs _ _ ht).imp_of_mem ?_
    intro p r hpm hrm hord
    exact copyBlock_region_disjoint hw
      ⟨(TilePairs_mem pairs _ _ ht p hpm).1, (TilePairs_mem pairs _ _ ht p hpm).2.1,
        (TilePairs_mem pairs _ _ ht p hpm).2.2.1, (TilePairs_mem pairs _ _ ht p hpm).2.2.2.1⟩
      ⟨(TilePairs_mem pairs _ _ ht r hrm).1, (TilePairs_mem pairs _ _ ht r hrm).2.1,
        (TilePairs_mem pairs _ _ ht r hrm).2.2.1, (TilePairs_mem pairs _ _ ht r hrm).2.2.2.1⟩
      (Or.inl hord)
  · apply List.pairwise_map.mpr
    refine hdisj.imp_of_mem ?_
    intro a b ham hbm hab o1 ho1 o2 ho2
    obtain ⟨p, hpe, hp1, hp2, hp3, hp4, hp5, hp6⟩ := toOps_mem hw a (hlen a ham) o1 ho1
    obtain ⟨r, hre, hr1, hr2, hr3, hr4, hr5, hr6⟩ := toOps_mem hw b (hlen b hbm) o2 ho2
    rw [hpe, hre]
    exact copyBlock_region_disjoint hw ⟨hp1, hp2, hp3, hp4⟩ ⟨hr1, hr2, hr3, hr4⟩
      (by omega)

/-! ## Bit-level semantics of apply streams -/

/-- One copy_block op, restricted to the word of a global output position q,
contributes exactly the source bit matching q on the destination span. -/
theorem copyBlock_opBit {src dst : BitBlock} {w : Nat} (hw : 0 < w)
    (hl : 0 < src.len) (hlen : src.len = dst.len)
    (hsc : src.isContiguous w) (hdc : dst.isContiguous w)
    {x : List Nat} (hx : ∀ i, x.getD i 0 < 2 ^ w) (q : Nat) :
    (decide ((BitOp.copyBlock src dst w).dstWord = q / w) &&
      (contribVal w x (BitOp.copyBlock src dst w)).testBit (w - 1 - q % w)) =
    (decide (dst.pos ≤ q ∧ q < dst.pos + dst.len) &&
      getBit w x (src.pos + (q - dst.pos))) := by
  rw [copyBlock_dstWord, copyBlock_contrib hw hl hlen hsc hdc x (hx _)]
  by_cases hcov : dst.pos ≤ q ∧ q < dst.pos + dst.len
  · have ht : q - dst.pos < dst.len := by omega
    have hdloc := BitBlock.local_coords hw (hlen ▸ hl) hdc ht
    have hqre : dst.pos + (q - dst.pos) = q := by omega
    rw [hqre] at hdloc
    have hts : q - dst.pos < src.len := by omega
    have hsloc := BitBlock.local_coords hw hl hsc hts
    have hdw : dst.endWord w = q / w := hdloc.1.symm
    have hbit : w - 1 - q % w = dst.endBit w + (dst.len - 1 - (q - dst.pos)) := hdloc.2
    have hin : dst.endBit w ≤ w - 1 - q % w ∧
        w - 1 - q % w < dst.endBit w + dst.len := by omega
    have hsrcbit : src.endBit w + (w - 1 - q % w - dst.endBit w)
        = w - 1 - (src.pos + (q - dst.pos)) % w := by
      rw [hsloc.2]
      omega
    unfold getBit
    rw [hsloc.1, ← hsrcbit]
    simp [hdw, hcov, hin]
  · simp only [hcov]
    by_cases hdw : dst.endWord w = q / w
    · have hnotin : ¬ (dst.endBit w ≤ w - 1 - q % w ∧
          w - 1 - q % w < dst.endBit w + dst.len) := by
        intro hin
        exact hcov (BitBlock.global_of_local hw (hlen ▸ hl) hdc hdw.symm hin.1 hin.2)
      simp [hnotin]
    · simp [hdw]

/-- The OR over the ops of one tiling, restricted to the word of q, equals
the source bit of the tiled interval at q. -/
theorem tilePairs_any_bit {w : Nat} (hw : 0 < w) {x : List Nat}
    (hx : ∀ i, x.getD i 0 < 2 ^ w) (q : Nat) :
    ∀ (pairs : List (BitBlock × BitBlock)) (s0 d0 : Nat), TilePairs w s0 d0 pairs →
      ((pairs.map (fun p => BitOp.copyBlock p.1 p.2 w)).any (fun op =>
        decide (op.dstWord = q / w) && (contribVal w x op).testBit (w - 1 - q % w))) =
      (decide (d0 ≤ q ∧ q < d0 + (pairs.map (fun p => p.1.len)).sum) &&
        getBit w x (s0 + (q - d0))) := by
  intro pairs
  induction pairs with
  | nil =>
    intro s0 d0 _
    have hno : ¬ (d0 ≤ q ∧ q < d0 + (([] : List (BitBlock × BitBlock)).map
        (fun p => p.1.len)).sum) := by
      simp
    simp [hno]
  | cons a rest ih =>
    intro s0 d0 ht
    obtain ⟨ha1, ha2, ha3, ha4, ha5, ha6, hrest⟩ := ht
    have hsum : ((a :: rest).map (fun p => p.1.len)).sum =
        a.1.len + (rest.map (fun p => p.1.len)).sum := by simp
    rw [List.map_cons, List.any_cons,
      copyBlock_opBit hw ha4 ha3 ha5 ha6 hx q, ih _ _ hrest]
    by_cases hcov : d0 ≤ q ∧ q < d0 + a.1.len
    · have hc1 : a.2.pos ≤ q ∧ q < a.2.pos + a.2.len := by omega
      have hc2 : ¬ (d0 + a.1.len ≤ q ∧
          q < d0 + a.1.len + (rest.map (fun p => p.1.len)).sum) := by omega
      have hc3 : d0 ≤ q ∧ q < d0 + ((a :: rest).map (fun p => p.1.len)).sum := by
        rw [hsum]; omega
      have hq1 : a.1.pos + (q - a.2.pos) = s0 + (q - d0) := by omega
      simp only [List.map_cons, List.sum_cons] at hc3
      simp [hc1, hc2, hc3, hq1]
    · have hc1 : ¬ (a.2.pos ≤ q ∧ q < a.2.pos + a.2.len) := by omega
      simp only [hc1, decide_eq_false_iff_not.mpr hc1, Bool.false_and, Bool.false_or]
      by_cases hc2 : d0 + a.1.len ≤ q ∧
          q < d0 + a.1.len + (rest.map (fun p => p.1.len)).sum
      · have hc3 : d0 ≤ q ∧ q < d0 + ((a :: rest).map (fun p => p.1.len)).sum := by
          rw [hsum]; omega
        have hq1 : s0 + a.1.len + (q - (d0 + a.1.len)) = s0 + (q - d0) := by omega
        simp only [List.map_cons, List.sum_cons] at hc3
        simp [hc2, hc3, hq1]
      · have hc3 : ¬ (d0 ≤ q ∧ q < d0 + ((a :: rest).map (fun p => p.1.len)).sum) := by
          rw [hsum]; omega
        rw [decide_eq_false hc2, decide_eq_false hc3]
        simp

/-- The ops of one permuted block, restricted to the word of q, contribute
exactly the moved source bit on the permuted interval. -/
theorem toOps_any_bit {w : Nat} (hw : 0 < w) {x : List Nat}
    (hx : ∀ i, x.getD i 0 < 2 ^ w) (q : Nat) (pb : PermutedBitBlock)
    (hl : 0 < pb.block.len) :
    ((pb.toOps w).any (fun op =>
      decide (op.dstWord = q / w) && (contribVal w x op).testBit (w - 1 - q % w))) =
    (decide (pb.newPos ≤ q ∧ q < pb.newPos + pb.block.len) &&
      getBit w x (pb.block.pos + (q - pb.newPos))) := by
  obtain ⟨pairs, heq, ht, hsum⟩ := toOps_structure hw pb hl
  rw [heq, tilePairs_any_bit hw hx q pairs _ _ ht, hsum]

theorem specBit_nil (w : Nat) (x : List Nat) (q : Nat) :
    specBit w [] x q = false := rfl

theorem specBit_cons_pos {w : Nat} {x : List Nat} {q : Nat} {pb : PermutedBitBlock}
    (rest : List PermutedBitBlock)
    (h : pb.newPos ≤ q ∧ q < pb.newPos + pb.block.len) :
    specBit w (pb :: rest) x q = getBit w x (pb.block.pos + (q - pb.newPos)) := by
  unfold specBit
  rw [List.find?_cons_of_pos _ (by simpa using h)]

theorem specBit_cons_neg {w : Nat} {x : List Nat} {q : Nat} {pb : PermutedBitBlock}
    (rest : List PermutedBitBlock)
    (h : ¬ (pb.newPos ≤ q ∧ q < pb.newPos + pb.block.len)) :
    specBit w (pb :: rest) x q = specBit w rest x q := by
  unfold specBit
  rw [List.find?_cons_of_neg _ (by simpa using h)]

/-- The OR over an apply stream of disjoint blocks, restricted to the word
of q, equals the specified destination bit at q. -/
theorem blocks_any_bit {w : Nat} (hw : 0 < w) {x : List Nat}
    (hx : ∀ i, x.getD i 0 < 2 ^ w) (q : Nat) :
    ∀ (pbs : List PermutedBitBlock), (∀ pb ∈ pbs, 0 < pb.block.len) →
      List.Pairwise (fun a b => a.newPos + a.block.len ≤ b.newPos ∨
        b.newPos + b.block.len ≤ a.newPos) pbs →
      ((pbs.flatMap (fun pb => pb.toOps w)).any (fun op =>
        decide (op.dstWord = q / w) && (contribVal w x op).testBit (w - 1 - q % w))) =
      specBit w pbs x q := by
  intro pbs
  induction pbs with
  | nil => intro _ _; rfl
  | cons pb rest ih =>
    intro hlen hdisj
    have hpb0 : 0 < pb.block.len := hlen pb (List.mem_cons_self _ _)
    have hdp := List.pairwise_cons.mp hdisj
    rw [List.flatMap_cons, List.any_append,
      toOps_any_bit hw hx q pb hpb0,
      ih (fun b hb => hlen b (List.mem_cons_of_mem _ hb)) hdp.2]
    by_cases hcov : pb.newPos ≤ q ∧ q < pb.newPos + pb.block.len
    · have hnone : rest.find? (fun pb2 =>
          decide (pb2.newPos ≤ q ∧ q < pb2.newPos + pb2.block.len)) = none := by
        apply List.find?_eq_none.mpr
        intro b hb
        have := hdp.1 b hb
        simp
        omega
      have hrestspec : specBit w rest x q = false := by
        unfold specBit
        rw [hnone]
      rw [hrestspec, specBit_cons_pos rest hcov]
      simp [hcov]
    · rw [specBit_cons_neg rest hcov, decide_eq_false hcov]
      simp

/-- STREAM: executing the compiled stream of a list of disjoint permuted
blocks reproduces, bit for bit, the specified destination bits. -/
theorem stream_exec_spec {w : Nat} (hw : 0 < w) (hw64 : w ≤ 64) {x : List Nat}
    (hx : ∀ i, x.getD i 0 < 2 ^ w) (pbs : List PermutedBitBlock)
    (hlen : ∀ pb ∈ pbs, 0 < pb.block.len)
    (hdisj : List.Pairwise (fun a b => a.newPos + a.block.len ≤ b.newPos ∨
      b.newPos + b.block.len ≤ a.newPos) pbs)
    (opt : Bool) (nOut : Nat) {q : Nat} (hq : q < nOut * w) :
    getBit w (execStream w
      (compilePermutation (pbs.flatMap (fun pb => pb.toOps w)) w opt) nOut x) q =
      specBit w pbs x q := by
  have hdlt : q / w < nOut := (Nat.div_lt_iff_lt_mul hw).mpr hq
  unfold getBit
  rw [execStream_getD _ _ _ hdlt,
    compilePermutation_exec hw hw64 hx _ opt _ (streamWF hw pbs hlen)
      (streamPairwise hw pbs hlen hdisj),
    testBit_orContrib, List.any_filter,
    blocks_any_bit hw hx q pbs hlen hdisj]

/-! ## Structure of split_bits_into_blocks, reorder_blocks, combinations -/

/-- Consecutive tiling of global positions by blocks of positive length. -/
def Tiling : Nat → List BitBlock → Prop
  | _, [] => True
  | s, b :: rest => b.pos = s ∧ 0 < b.len ∧ Tiling (s + b.len) rest

theorem Tiling_mem : ∀ (L : List BitBlock) (s : Nat), Tiling s L →
    ∀ b ∈ L, 0 < b.len ∧ s ≤ b.pos ∧
      b.pos + b.len ≤ s + (L.map BitBlock.len).sum := by
  intro L
  induction L with
  | nil => intro s _ b hb; simp at hb
  | cons a rest ih =>
    intro s ht b hb
    obtain ⟨h1, h2, h3⟩ := ht
    have hsum : ((a :: rest).map BitBlock.len).sum =
        a.len + (rest.map BitBlock.len).sum := by simp
    rcases List.mem_cons.mp hb with h | h
    · subst h
      exact ⟨h2, by omega, by omega⟩
    · have := ih (s + a.len) h3 b h
      exact ⟨this.1, by omega, by omega⟩

theorem Tiling_pairwise : ∀ (L : List BitBlock) (s : Nat), Tiling s L →
    List.Pairwise (fun a b => a.pos + a.len ≤ b.pos) L := by
  intro L
  induction L with
  | nil => intro _ _; exact List.Pairwise.nil
  | cons a rest ih =>
    intro s ht
    obtain ⟨h1, h2, h3⟩ := ht
    refine List.pairwise_cons.mpr ⟨?_, ih _ h3⟩
    intro b hb
    have := Tiling_mem rest _ h3 b hb
    omega

theorem Tiling_cover : ∀ (L : List BitBlock) (s : Nat), Tiling s L →
    ∀ q, s ≤ q → q < s + (L.map BitBlock.len).sum →
      ∃ b ∈ L, b.pos ≤ q ∧ q < b.pos + b.len := by
  intro L
  induction L with
  | nil => intro s _ q h1 h2; simp at h2; omega
  | cons a rest ih =>
    intro s ht q h1 h2
    obtain ⟨ha1, ha2, ha3⟩ := ht
    have hsum : ((a :: rest).map BitBlock.len).sum =
        a.len + (rest.map BitBlock.len).sum := by simp
    by_cases hq : q < s + a.len
    · exact ⟨a, List.mem_cons_self _ _, by omega, by omega⟩
    · obtain ⟨b, hb, hc⟩ := ih (s + a.len) ha3 q (by omega) (by omega)
      exact ⟨b, List.mem_cons_of_mem _ hb, hc⟩

theorem splitBlocksGo_length (f r : Nat) :
    ∀ (n i acc : Nat), (splitBlocksGo f r n i acc).length = n := by
  intro n
  induction n with
  | zero => intro _ _; rfl
  | succ m ih =>
    intro i acc
    simp only [splitBlocksGo, List.length_cons]
    rw [ih]

theorem splitBlocksGo_tiling (f r : Nat) (hr : 0 < r) (hfr : r ≤ f) :
    ∀ (n i acc : Nat), Tiling acc (splitBlocksGo f r n i acc) := by
  have hsz : 0 < f / r := Nat.div_pos hfr hr
  intro n
  induction n with
  | zero => intro _ _; trivial
  | succ m ih =>
    intro i acc
    simp only [splitBlocksGo]
    refine ⟨rfl, by positivity, ih _ _⟩

theorem splitBlocksGo_idx (f r : Nat) :
    ∀ (n i acc t : Nat), t < n →
      ((splitBlocksGo f r n i acc).getD t default).idx = i + t := by
  intro n
  induction n with
  | zero => intro _ _ t ht; omega
  | succ m ih =>
    intro i acc t ht
    cases t with
    | zero => rfl
    | succ u =>
      simp only [splitBlocksGo, List.getD_cons_succ]
      rw [ih _ _ u (by omega)]
      omega

theorem splitBitsIntoBlocks_length (f r : Nat) :
    (splitBitsIntoBlocks f r).length = r := splitBlocksGo_length f r r 0 0

theorem splitBitsIntoBlocks_tiling (f r : Nat) (hr : 0 < r) (hfr : r ≤ f) :
    Tiling 0 (splitBitsIntoBlocks f r) := splitBlocksGo_tiling f r hr hfr r 0 0

theorem splitBitsIntoBlocks_idx (f r : Nat) :
    ∀ t, t < r → ((splitBitsIntoBlocks f r).getD t default).idx = t := by
  intro t ht
  have := splitBlocksGo_idx f r r 0 0 t ht
  simpa using this

/-- Every member of combinations k l is a subsequence of l. -/
theorem combinations_sublist : ∀ (k : Nat) (l : List Nat) (c : List Nat),
    c ∈ combinations k l → c.Sublist l := by
  intro k
  induction k with
  | zero =>
    intro l c hc
    simp [combinations] at hc
    subst hc
    exact List.nil_sublist l
  | succ m ih =>
    intro l
    induction l with
    | nil => intro c hc; simp [combinations] at hc
    | cons a rest ihl =>
      intro c hc
      simp only [combinations, List.mem_append] at hc
      rcases hc with h | h
      · obtain ⟨c2, hc2, hce⟩ := List.mem_map.mp h
        rw [← hce]
        exact List.Sublist.cons₂ a (ih rest c2 hc2)
      · exact List.Sublist.cons a (ihl c h)

theorem reorderBlocks_mem {blocks : List BitBlock} {order : List Nat}
    (hbound : ∀ p ∈ order, p < blocks.length) :
    ∀ b ∈ reorderBlocks blocks order, b ∈ blocks := by
  intro b hb
  unfold reorderBlocks at hb
  rcases List.mem_append.mp hb with h | h
  · obtain ⟨p, hp, he⟩ := List.mem_map.mp h
    rw [← he, List.getD_eq_getElem blocks default (hbound p hp)]
    exact List.getElem_mem _
  · exact (List.mem_filter.mp h).1

theorem reorderBlocks_mem_rev {blocks : List BitBlock} {order : List Nat}
    (hidx : ∀ t, t < blocks.length → (blocks.getD t default).idx = t) :
    ∀ b ∈ blocks, b ∈ reorderBlocks blocks order := by
  intro b hb
  obtain ⟨t, ht, hbe⟩ := List.mem_iff_getElem.mp hb
  have hbidx : b.idx = t := by
    rw [← hbe, ← List.getD_eq_getElem blocks default ht]
    exact hidx t ht
  unfold reorderBlocks
  by_cases hmem : b.idx ∈ order
  · apply List.mem_append.mpr (Or.inl ?_)
    apply List.mem_map.mpr
    rw [hbidx] at hmem
    refine ⟨t, hmem, ?_⟩
    rw [List.getD_eq_getElem blocks default ht, hbe]
  · apply List.mem_append.mpr (Or.inr ?_)
    apply List.mem_filter.mpr
    refine ⟨hb, ?_⟩
    simp [List.elem_iff, hmem]

theorem reorderBlocks_pairwise {blocks : List BitBlock} {order : List Nat}
    (hidx : ∀ t, t < blocks.length → (blocks.getD t default).idx = t)
    (hpw : List.Pairwise (fun a b => a.pos + a.len ≤ b.pos) blocks)
    (hord : order.Nodup) (hbound : ∀ p ∈ order, p < blocks.length) :
    List.Pairwise (fun a b => a.pos + a.len ≤ b.pos ∨ b.pos + b.len ≤ a.pos)
      (reorderBlocks blocks order) := by
  have hget := List.pairwise_iff_getElem.mp hpw
  have hdq : ∀ t1 t2 (h1 : t1 < blocks.length) (h2 : t2 < blocks.length), t1 ≠ t2 →
      blocks[t1].pos + blocks[t1].len ≤ blocks[t2].pos ∨
      blocks[t2].pos + blocks[t2].len ≤ blocks[t1].pos := by
    intro t1 t2 h1 h2 hne
    rcases Nat.lt_or_ge t1 t2 with h | h
    · exact Or.inl (hget t1 t2 h1 h2 h)
    · exact Or.inr (hget t2 t1 h2 h1 (by omega))
  have hord2 : List.Pairwise (fun a b => a ≠ b) order := hord
  unfold reorderBlocks
  apply List.pairwise_append.mpr
  refine ⟨?_, ?_, ?_⟩
  · apply List.pairwise_map.mpr
    refine hord2.imp_of_mem ?_
    intro p1 p2 hp1 hp2 hne
    rw [List.getD_eq_getElem blocks default (hbound p1 hp1),
      List.getD_eq_getElem blocks default (hbound p2 hp2)]
    exact hdq p1 p2 _ _ hne
  · exact (hpw.imp (fun h => Or.inl h)).filter _
  · intro b1 hb1 b2 hb2
    obtain ⟨p, hp, he⟩ := List.mem_map.mp hb1
    have hb2m := List.mem_filter.mp hb2
    obtain ⟨t, ht, hbe⟩ := List.mem_iff_getElem.mp hb2m.1
    have hb2idx : b2.idx = t := by
      rw [← hbe, ← List.getD_eq_getElem blocks default ht]
      exact hidx t ht
    have htno : t ∉ order := by
      intro hcon
      have hf := hb2m.2
      rw [← hb2idx] at hcon
      simp [List.elem_iff, hcon] at hf
    rw [← he, List.getD_eq_getElem blocks default (hbound p hp), ← hbe]
    exact hdq p t _ _ (by intro hcon; subst hcon; exact htno hp)

theorem cpbGo_map_block : ∀ (bs : List BitBlock) (acc : Nat),
    (createPermutedBlocksGo acc bs).map PermutedBitBlock.block = bs := by
  intro bs
  induction bs with
  | nil => intro _; rfl
  | cons b rest ih =>
    intro acc
    simp only [createPermutedBlocksGo, List.map_cons, ih]

theorem cpbGo_newPos_ge : ∀ (bs : List BitBlock) (acc : Nat),
    ∀ pb ∈ createPermutedBlocksGo acc bs, acc ≤ pb.newPos ∧
      pb.newPos + pb.block.len ≤ acc + (bs.map BitBlock.len).sum := by
  intro bs
  induction bs with
  | nil => intro acc pb hpb; simp [createPermutedBlocksGo] at hpb
  | cons b rest ih =>
    intro acc pb hpb
    have hsum : ((b :: rest).map BitBlock.len).sum =
        b.len + (rest.map BitBlock.len).sum := by simp
    rcases List.mem_cons.mp hpb with h | h
    · subst h
      constructor
      · exact Nat.le_refl _
      · simp only []
        omega
    · have := ih (acc + b.len) pb h
      exact ⟨by omega, by omega⟩

theorem cpbGo_disjoint : ∀ (bs : List BitBlock) (acc : Nat),
    List.Pairwise (fun a b => a.newPos + a.block.len ≤ b.newPos)
      (createPermutedBlocksGo acc bs) := by
  intro bs
  induction bs with
  | nil => intro _; exact List.Pairwise.nil
  | cons b rest ih =>
    intro acc
    refine List.pairwise_cons.mpr ⟨?_, ih _⟩
    intro pb hpb
    have := (cpbGo_newPos_ge rest (acc + b.len) pb hpb).1
    simp only []
    omega

theorem cpbGo_cover : ∀ (bs : List BitBlock) (acc q : Nat), acc ≤ q →
    q < acc + (bs.map BitBlock.len).sum →
    ∃ pb ∈ createPermutedBlocksGo acc bs,
      pb.newPos ≤ q ∧ q < pb.newPos + pb.block.len := by
  intro bs
  induction bs with
  | nil => intro acc q h1 h2; simp at h2; omega
  | cons b rest ih =>
    intro acc q h1 h2
    have hsum : ((b :: rest).map BitBlock.len).sum =
        b.len + (rest.map BitBlock.len).sum := by simp
    by_cases hq : q < acc + b.len
    · exact ⟨⟨b, acc⟩, List.mem_cons_self _ _, by simp; omega⟩
    · obtain ⟨pb, hpb, hc⟩ := ih (acc + b.len) q (by omega) (by omega)
      exact ⟨pb, List.mem_cons_of_mem _ hpb, hc⟩

theorem cpbGo_take : ∀ (bs : List BitBlock) (acc k : Nat),
    (createPermutedBlocksGo acc bs).take k =
      createPermutedBlocksGo acc (bs.take k) := by
  intro bs
  induction bs with
  | nil => intro _ k; simp [createPermutedBlocksGo]
  | cons b rest ih =>
    intro acc k
    cases k with
    | zero => rfl
    | succ m =>
      simp only [createPermutedBlocksGo, List.take_succ_cons]
      rw [ih]

/-- With pairwise-disjoint destination intervals, specBit picks exactly
the covering block. -/
theorem specBit_cover {w : Nat} {x : List Nat} {q : Nat} :
    ∀ (pbs : List PermutedBitBlock),
      List.Pairwise (fun a b => a.newPos + a.block.len ≤ b.newPos ∨
        b.newPos + b.block.len ≤ a.newPos) pbs →
      ∀ pb ∈ pbs, pb.newPos ≤ q → q < pb.newPos + pb.block.len →
        specBit w pbs x q = getBit w x (pb.block.pos + (q - pb.newPos)) := by
  intro pbs
  induction pbs with
  | nil => intro _ pb hpb; simp at hpb
  | cons a rest ih =>
    intro hpw pb hpb h1 h2
    have hp := List.pairwise_cons.mp hpw
    rcases List.mem_cons.mp hpb with h | h
    · subst h
      exact specBit_cons_pos rest ⟨h1, h2⟩
    · have hna : ¬ (a.newPos ≤ q ∧ q < a.newPos + a.block.len) := by
        have := hp.1 pb h
        omega
      rw [specBit_cons_neg rest hna]
      exact ih hp.2 pb h h1 h2

/-- reorder_blocks permutes the blocks (given distinct in-range order
entries and index-numbered blocks). -/
theorem reorderBlocks_perm {blocks : List BitBlock} {order : List Nat}
    (hidx : ∀ t, t < blocks.length → (blocks.getD t default).idx = t)
    (hord : order.Nodup) (hbound : ∀ p ∈ order, p < blocks.length) :
    List.Perm (reorderBlocks blocks order) blocks := by
  have hgetidx : ∀ t (h : t < blocks.length), blocks[t].idx = t := by
    intro t h
    rw [← List.getD_eq_getElem blocks default h]
    exact hidx t h
  have hbn : blocks.Nodup := by
    apply List.pairwise_iff_getElem.mpr
    intro i j hi hj hij hcon
    have : i = j := by rw [← hgetidx i hi, ← hgetidx j hj, hcon]
    omega
  have hM : (order.map (fun p => blocks.getD p default)).Nodup := by
    apply List.Nodup.map_on ?_ hord
    intro p1 hp1 p2 hp2 he
    have h2 : (blocks.getD p1 default).idx = (blocks.getD p2 default).idx := by rw [he]
    rw [hidx p1 (hbound p1 hp1), hidx p2 (hbound p2 hp2)] at h2
    exact h2
  have hFc : (blocks.filter (fun b => order.contains b.idx)).Nodup := hbn.filter _
  have hmemM : ∀ b, b ∈ order.map (fun p => blocks.getD p default) ↔
      b ∈ blocks.filter (fun b => order.contains b.idx) := by
    intro b
    constructor
    · intro hb
      obtain ⟨p, hp, he⟩ := List.mem_map.mp hb
      have hbm : b ∈ blocks := by
        rw [← he, List.getD_eq_getElem blocks default (hbound p hp)]
        exact List.getElem_mem _
      have hbidx : b.idx = p := by rw [← he]; exact hidx p (hbound p hp)
      apply List.mem_filter.mpr
      refine ⟨hbm, ?_⟩
      simp [List.elem_iff, hbidx, hp]
    · intro hb
      have hbm := List.mem_filter.mp hb
      have hin : b.idx ∈ order := by
        have h2 := hbm.2
        simpa [List.elem_iff] using h2
      obtain ⟨t, ht, hbe⟩ := List.mem_iff_getElem.mp hbm.1
      have hbidx : b.idx = t := by rw [← hbe]; exact hgetidx t ht
      apply List.mem_map.mpr
      refine ⟨t, hbidx ▸ hin, ?_⟩
      rw [List.getD_eq_getElem blocks default ht, hbe]
  have hMFc : List.Perm (order.map (fun p => blocks.getD p default))
      (blocks.filter (fun b => order.contains b.idx)) := by
    apply List.perm_of_nodup_nodup_toFinset_eq hM hFc
    ext b
    simp only [List.mem_toFinset]
    exact hmemM b
  have hfc : blocks.filter (fun b => ¬ order.contains b.idx) =
      blocks.filter (fun b => !(order.contains b.idx)) := by
    apply List.filter_congr
    intro b _
    simp
  unfold reorderBlocks
  refine (hMFc.append_right _).trans ?_
  rw [hfc]
  exact List.filter_append_perm _ blocks

theorem reorderBlocks_sum {blocks : List BitBlock} {order : List Nat}
    (hidx : ∀ t, t < blocks.length → (blocks.getD t default).idx = t)
    (hord : order.Nodup) (hbound : ∀ p ∈ order, p < blocks.length) :
    ((reorderBlocks blocks order).map BitBlock.len).sum =
      (blocks.map BitBlock.len).sum :=
  ((reorderBlocks_perm hidx hord hbound).map BitBlock.len).sum_eq

theorem splitBlocksGo_sum (f r : Nat) :
    ∀ (n i acc : Nat), ((splitBlocksGo f r n i acc).map BitBlock.len).sum
      = n * (f / r) + (min (f % r) (i + n) - min (f % r) i) := by
  intro n
  induction n with
  | zero =>
    intro i acc
    show (List.map BitBlock.len []).sum = _
    simp
  | succ m ih =>
    intro i acc
    simp only [splitBlocksGo, List.map_cons, List.sum_cons]
    rw [ih]
    by_cases h : i < f % r
    · simp only [h, if_true, ite_true]
      ring_nf
      omega
    · simp only [h, if_false, ite_false]
      ring_nf
      omega

theorem splitBitsIntoBlocks_sum (f r : Nat) (hr : 0 < r) :
    ((splitBitsIntoBlocks f r).map BitBlock.len).sum = f := by
  unfold splitBitsIntoBlocks
  rw [splitBlocksGo_sum]
  have h1 := Nat.div_add_mod f r
  have h2 : f % r < r := Nat.mod_lt f hr
  generalize hu : r * (f / r) = u at h1 ⊢
  omega

theorem createPermutations_mem {f w r k : Nat} {P : Permutation}
    (hP : P ∈ createPermutations f w r k) :
    ∃ order, order ∈ combinations k (List.range r) ∧
      P = Permutation.fromBlocks k (reorderBlocks (splitBitsIntoBlocks f r) order) := by
  unfold createPermutations at hP
  rw [List.map_map] at hP
  obtain ⟨order, ho, he⟩ := List.mem_map.mp hP
  exact ⟨order, ho, he.symm⟩

/-- The structural facts shared by every variant produced by
create_permutations: positive block lengths, disjoint permuted intervals,
disjoint and covering source intervals, and permuted intervals inside
[0, f). -/
theorem variant_facts {f r k w : Nat} (hr : 0 < r) (hfr : r ≤ f)
    {P : Permutation} (hP : P ∈ createPermutations f w r k) :
    P.head = k ∧
    (∀ pb ∈ P.blocks, 0 < pb.block.len) ∧
    List.Pairwise (fun a b => a.newPos + a.block.len ≤ b.newPos ∨
      b.newPos + b.block.len ≤ a.newPos) P.blocks ∧
    List.Pairwise (fun a b => a.block.pos + a.block.len ≤ b.block.pos ∨
      b.block.pos + b.block.len ≤ a.block.pos) P.blocks ∧
    (∀ q, q < f → ∃ pb ∈ P.blocks, pb.block.pos ≤ q ∧ q < pb.block.pos + pb.block.len) ∧
    (∀ pb ∈ P.blocks, pb.newPos + pb.block.len ≤ f) := by
  obtain ⟨order, ho, hPe⟩ := createPermutations_mem hP
  have hsub := combinations_sublist k (List.range r) order ho
  have hord : order.Nodup := hsub.nodup (List.nodup_range r)
  have hbound : ∀ p ∈ order, p < (splitBitsIntoBlocks f r).length := by
    intro p hp
    rw [splitBitsIntoBlocks_length]
    exact List.mem_range.mp (hsub.subset hp)
  have hidx : ∀ t, t < (splitBitsIntoBlocks f r).length →
      ((splitBitsIntoBlocks f r).getD t default).idx = t := by
    intro t ht
    exact splitBitsIntoBlocks_idx f r t (by rwa [splitBitsIntoBlocks_length] at ht)
  have htile : Tiling 0 (splitBitsIntoBlocks f r) := splitBitsIntoBlocks_tiling f r hr hfr
  have hsum0 : ((splitBitsIntoBlocks f r).map BitBlock.len).sum = f :=
    splitBitsIntoBlocks_sum f r hr
  set bs : List BitBlock := reorderBlocks (splitBitsIntoBlocks f r) order with hbs
  have hsum : (bs.map BitBlock.len).sum = f := by
    rw [hbs, reorderBlocks_sum hidx hord hbound, hsum0]
  have hPb : P.blocks = createPermutedBlocksGo 0 bs := by
    rw [hPe]; rfl
  have hmem_bs : ∀ b ∈ bs, b ∈ splitBitsIntoBlocks f r := reorderBlocks_mem hbound
  have hsrc_pw : List.Pairwise (fun a b => a.pos + a.len ≤ b.pos ∨
      b.pos + b.len ≤ a.pos) bs :=
    reorderBlocks_pairwise hidx (Tiling_pairwise _ 0 htile) hord hbound
  refine ⟨by rw [hPe]; rfl, ?_, ?_, ?_, ?_, ?_⟩
  · intro pb hpb
    rw [hPb] at hpb
    have hbmem : pb.block ∈ bs := by
      have h2 := List.mem_map_of_mem PermutedBitBlock.block hpb
      rwa [cpbGo_map_block] at h2
    exact (Tiling_mem _ 0 htile pb.block (hmem_bs _ hbmem)).1
  · rw [hPb]
    exact (cpbGo_disjoint bs 0).imp (fun h => Or.inl h)
  · rw [hPb]
    have hh : List.Pairwise (fun a b : BitBlock => a.pos + a.len ≤ b.pos ∨
        b.pos + b.len ≤ a.pos) ((createPermutedBlocksGo 0 bs).map PermutedBitBlock.block) := by
      rw [cpbGo_map_block]
      exact hsrc_pw
    exact List.pairwise_map.mp hh
  · intro q hq
    obtain ⟨b, hb, hc⟩ := Tiling_cover _ 0 htile q (Nat.zero_le q) (by rw [hsum0]; omega)
    have hbbs : b ∈ bs := reorderBlocks_mem_rev hidx b hb
    have hmm : b ∈ (createPermutedBlocksGo 0 bs).map PermutedBitBlock.block := by
      rw [cpbGo_map_block]
      exact hbbs
    obtain ⟨pb, hpb, hpbe⟩ := List.mem_map.mp hmm
    refine ⟨pb, hPb ▸ hpb, ?_, ?_⟩
    · rw [hpbe]; exact hc.1
    · rw [hpbe]; exact hc.2
  · intro pb hpb
    rw [hPb] at hpb
    have h2 := (cpbGo_newPos_ge bs 0 pb hpb).2
    omega

/-- A list with all members below M has all getD defaults below M. -/
theorem getD_lt {x : List Nat} {M : Nat} (hM : 0 < M) (h : ∀ y ∈ x, y < M) :
    ∀ i, x.getD i 0 < M := by
  intro i
  rw [List.getD_eq_getElem?_getD]
  cases hx : x[i]? with
  | none => simpa using hM
  | some v =>
    have hvm : v ∈ x := by
      have := List.getElem?_eq_some_iff.mp hx
      obtain ⟨hlt, he⟩ := this
      rw [← he]
      exact List.getElem_mem _
    simpa using h v hvm

theorem execStream_length {w : Nat} (opsFor : Nat → List BitOp) (nOut : Nat)
    (x : List Nat) : (execStream w opsFor nOut x).length = nOut := by
  simp [execStream]

/-- Output words of a compiled stream execution stay below 2 ^ w. -/
theorem execStream_bounds {w : Nat} (hw : 0 < w) (hw64 : w ≤ 64) {x : List Nat}
    (hx : ∀ i, x.getD i 0 < 2 ^ w) (pbs : List PermutedBitBlock)
    (hlen : ∀ pb ∈ pbs, 0 < pb.block.len)
    (hdisj : List.Pairwise (fun a b => a.newPos + a.block.len ≤ b.newPos ∨
      b.newPos + b.block.len ≤ a.newPos) pbs) (opt : Bool) (nOut : Nat) :
    ∀ i, (execStream w (compilePermutation
      (pbs.flatMap (fun pb => pb.toOps w)) w opt) nOut x).getD i 0 < 2 ^ w := by
  intro i
  by_cases hi : i < nOut
  · rw [execStream_getD _ _ _ hi,
      compilePermutation_exec hw hw64 hx _ opt _ (streamWF hw pbs hlen)
        (streamPairwise hw pbs hlen hdisj)]
    exact orContrib_lt hx _
  · rw [List.getD_eq_default]
    · exact two_pow_pos w
    · rw [execStream_length]
      omega

/-- Round trip of the generated apply and revert functions: reverting an
applied variant restores the key, for every variant of
create_permutations. -/
theorem revertW_applyW_id {f w r k nw : Nat} (hw : 0 < w) (hw64 : w ≤ 64)
    (hr : 0 < r) (hfr : r ≤ f) (hf : f = nw * w)
    {P : Permutation} (hP : P ∈ createPermutations f w r k)
    {x : List Nat} (hxlen : x.length = nw) (hx : ∀ i, x.getD i 0 < 2 ^ w) :
    P.revertW w nw (P.applyW w nw x) = x := by
  obtain ⟨hhead, hblen, hadisj, hsdisj, hscover, hnbound⟩ := variant_facts hr hfr hP
  set y := P.applyW w nw x with hy
  have hyb : ∀ i, y.getD i 0 < 2 ^ w :=
    execStream_bounds hw hw64 hx P.blocks hblen hadisj true nw
  have hlen2 : ∀ pb2 ∈ P.blocks.map PermutedBitBlock.papply, 0 < pb2.block.len := by
    intro pb2 h2
    obtain ⟨pb, hpb, he⟩ := List.mem_map.mp h2
    rw [← he]
    exact hblen pb hpb
  have hrdisj : List.Pairwise (fun a b => a.newPos + a.block.len ≤ b.newPos ∨
      b.newPos + b.block.len ≤ a.newPos) (P.blocks.map PermutedBitBlock.papply) :=
    List.pairwise_map.mpr hsdisj
  have happlybit : ∀ q, q < nw * w → getBit w y q = specBit w P.blocks x q := by
    intro q hq
    rw [hy]
    exact stream_exec_spec hw hw64 hx P.blocks hblen hadisj true nw hq
  have hrevstream : P.revertStream w =
      (P.blocks.map PermutedBitBlock.papply).flatMap (fun pb => pb.toOps w) := by
    rw [List.flatMap_map]
    rfl
  have hrevbit : ∀ q, q < nw * w → getBit w (P.revertW w nw y) q =
      specBit w (P.blocks.map PermutedBitBlock.papply) y q := by
    intro q hq
    unfold Permutation.revertW
    rw [hrevstream]
    exact stream_exec_spec hw hw64 hyb _ hlen2 hrdisj true nw hq
  have hrevb : ∀ i, (P.revertW w nw y).getD i 0 < 2 ^ w := by
    have := execStream_bounds hw hw64 hyb (P.blocks.map PermutedBitBlock.papply)
      hlen2 hrdisj true nw
    intro i
    have h2 := this i
    unfold Permutation.revertW
    rw [hrevstream]
    exact h2
  have hbits : ∀ q, q < nw * w → getBit w (P.revertW w nw y) q = getBit w x q := by
    intro q hq
    rw [hrevbit q hq]
    have hqf : q < f := by omega
    obtain ⟨pb, hpb, hc1, hc2⟩ := hscover q hqf
    have hpap : PermutedBitBlock.papply pb ∈ P.blocks.map PermutedBitBlock.papply :=
      List.mem_map_of_mem _ hpb
    rw [specBit_cover _ hrdisj _ hpap hc1 hc2]
    have hlenpb := hblen pb hpb
    have hbnd := hnbound pb hpb
    have hq2 : pb.newPos + (q - pb.block.pos) < nw * w := by omega
    rw [show (PermutedBitBlock.papply pb).block.pos +
        (q - (PermutedBitBlock.papply pb).newPos) =
        pb.newPos + (q - pb.block.pos) from rfl]
    rw [happlybit _ hq2]
    rw [specBit_cover _ hadisj pb hpb (by omega) (by omega)]
    congr 1
    omega
  have hlenrev : (P.revertW w nw y).length = nw := by
    unfold Permutation.revertW
    exact execStream_length _ _ _
  apply List.ext_getElem (by rw [hlenrev, hxlen])
  intro i h1 h2
  apply Nat.eq_of_testBit_eq
  intro j
  by_cases hj : j < w
  · have hinw : i < nw := by rwa [hlenrev] at h1
    have hq : i * w + (w - 1 - j) < nw * w := by
      have h3 : (i + 1) * w ≤ nw * w := Nat.mul_le_mul (by omega) (Nat.le_refl w)
      have h4 : (i + 1) * w = i * w + w := by ring
      omega
    have hb := hbits _ hq
    unfold getBit at hb
    have hdiv : (i * w + (w - 1 - j)) / w = i := by
      rw [Nat.add_comm, Nat.add_mul_div_right _ _ hw, Nat.div_eq_of_lt (by omega)]
      omega
    have hmod : (i * w + (w - 1 - j)) % w = w - 1 - j := by
      rw [Nat.add_comm, Nat.add_mul_mod_self_right _ _ _, Nat.mod_eq_of_lt (by omega)]
    rw [hdiv, hmod] at hb
    have hj2 : w - 1 - (w - 1 - j) = j := by omega
    rw [hj2] at hb
    rw [List.getD_eq_getElem _ 0 h1, List.getD_eq_getElem _ 0 h2] at hb
    exact hb
  · have hxb := hx i
    have hrb := hrevb i
    rw [List.getD_eq_getElem _ 0 h1] at hrb
    rw [List.getD_eq_getElem _ 0 h2] at hxb
    rw [testBit_of_lt_two_pow hrb (by omega), testBit_of_lt_two_pow hxb (by omega)]

/-- specBit is zero at positions covered by no block. -/
theorem specBit_none {w : Nat} {x : List Nat} {q : Nat} {pbs : List PermutedBitBlock}
    (h : ∀ pb ∈ pbs, ¬ (pb.newPos ≤ q ∧ q < pb.newPos + pb.block.len)) :
    specBit w pbs x q = false := by
  unfold specBit
  rw [List.find?_eq_none.mpr (fun pb hpb => by simpa using h pb hpb)]

/-- Head blocks of a variant land inside the first mask_bits positions. -/
theorem variant_head_bound {f r k w : Nat} (hr : 0 < r) (hfr : r ≤ f)
    {P : Permutation} (hP : P ∈ createPermutations f w r k) :
    ∀ pb ∈ P.blocks.take P.head, pb.newPos + pb.block.len ≤ P.maskBits := by
  obtain ⟨order, ho, hPe⟩ := createPermutations_mem hP
  set bs : List BitBlock := reorderBlocks (splitBitsIntoBlocks f r) order with hbs
  have hPb : P.blocks = createPermutedBlocksGo 0 bs := by rw [hPe]; rfl
  intro pb hpb
  rw [hPb, cpbGo_take] at hpb
  have h2 := (cpbGo_newPos_ge (bs.take P.head) 0 pb hpb).2
  have hmb : P.maskBits = ((bs.take P.head).map BitBlock.len).sum := by
    unfold Permutation.maskBits
    rw [hPb, cpbGo_take]
    rw [show ((createPermutedBlocksGo 0 (bs.take P.head)).map (fun pb => pb.block.len))
        = ((createPermutedBlocksGo 0 (bs.take P.head)).map
            PermutedBitBlock.block).map BitBlock.len by rw [List.map_map]; rfl]
    rw [cpbGo_map_block]
  omega

/-- The generated top-mask function: bits follow the specification of the
head blocks, and every position past mask_bits is zero. -/
theorem maskW_spec {f w r k nmw : Nat} (hw : 0 < w) (hw64 : w ≤ 64)
    (hr : 0 < r) (hfr : r ≤ f)
    {P : Permutation} (hP : P ∈ createPermutations f w r k)
    {x : List Nat} (hx : ∀ i, x.getD i 0 < 2 ^ w)
    {q : Nat} (hq : q < nmw * w) :
    getBit w (P.maskW w nmw x) q = specBit w (P.blocks.take P.head) x q ∧
    (P.maskBits ≤ q → getBit w (P.maskW w nmw x) q = false) := by
  obtain ⟨hhead, hblen, hadisj, hsdisj, hscover, hnbound⟩ := variant_facts hr hfr hP
  have hlent : ∀ pb ∈ P.blocks.take P.head, 0 < pb.block.len :=
    fun pb hpb => hblen pb (List.mem_of_mem_take hpb)
  have hdisjt : List.Pairwise (fun a b => a.newPos + a.block.len ≤ b.newPos ∨
      b.newPos + b.block.len ≤ a.newPos) (P.blocks.take P.head) :=
    hadisj.sublist (List.take_sublist P.head P.blocks)
  have hmain : getBit w (P.maskW w nmw x) q = specBit w (P.blocks.take P.head) x q := by
    unfold Permutation.maskW
    exact stream_exec_spec hw hw64 hx (P.blocks.take P.head) hlent hdisjt true nmw hq
  refine ⟨hmain, ?_⟩
  intro hqm
  rw [hmain]
  apply specBit_none
  intro pb hpb
  have := variant_head_bound hr hfr hP pb hpb
  omega

/-- Optimized and unoptimized compiled streams execute identically. -/
theorem exec_opt_eq_unopt {w : Nat} (hw : 0 < w) (hw64 : w ≤ 64) {x : List Nat}
    (hx : ∀ i, x.getD i 0 < 2 ^ w) (pbs : List PermutedBitBlock)
    (hlen : ∀ pb ∈ pbs, 0 < pb.block.len)
    (hdisj : List.Pairwise (fun a b => a.newPos + a.block.len ≤ b.newPos ∨
      b.newPos + b.block.len ≤ a.newPos) pbs) (nOut : Nat) :
    execStream w (compilePermutation (pbs.flatMap (fun pb => pb.toOps w)) w true) nOut x =
    execStream w (compilePermutation (pbs.flatMap (fun pb => pb.toOps w)) w false) nOut x := by
  unfold execStream
  apply List.map_congr_left
  intro d _
  rw [compilePermutation_exec hw hw64 hx _ true _ (streamWF hw pbs hlen)
      (streamPairwise hw pbs hlen hdisj),
    compilePermutation_exec hw hw64 hx _ false _ (streamWF hw pbs hlen)
      (streamPairwise hw pbs hlen hdisj)]

/-! ## Claim theorems: permutation layer -/

/-- C3: for every permutation variant of a valid instantiation (word count
nw with f = nw * w, 0 < r ≤ f) and every key x given as nw words below
2 ^ w, reverting the applied permutation restores the original key:
P.revert(P.apply(x)) = x. -/
theorem claim_C3_revert_apply_roundtrip (f w r k nw : Nat) (hw : 0 < w)
    (hw64 : w ≤ 64) (hr : 0 < r) (hfr : r ≤ f) (hf : f = nw * w)
    {P : Permutation} (hP : P ∈ createPermutations f w r k)
    {x : List Nat} (hxlen : x.length = nw) (hx : ∀ i, x.getD i 0 < 2 ^ w) :
    P.revertW w nw (P.applyW w nw x) = x :=
  revertW_applyW_id hw hw64 hr hfr hf hP hxlen hx

theorem claim_C3_witness :
    ((createPermutations 8 8 4 2).getD 0 default).revertW 8 1
      (((createPermutations 8 8 4 2).getD 0 default).applyW 8 1 [171]) = [171] :=
  claim_C3_revert_apply_roundtrip 8 8 4 2 1 (by decide) (by decide) (by decide)
    (by decide) (by decide) (by decide) (by decide) (getD_lt (by decide) (by decide))

/-- C2: the compiled top-mask stream of every variant selects exactly the
bits of the head blocks: every output bit below nmw * w equals the
specified bit of the head blocks of x (their contents concatenated from
position 0 of the mask value), and every bit at position mask_bits or
later is zero. -/
theorem claim_C2_top_mask (f w r k nmw : Nat) (hw : 0 < w) (hw64 : w ≤ 64)
    (hr : 0 < r) (hfr : r ≤ f) {P : Permutation}
    (hP : P ∈ createPermutations f w r k) {x : List Nat}
    (hx : ∀ i, x.getD i 0 < 2 ^ w) {q : Nat} (hq : q < nmw * w) :
    getBit w (P.maskW w nmw x) q = specBit w (P.blocks.take P.head) x q ∧
    (P.maskBits ≤ q → getBit w (P.maskW w nmw x) q = false) :=
  maskW_spec hw hw64 hr hfr hP hx hq

theorem claim_C2_witness :
    (getBit 8 (((createPermutations 8 8 4 2).getD 0 default).maskW 8 1 [171]) 2 =
      specBit 8 ((((createPermutations 8 8 4 2).getD 0 default).blocks).take
        ((createPermutations 8 8 4 2).getD 0 default).head) [171] 2) ∧
    (((createPermutations 8 8 4 2).getD 0 default).maskBits ≤ 2 →
      getBit 8 (((createPermutations 8 8 4 2).getD 0 default).maskW 8 1 [171]) 2 = false) :=
  claim_C2_top_mask 8 8 4 2 1 (by decide) (by decide) (by decide) (by decide)
    (by decide) (getD_lt (by decide) (by decide)) (by decide)

/-- C6: for every permutation variant and every input, the optimized
compiled op streams (apply, revert and top-mask) execute word-for-word
identically to the unoptimized ones. -/
theorem claim_C6_optimize_equiv (f w r k nw nmw : Nat) (hw : 0 < w)
    (hw64 : w ≤ 64) (hr : 0 < r) (hfr : r ≤ f) {P : Permutation}
    (hP : P ∈ createPermutations f w r k) {x : List Nat}
    (hx : ∀ i, x.getD i 0 < 2 ^ w) :
    P.applyW w nw x =
      execStream w (compilePermutation (P.applyStream w) w false) nw x ∧
    P.revertW w nw x =
      execStream w (compilePermutation (P.revertStream w) w false) nw x ∧
    P.maskW w nmw x =
      execStream w (compilePermutation (P.topMaskStream w) w false) nmw x := by
  obtain ⟨hhead, hblen, hadisj, hsdisj, hscover, hnbound⟩ := variant_facts hr hfr hP
  have hlen2 : ∀ pb2 ∈ P.blocks.map PermutedBitBlock.papply, 0 < pb2.block.len := by
    intro pb2 h2
    obtain ⟨pb, hpb, he⟩ := List.mem_map.mp h2
    rw [← he]
    exact hblen pb hpb
  have hrdisj : List.Pairwise (fun a b => a.newPos + a.block.len ≤ b.newPos ∨
      b.newPos + b.block.len ≤ a.newPos) (P.blocks.map PermutedBitBlock.papply) :=
    List.pairwise_map.mpr hsdisj
  have hlent : ∀ pb ∈ P.blocks.take P.head, 0 < pb.block.len :=
    fun pb hpb => hblen pb (List.mem_of_mem_take hpb)
  have hdisjt : List.Pairwise (fun a b => a.newPos + a.block.len ≤ b.newPos ∨
      b.newPos + b.block.len ≤ a.newPos) (P.blocks.take P.head) :=
    hadisj.sublist (List.take_sublist P.head P.blocks)
  refine ⟨?_, ?_, ?_⟩
  · exact exec_opt_eq_unopt hw hw64 hx P.blocks hblen hadisj nw
  · have hrs : P.revertStream w =
        (P.blocks.map PermutedBitBlock.papply).flatMap (fun pb => pb.toOps w) := by
      rw [List.flatMap_map]
      rfl
    unfold Permutation.revertW
    rw [hrs]
    exact exec_opt_eq_unopt hw hw64 hx _ hlen2 hrdisj nw
  · unfold Permutation.maskW
    exact exec_opt_eq_unopt hw hw64 hx _ hlent hdisjt nmw

theorem claim_C6_witness :
    ((createPermutations 8 8 4 2).getD 0 default).applyW 8 1 [171] =
      execStream 8 (compilePermutation
        (((createPermutations 8 8 4 2).getD 0 default).applyStream 8) 8 false) 1 [171] ∧
    ((createPermutations 8 8 4 2).getD 0 default).revertW 8 1 [171] =
      execStream 8 (compilePermutation
        (((createPermutations 8 8 4 2).getD 0 default).revertStream 8) 8 false) 1 [171] ∧
    ((createPermutations 8 8 4 2).getD 0 default).maskW 8 1 [171] =
      execStream 8 (compilePermutation
        (((createPermutations 8 8 4 2).getD 0 default).topMaskStream 8) 8 false) 1 [171] :=
  claim_C6_optimize_equiv 8 8 4 2 1 1 (by decide) (by decide) (by decide)
    (by decide) (by decide) (getD_lt (by decide) (by decide))

/-! ## util.rs, index and lookup layer: keys, searches, indexes -/

/-- Lexicographic Bool comparison of word arrays, as derived Ord on the
generated Bits struct (equal-length word arrays). -/
def keyLe : List Nat → List Nat → Bool
  | [], _ => true
  | _ :: _, [] => false
  | a :: as2, b :: bs => if a < b then true else if b < a then false else keyLe as2 bs

/-- Lexicographic Ordering of word arrays (derived Ord::cmp). -/
def keyCompare : List Nat → List Nat → Ordering
  | [], [] => .eq
  | [], _ :: _ => .lt
  | _ :: _, [] => .gt
  | a :: as2, b :: bs =>
    match compare a b with
    | .eq => keyCompare as2 bs
    | o => o

/-- count_ones of a w-bit word. -/
def popcountW (w n : Nat) : Nat :=
  ((List.range w).filter (fun i => n.testBit i)).length

/-- Distance::xor_dist of the generated Bits: sum over words of
count_ones of the xor. -/
def xorDist (w : Nat) (a b : List Nat) : Nat :=
  (List.zipWith (fun x y => popcountW w (x ^^^ y)) a b).sum

/-- Core slice binary_search_by: comparator-driven halving loop; fuel
bounds the iteration count (the interval halves each step). -/
def binarySearchGo {α : Type} [Inhabited α] (f : α → Ordering) (xs : List α) :
    Nat → Nat → Nat → Except Nat Nat
  | 0, left, _ => .error left
  | fuel + 1, left, right =>
    if left < right then
      let mid := left + (right - left) / 2
      match f (xs.getD mid default) with
      | .lt => binarySearchGo f xs fuel (mid + 1) right
      | .gt => binarySearchGo f xs fuel left mid
      | .eq => .ok mid
    else .error left

def binarySearchBy {α : Type} [Inhabited α] (f : α → Ordering) (xs : List α) :
    Except Nat Nat :=
  binarySearchGo f xs (xs.length + 1) 0 xs.length

/-- The doubling loop of util.rs exponential_search_by. -/
def expBoundGo {α : Type} [Inhabited α] (f : α → Ordering) (xs : List α) :
    Nat → Nat → Nat
  | 0, bound => bound
  | fuel + 1, bound =>
    if bound < xs.length ∧ f (xs.getD bound default) = .lt then
      expBoundGo f xs fuel (bound * 2)
    else bound

/-- Source util.rs exponential_search_by. -/
def exponentialSearchBy {α : Type} [Inhabited α] (f : α → Ordering) (xs : List α) :
    Except Nat Nat :=
  let bound := expBoundGo f xs (xs.length + 1) 1
  let start := bound / 2
  let sub := (xs.drop start).take (min xs.length (bound + 1) - start)
  match binarySearchBy f sub with
  | .ok i => .ok (i + start)
  | .error i => .error (i + start)

/-- The narrowed-slice phase of util.rs extended_binary_search_by: find the
left end with a comparator that never returns Equal, then the right end by
exponential search; unreachable arms modelled as none. -/
def ebsTail {α : Type} [Inhabited α] (f : α → Ordering) (s : List α) :
    Option (List α) :=
  match binarySearchBy (fun el => (f el).then .gt) s with
  | .ok _ => none
  | .error pos =>
    if pos < s.length && (f (s.getD pos default)).isEq then
      match exponentialSearchBy (fun el => (f el).then .lt) (s.drop pos) with
      | .ok _ => none
      | .error blockEnd =>
        some ((s.drop pos).take (min (pos + blockEnd) s.length - pos))
    else some []

/-- Source util.rs extended_binary_search_by; none models a panic
(the unconditional slice[mid] access panics on an empty slice). -/
def extendedBinarySearchBy {α : Type} [Inhabited α] (f : α → Ordering)
    (slice : List α) : Option (List α) :=
  let mid := slice.length / 2
  match slice[mid]? with
  | none => none
  | some xm =>
    if (f xm).then .gt = .gt then
      if f (slice.getD 0 default) = .gt then some []
      else ebsTail f (slice.take (mid + 1))
    else if f (slice.getD (slice.length - 1) default) = .lt then some []
    else ebsTail f (slice.drop mid)

/-- The backward scan of select_block_at (index/mod.rs). -/
def selectStartAt {α : Type} [Inhabited α] (data : List α) (km : List Nat)
    (maskFn : α → List Nat) : Nat → Nat
  | 0 => 0
  | s + 1 => if maskFn (data.getD s default) = km then
      selectStartAt data km maskFn s
    else s + 1

/-- The forward scan of select_block_at (index/mod.rs). -/
def selectEndAt {α : Type} [Inhabited α] (data : List α) (km : List Nat)
    (maskFn : α → List Nat) : Nat → Nat → Nat
  | 0, e => e
  | fuel + 1, e =>
    if e < data.length - 1 ∧ maskFn (data.getD (e + 1) default) = km then
      selectEndAt data km maskFn fuel (e + 1)
    else e

/-- Source index/mod.rs select_block_at. -/
def selectBlockAt {α : Type} [Inhabited α] (data : List α) (pos : Nat)
    (maskFn : α → List Nat) : List α :=
  let km := maskFn (data.getD pos default)
  let start := selectStartAt data km maskFn pos
  let e := selectEndAt data km maskFn data.length pos
  (data.drop start).take (e + 1 - start)

/-- Source index/mod.rs scan_block: emit (value, distance) for entries
within the distance threshold. -/
def scanBlock (w : Nat) (data : List (List Nat × Nat)) (key : List Nat)
    (threshold : Nat) : List (Nat × Nat) :=
  data.filterMap (fun e =>
    let dist := xorDist w e.1 key
    if dist ≤ threshold then some (e.2, dist) else none)

/-- Source mem_index.rs MemIndex::search, returning the (unchanged) entry
vector alongside the result to make the state explicit. -/
def memSearch (P : Permutation) (w nw nmw : Nat) (data : List (List Nat × Nat))
    (key : List Nat) (distance : Nat) :
    List (List Nat × Nat) × Except (Nat × Nat) (List (Nat × Nat)) :=
  (data,
    if P.nBlocks ≤ distance then Except.error (distance, P.nBlocks)
    else
      let permuted := P.applyW w nw key
      let masked := P.maskW w nmw permuted
      match binarySearchBy (fun e => keyCompare (P.maskW w nmw e.1) masked) data with
      | .ok pos =>
        Except.ok (scanBlock w
          (selectBlockAt data pos (fun e => P.maskW w nmw e.1)) permuted distance)
      | .error _ => Except.ok [])

/-- Source mem_index.rs MemIndex::insert: extend with permuted items, then
sort by key (sort_unstable_by_key, modelled by mergeSort on the key
order: an unstable sort is any reordering that sorts the multiset). -/
def insertIndex (P : Permutation) (w nw : Nat) (data : List (List Nat × Nat))
    (items : List (List Nat × Nat)) : List (List Nat × Nat) :=
  List.mergeSort (data ++ items.map (fun kv => (P.applyW w nw kv.1, kv.2)))
    (fun e1 e2 => keyLe e1.1 e2.1)

/-- Source mem_index.rs MemIndex::remove: retain entries whose permuted key
is not among the permuted removal keys. -/
def removeIndex (P : Permutation) (w nw : Nat) (data : List (List Nat × Nat))
    (keys : List (List Nat)) : List (List Nat × Nat) :=
  data.filter (fun e => ¬ (keys.map (fun k2 => P.applyW w nw k2)).contains e.1)

/-- Modelled from the spec: two permuted keys share their masked prefix
when their first mask_bits bits agree (the index is sorted by permuted
key, so equal masked prefixes form a contiguous run). -/
def maskEq (w maskBits : Nat) (y1 y2 : List Nat) : Bool :=
  (List.range maskBits).all (fun q => getBit w y1 q == getBit w y2 q)

/-- Modelled from the spec: get_candidates returns the entries whose masked
prefix equals the masked prefix of the permuted probe. -/
def getCandidates (P : Permutation) (w nw : Nat) (data : List (List Nat × Nat))
    (key : List Nat) : List (List Nat × Nat) :=
  data.filter (fun e => maskEq w P.maskBits e.1 (P.applyW w nw key))

/-- Source lookup/mod.rs SearchResult. -/
structure SearchResultL where
  candidatesScanned : Nat
  result : List (List (Nat × Nat))
deriving DecidableEq, Repr

instance : Inhabited (Permutation × List (List Nat × Nat)) := ⟨(default, [])⟩

/-- Source lookup/mod.rs max_search_distance: n_blocks of the first
index's permuter, minus one. -/
def maxSearchDistance (idxs : List (Permutation × List (List Nat × Nat))) : Nat :=
  (idxs.getD 0 default).1.nBlocks - 1

/-- Source lookup/mod.rs Lookup::search; the per-index candidate scan uses
the spec-modelled get_candidates (the Candidates type is not part of the
sources). -/
def lookupSearch (w nw : Nat) (idxs : List (Permutation × List (List Nat × Nat)))
    (key : List Nat) (d : Nat) : Except (Nat × Nat) SearchResultL :=
  if maxSearchDistance idxs < d then .error (d, maxSearchDistance idxs)
  else .ok ⟨(idxs.map (fun ix => (getCandidates ix.1 w nw ix.2 key).length)).sum,
    idxs.map (fun ix =>
      scanBlock w (getCandidates ix.1 w nw ix.2 key) (ix.1.applyW w nw key) d)⟩

/-- One step of collecting into a HashSet keyed by the value (the source
SearchResultItem hashes and compares by data only). -/
def dedupIns (acc : List (Nat × Nat)) (it : Nat × Nat) : List (Nat × Nat) :=
  if acc.any (fun e => e.1 == it.1) then acc else acc ++ [it]

/-- Collect into a HashSet keyed by value: first occurrence wins. -/
def dedupByData (l : List (Nat × Nat)) : List (Nat × Nat) :=
  l.foldl dedupIns []

/-- Source lookup/mod.rs search_simple: unwraps the search result (none
models the panic of expect) and collects the flattened items into a
HashSet deduplicated by value. -/
def searchSimple (w nw : Nat) (idxs : List (Permutation × List (List Nat × Nat)))
    (key : List Nat) (d : Nat) : Option (List (Nat × Nat)) :=
  match lookupSearch w nw idxs key d with
  | .error _ => none
  | .ok res => some (dedupByData res.result.flatten)

/-- Source mmvec.rs MmVecError (io errors are out of scope of the model). -/
inductive MmVecError
  | signatureMismatch (expected actual : Nat)
  | uninitializedVectorLoad
deriving DecidableEq, Repr

/-- A persisted vector file: total size in bytes, and the header fields
(signature at offset 0, length at offset 8). -/
structure FileModel where
  sizeBytes : Nat
  sig : Nat
  len : Nat
deriving DecidableEq, Repr

/-- Data::capacity: data-section bytes divided by the element size. -/
def capacityOf (tSize : Nat) (fm : FileModel) : Nat := (fm.sizeBytes - 16) / tSize

/-- Source mmvec.rs MmVec::from_path: none models the assert panic on a
file shorter than the 16-byte header; a signature mismatch and a
length/capacity mismatch produce the respective errors; on success the
loaded vector is the header pair. -/
def fromPath (tSize : Nat) (expected : Nat) (fm : FileModel) :
    Option (Except MmVecError (Nat × Nat)) :=
  if fm.sizeBytes < 16 then none
  else if fm.sig ≠ expected then
    some (.error (.signatureMismatch expected fm.sig))
  else if fm.len ≠ capacityOf tSize fm then
    some (.error .uninitializedVectorLoad)
  else some (.ok (fm.sig, fm.len))

theorem variant_nBlocks {f r k w : Nat} (hr : 0 < r) (hfr : r ≤ f)
    {P : Permutation} (hP : P ∈ createPermutations f w r k) :
    P.nBlocks = r := by
  obtain ⟨order, ho, hPe⟩ := createPermutations_mem hP
  have hsub := combinations_sublist k (List.range r) order ho
  have hord : order.Nodup := hsub.nodup (List.nodup_range r)
  have hbound : ∀ p ∈ order, p < (splitBitsIntoBlocks f r).length := by
    intro p hp
    rw [splitBitsIntoBlocks_length]
    exact List.mem_range.mp (hsub.subset hp)
  have hidx : ∀ t, t < (splitBitsIntoBlocks f r).length →
      ((splitBitsIntoBlocks f r).getD t default).idx = t := by
    intro t ht
    exact splitBitsIntoBlocks_idx f r t (by rwa [splitBitsIntoBlocks_length] at ht)
  have hperm := reorderBlocks_perm hidx hord hbound
  rw [hPe]
  show (createPermutedBlocksGo 0 (reorderBlocks (splitBitsIntoBlocks f r) order)).length = r
  have hl1 : (createPermutedBlocksGo 0
      (reorderBlocks (splitBitsIntoBlocks f r) order)).length =
      (reorderBlocks (splitBitsIntoBlocks f r) order).length := by
    have h2 : ((createPermutedBlocksGo 0
        (reorderBlocks (splitBitsIntoBlocks f r) order)).map
          PermutedBitBlock.block).length =
        (reorderBlocks (splitBitsIntoBlocks f r) order).length := by
      rw [cpbGo_map_block]
    rwa [List.length_map] at h2
  rw [hl1, hperm.length_eq, splitBitsIntoBlocks_length]

theorem keyLe_trans : ∀ a b c : List Nat, keyLe a b = true → keyLe b c = true →
    keyLe a c = true := by
  intro a
  induction a with
  | nil => intro b c _ _; rfl
  | cons x xs ih =>
    intro b c hab hbc
    cases b with
    | nil => simp [keyLe] at hab
    | cons y ys =>
      cases c with
      | nil => simp [keyLe] at hbc
      | cons z zs =>
        simp only [keyLe] at hab hbc ⊢
        by_cases h1 : x < y
        · by_cases h2 : y < z
          · simp [show x < z by omega]
          · by_cases h3 : z < y
            · simp [h2, h3] at hbc
            · simp [show x < z by omega]
        · by_cases h4 : y < x
          · simp [h1, h4] at hab
          · by_cases h2 : y < z
            · simp [show x < z by omega]
            · by_cases h3 : z < y
              · simp [h2, h3] at hbc
              · have hxz1 : ¬ x < z := by omega
                have hxz2 : ¬ z < x := by omega
                simp only [hxz1, hxz2, if_false, ite_false]
                simp only [h1, h4, if_false, ite_false] at hab
                simp only [h2, h3, if_false, ite_false] at hbc
                exact ih ys zs hab hbc

theorem keyLe_total : ∀ a b : List Nat, (keyLe a b || keyLe b a) = true := by
  intro a
  induction a with
  | nil => intro b; rfl
  | cons x xs ih =>
    intro b
    cases b with
    | nil => simp [keyLe]
    | cons y ys =>
      simp only [keyLe]
      by_cases h1 : x < y
      · simp [h1]
      · by_cases h2 : y < x
        · simp [h1, h2]
        · simp [h1, h2, ih ys]

/-! ## Claim theorems: util, mmvec, index and lookup -/

/-- C4: the cited candidate-block locator extended_binary_search_by does
not return the maximal matching run: on the sorted input [0, 2, 2, 2, 2]
with comparator (compare . 2) it returns only two of the four matching
elements, and it panics (modelled as none) on the empty slice instead of
returning an empty slice. -/
theorem claim_C4_locator_bug :
    extendedBinarySearchBy (fun a => compare a 2) [0, 2, 2, 2, 2] = some [2, 2] ∧
    (List.filter (fun a => a == 2) [0, 2, 2, 2, 2]).length = 4 ∧
    extendedBinarySearchBy (fun a => compare a 2) ([] : List Nat) = none := by
  refine ⟨by decide, by decide, by decide⟩

/-- C9: from_path succeeds exactly when the stored signature matches the
expected one and the stored length equals the capacity derived from the
file size; a signature mismatch fails with SignatureMismatch carrying the
expected and actual values; a length/capacity mismatch (for example a
truncated last byte) fails with UninitializedVectorLoad; either error
produces no vector. -/
theorem claim_C9_from_path (tSize expected : Nat) (fm : FileModel)
    (hs : 16 ≤ fm.sizeBytes) :
    ((∃ v, fromPath tSize expected fm = some (.ok v)) ↔
      (fm.sig = expected ∧ fm.len = capacityOf tSize fm)) ∧
    (fm.sig ≠ expected →
      fromPath tSize expected fm =
        some (.error (.signatureMismatch expected fm.sig))) ∧
    (fm.sig = expected → fm.len ≠ capacityOf tSize fm →
      fromPath tSize expected fm = some (.error .uninitializedVectorLoad)) := by
  unfold fromPath
  have h16 : ¬ (fm.sizeBytes < 16) := by omega
  refine ⟨⟨?_, ?_⟩, ?_, ?_⟩
  · intro hv
    obtain ⟨v, hv⟩ := hv
    by_cases h1 : fm.sig = expected
    · by_cases h2 : fm.len = capacityOf tSize fm
      · exact ⟨h1, h2⟩
      · simp [h16, h1, h2] at hv
    · simp [h16, h1] at hv
  · intro h12
    exact ⟨(fm.sig, fm.len), by simp [h16, h12.1, h12.2]⟩
  · intro h1
    simp [h16, h1]
  · intro h1 h2
    simp [h16, h1, h2]

theorem claim_C9_witness :
    ((∃ v, fromPath 8 42 ⟨39, 42, 3⟩ = some (.ok v)) ↔
      ((⟨39, 42, 3⟩ : FileModel).sig = 42 ∧
        (⟨39, 42, 3⟩ : FileModel).len = capacityOf 8 ⟨39, 42, 3⟩)) ∧
    ((⟨39, 42, 3⟩ : FileModel).sig ≠ 42 →
      fromPath 8 42 ⟨39, 42, 3⟩ = some (.error (.signatureMismatch 42 42))) ∧
    ((⟨39, 42, 3⟩ : FileModel).sig = 42 →
      (⟨39, 42, 3⟩ : FileModel).len ≠ capacityOf 8 ⟨39, 42, 3⟩ →
      fromPath 8 42 ⟨39, 42, 3⟩ = some (.error .uninitializedVectorLoad)) :=
  claim_C9_from_path 8 42 ⟨39, 42, 3⟩ (by decide)

/-- C5: MemIndex::search returns the DistanceExceedsMax error exactly when
the distance reaches the block count r of the variant (so d = r is
rejected and every d < r yields an Ok result), and the entry vector is
returned unchanged. -/
theorem claim_C5_search_guard (f w r k nw nmw : Nat) (hr : 0 < r) (hfr : r ≤ f)
    {P : Permutation} (hP : P ∈ createPermutations f w r k)
    (data : List (List Nat × Nat)) (key : List Nat) (d : Nat) :
    (memSearch P w nw nmw data key d).1 = data ∧
    ((∃ e, (memSearch P w nw nmw data key d).2 = .error e) ↔ r ≤ d) ∧
    (r ≤ d → (memSearch P w nw nmw data key d).2 = .error (d, r)) ∧
    (d < r → ∃ res, (memSearch P w nw nmw data key d).2 = .ok res) := by
  have hnb : P.nBlocks = r := variant_nBlocks hr hfr hP
  have hsplit : (r ≤ d ∧ (memSearch P w nw nmw data key d).2 = .error (d, r)) ∨
      (d < r ∧ ∃ res, (memSearch P w nw nmw data key d).2 = .ok res) := by
    unfold memSearch
    by_cases hd : r ≤ d
    · left
      refine ⟨hd, ?_⟩
      rw [hnb]
      simp [hd]
    · right
      refine ⟨by omega, ?_⟩
      rw [hnb]
      simp only [if_neg hd]
      cases binarySearchBy (fun e => keyCompare (P.maskW w nmw e.1)
          (P.maskW w nmw (P.applyW w nw key))) data with
      | ok pos => exact ⟨_, rfl⟩
      | error e => exact ⟨_, rfl⟩
  refine ⟨rfl, ?_, ?_, ?_⟩
  · constructor
    · intro he
      obtain ⟨e, he⟩ := he
      rcases hsplit with ⟨h1, _⟩ | ⟨h1, res, h2⟩
      · exact h1
      · rw [he] at h2
        exact absurd h2 (by simp)
    · intro hd
      rcases hsplit with ⟨_, h2⟩ | ⟨h1, _⟩
      · exact ⟨(d, r), h2⟩
      · omega
  · intro hd
    rcases hsplit with ⟨_, h2⟩ | ⟨h1, _⟩
    · exact h2
    · omega
  · intro hd
    rcases hsplit with ⟨h1, _⟩ | ⟨_, h2⟩
    · omega
    · exact h2

theorem claim_C5_witness :
    ((memSearch ((createPermutations 8 8 4 2).getD 0 default) 8 1 1 [] [0] 4).1
      = [] ∧
    ((∃ e, (memSearch ((createPermutations 8 8 4 2).getD 0 default) 8 1 1 [] [0] 4).2
      = .error e) ↔ 4 ≤ 4) ∧
    (4 ≤ 4 → (memSearch ((createPermutations 8 8 4 2).getD 0 default) 8 1 1 [] [0] 4).2
      = .error (4, 4)) ∧
    (4 < 4 → ∃ res,
      (memSearch ((createPermutations 8 8 4 2).getD 0 default) 8 1 1 [] [0] 4).2
        = .ok res)) :=
  claim_C5_search_guard 8 8 4 2 1 1 (by decide) (by decide) (by decide) [] [0] 4

/-- C7: after insert(items) on any index state, the entry sequence is a
permutation of the previous entries plus the permuted items, and it is
fully sorted by permuted key, regardless of the order of items and of
whether it was sorted before. -/
theorem claim_C7_insert (P : Permutation) (w nw : Nat)
    (data items : List (List Nat × Nat)) :
    List.Perm (insertIndex P w nw data items)
      (data ++ items.map (fun kv => (P.applyW w nw kv.1, kv.2))) ∧
    List.Pairwise (fun e1 e2 => keyLe e1.1 e2.1 = true)
      (insertIndex P w nw data items) := by
  constructor
  · exact List.mergeSort_perm _ _
  · exact List.sorted_mergeSort (fun a b c => keyLe_trans a.1 b.1 c.1)
      (fun a b => keyLe_total a.1 b.1) _

/-- C8: after remove(keys) on a sorted index of permuted entries, no entry
remains whose unpermuted key lies in keys, every entry whose unpermuted
key is not in keys is retained, and the sequence stays sorted. -/
theorem claim_C8_remove (f w r k nw : Nat) (hw : 0 < w) (hw64 : w ≤ 64)
    (hr : 0 < r) (hfr : r ≤ f) (hf : f = nw * w)
    {P : Permutation} (hP : P ∈ createPermutations f w r k)
    (data : List (List Nat × Nat)) (keys : List (List Nat))
    (hdata : ∀ e ∈ data, ∃ k0, k0.length = nw ∧ (∀ y ∈ k0, y < 2 ^ w) ∧
      e.1 = P.applyW w nw k0)
    (hkeys : ∀ k0 ∈ keys, k0.length = nw ∧ (∀ y ∈ k0, y < 2 ^ w))
    (hsorted : List.Pairwise (fun e1 e2 => keyLe e1.1 e2.1 = true) data) :
    (∀ e ∈ removeIndex P w nw data keys, P.revertW w nw e.1 ∉ keys) ∧
    (∀ e ∈ data, P.revertW w nw e.1 ∉ keys → e ∈ removeIndex P w nw data keys) ∧
    List.Pairwise (fun e1 e2 => keyLe e1.1 e2.1 = true)
      (removeIndex P w nw data keys) := by
  have hrt : ∀ (k0 : List Nat), k0.length = nw → (∀ y ∈ k0, y < 2 ^ w) →
      P.revertW w nw (P.applyW w nw k0) = k0 := by
    intro k0 h1 h2
    exact revertW_applyW_id hw hw64 hr hfr hf hP h1 (getD_lt (two_pow_pos w) h2)
  refine ⟨?_, ?_, hsorted.filter _⟩
  · intro e he hcon
    have hef := List.mem_filter.mp he
    obtain ⟨k0, hk1, hk2, hk3⟩ := hdata e hef.1
    have hrev : P.revertW w nw e.1 = k0 := by rw [hk3]; exact hrt k0 hk1 hk2
    rw [hrev] at hcon
    have hmem : e.1 ∈ keys.map (fun k2 => P.applyW w nw k2) := by
      rw [hk3]
      exact List.mem_map_of_mem _ hcon
    have hf2 := hef.2
    simp [List.elem_iff, hmem] at hf2
  · intro e he hnotin
    apply List.mem_filter.mpr
    refine ⟨he, ?_⟩
    have hnm : e.1 ∉ keys.map (fun k2 => P.applyW w nw k2) := by
      intro hcon
      obtain ⟨k2, hk2m, hk2e⟩ := List.mem_map.mp hcon
      have hb := hkeys k2 hk2m
      have hr2 : P.revertW w nw e.1 = k2 := by
        rw [← hk2e]
        exact hrt k2 hb.1 hb.2
      rw [hr2] at hnotin
      exact hnotin hk2m
    simp [List.elem_iff, hnm]

theorem claim_C8_witness :
    (∀ e ∈ removeIndex ((createPermutations 8 8 4 2).getD 0 default) 8 1
        [(((createPermutations 8 8 4 2).getD 0 default).applyW 8 1 [5], 77)] [[5]],
      ((createPermutations 8 8 4 2).getD 0 default).revertW 8 1 e.1 ∉ [[5]]) ∧
    (∀ e ∈ [(((createPermutations 8 8 4 2).getD 0 default).applyW 8 1 [5], 77)],
      ((createPermutations 8 8 4 2).getD 0 default).revertW 8 1 e.1 ∉ [[5]] →
      e ∈ removeIndex ((createPermutations 8 8 4 2).getD 0 default) 8 1
        [(((createPermutations 8 8 4 2).getD 0 default).applyW 8 1 [5], 77)] [[5]]) ∧
    List.Pairwise (fun e1 e2 => keyLe e1.1 e2.1 = true)
      (removeIndex ((createPermutations 8 8 4 2).getD 0 default) 8 1
        [(((createPermutations 8 8 4 2).getD 0 default).applyW 8 1 [5], 77)] [[5]]) :=
  claim_C8_remove 8 8 4 2 1 (by decide) (by decide) (by decide) (by decide)
    (by decide) (by decide)
    [(((createPermutations 8 8 4 2).getD 0 default).applyW 8 1 [5], 77)] [[5]]
    (by
      intro e he
      rw [List.mem_singleton] at he
      subst he
      exact ⟨[5], rfl, by decide, rfl⟩)
    (by decide)
    (by simp)

theorem dedupIns_pairwise {acc : List (Nat × Nat)} {it : Nat × Nat}
    (h : List.Pairwise (fun a b => a.1 ≠ b.1) acc) :
    List.Pairwise (fun a b => a.1 ≠ b.1) (dedupIns acc it) := by
  unfold dedupIns
  by_cases hc : acc.any (fun e => e.1 == it.1) = true
  · simpa [hc] using h
  · simp only [hc, if_false, ite_false, Bool.false_eq_true]
    apply List.pairwise_append.mpr
    refine ⟨h, List.pairwise_singleton _ _, ?_⟩
    intro a ha b hb
    rw [List.mem_singleton] at hb
    subst hb
    intro hcon
    apply hc
    rw [List.any_eq_true]
    exact ⟨a, ha, by simp [hcon]⟩

theorem foldl_dedup_pairwise : ∀ (l acc : List (Nat × Nat)),
    List.Pairwise (fun a b => a.1 ≠ b.1) acc →
    List.Pairwise (fun a b => a.1 ≠ b.1) (l.foldl dedupIns acc) := by
  intro l
  induction l with
  | nil => intro acc h; exact h
  | cons it rest ih =>
    intro acc h
    exact ih (dedupIns acc it) (dedupIns_pairwise h)

theorem dedupByData_pairwise (l : List (Nat × Nat)) :
    List.Pairwise (fun a b => a.1 ≠ b.1) (dedupByData l) :=
  foldl_dedup_pairwise l [] List.Pairwise.nil

theorem dedupIns_mem_val (acc : List (Nat × Nat)) (it : Nat × Nat) (v : Nat) :
    (∃ dd, (v, dd) ∈ dedupIns acc it) ↔ (∃ dd, (v, dd) ∈ acc) ∨ v = it.1 := by
  unfold dedupIns
  by_cases hc : acc.any (fun e => e.1 == it.1) = true
  · simp only [hc, if_true, ite_true]
    constructor
    · intro h
      exact Or.inl h
    · rintro (h | h)
      · exact h
      · rw [List.any_eq_true] at hc
        obtain ⟨e, he, hee⟩ := hc
        simp at hee
        exact ⟨e.2, by rw [h, ← hee]; exact he⟩
  · simp only [hc, if_false, ite_false, Bool.false_eq_true]
    constructor
    · intro ⟨dd, hdd⟩
      rcases List.mem_append.mp hdd with h | h
      · exact Or.inl ⟨dd, h⟩
      · rw [List.mem_singleton] at h
        right
        rw [← h]
    · rintro (⟨dd, hdd⟩ | h)
      · exact ⟨dd, List.mem_append.mpr (Or.inl hdd)⟩
      · exact ⟨it.2, List.mem_append.mpr (Or.inr (by rw [h]; simp))⟩

theorem foldl_dedup_mem : ∀ (l acc : List (Nat × Nat)) (v : Nat),
    (∃ dd, (v, dd) ∈ l.foldl dedupIns acc) ↔
      (∃ dd, (v, dd) ∈ acc) ∨ (∃ dd, (v, dd) ∈ l) := by
  intro l
  induction l with
  | nil => intro acc v; simp
  | cons it rest ih =>
    intro acc v
    rw [List.foldl_cons, ih (dedupIns acc it) v]
    constructor
    · rintro (h | ⟨dd, hdd⟩)
      · rcases (dedupIns_mem_val acc it v).mp h with h2 | h2
        · exact Or.inl h2
        · exact Or.inr ⟨it.2, by rw [h2]; exact List.mem_cons_self _ _⟩
      · exact Or.inr ⟨dd, List.mem_cons_of_mem _ hdd⟩
    · rintro (h | ⟨dd, hdd⟩)
      · exact Or.inl ((dedupIns_mem_val acc it v).mpr (Or.inl h))
      · rcases List.mem_cons.mp hdd with h2 | h2
        · refine Or.inl ((dedupIns_mem_val acc it v).mpr (Or.inr ?_))
          rw [← h2]
        · exact Or.inr ⟨dd, h2⟩

theorem dedupByData_mem (l : List (Nat × Nat)) (v : Nat) :
    (∃ dd, (v, dd) ∈ dedupByData l) ↔ (∃ dd, (v, dd) ∈ l) := by
  unfold dedupByData
  rw [foldl_dedup_mem l [] v]
  simp

/-- C10: search_simple panics (modelled as none) exactly when the distance
exceeds max_search_distance = n_blocks − 1 of the first index; otherwise it
returns the flattened per-index scan results deduplicated by value: the
returned values are exactly the values of the per-index candidate scans,
each value listed once. -/
theorem claim_C10_search_simple (w nw : Nat)
    (idxs : List (Permutation × List (List Nat × Nat))) (key : List Nat)
    (d : Nat) :
    (searchSimple w nw idxs key d = none ↔ maxSearchDistance idxs < d) ∧
    ∀ res, searchSimple w nw idxs key d = some res →
      List.Pairwise (fun a b => a.1 ≠ b.1) res ∧
      ∀ v, (∃ dd, (v, dd) ∈ res) ↔
        ∃ dd, (v, dd) ∈ (idxs.map (fun ix =>
          scanBlock w (getCandidates ix.1 w nw ix.2 key)
            (ix.1.applyW w nw key) d)).flatten := by
  unfold searchSimple lookupSearch
  by_cases hd : maxSearchDistance idxs < d
  · simp [hd]
  · simp only [hd, if_false, ite_false]
    refine ⟨by simp [hd], ?_⟩
    intro res hres
    have hre : res = dedupByData ((idxs.map (fun ix =>
        scanBlock w (getCandidates ix.1 w nw ix.2 key)
          (ix.1.applyW w nw key) d)).flatten) := by
      exact (Option.some.inj hres).symm
    subst hre
    exact ⟨dedupByData_pairwise _, fun v => dedupByData_mem _ v⟩

/-! ## Bit-counting: xor_dist as the number of differing global bits -/

theorem countP_range_flip (w : Nat) (p : Nat → Bool) :
    (List.range w).countP (fun q => p (w - 1 - q)) = (List.range w).countP p := by
  have h1 : (List.range w).map (fun q => w - 1 - q) = (List.range w).reverse := by
    apply List.ext_getElem
    · simp
    · intro i hi1 hi2
      simp only [List.length_map, List.length_range] at hi1
      simp only [List.getElem_map, List.getElem_range, List.getElem_reverse,
        List.length_range]
  calc (List.range w).countP (fun q => p (w - 1 - q))
      = ((List.range w).map (fun q => w - 1 - q)).countP p :=
        (List.countP_map p _ _).symm
    _ = ((List.range w).reverse).countP p := by rw [h1]
    _ = (List.range w).countP p := List.countP_reverse p _

theorem getBit_cons_low {w : Nat} (a0 : Nat) (as2 : List Nat) {q : Nat}
    (hq : q < w) : getBit w (a0 :: as2) q = a0.testBit (w - 1 - q) := by
  unfold getBit
  rw [Nat.div_eq_of_lt hq, Nat.mod_eq_of_lt hq]
  rfl

theorem getBit_cons_high {w : Nat} (hw : 0 < w) (a0 : Nat) (as2 : List Nat)
    (q : Nat) : getBit w (a0 :: as2) (w + q) = getBit w as2 q := by
  unfold getBit
  have h1 : (w + q) / w = q / w + 1 := by
    rw [Nat.add_comm w q, Nat.add_div_right _ hw]
  have h2 : (w + q) % w = q % w := by
    rw [Nat.add_comm w q, Nat.add_mod_right]
  rw [h1, h2, List.getD_cons_succ]

theorem popcountW_xor_eq (w a b : Nat) :
    popcountW w (a ^^^ b) =
      (List.range w).countP (fun j => a.testBit j != b.testBit j) := by
  unfold popcountW
  rw [← List.countP_eq_length_filter]
  apply List.countP_congr
  intro j _
  rw [Nat.testBit_xor]

theorem xorDist_eq_diffLen {w : Nat} (hw : 0 < w) :
    ∀ (n : Nat) (a b : List Nat), a.length = n → b.length = n →
      xorDist w a b = (List.range (n * w)).countP
        (fun q => getBit w a q != getBit w b q) := by
  intro n
  induction n with
  | zero =>
    intro a b ha hb
    rw [List.length_eq_zero] at ha hb
    subst ha
    subst hb
    simp [xorDist]
  | succ m ih =>
    intro a b ha hb
    obtain ⟨a0, as2, rfl⟩ : ∃ x xs, a = x :: xs := by
      cases a with
      | nil => simp at ha
      | cons x xs => exact ⟨x, xs, rfl⟩
    obtain ⟨b0, bs, rfl⟩ : ∃ x xs, b = x :: xs := by
      cases b with
      | nil => simp at hb
      | cons x xs => exact ⟨x, xs, rfl⟩
    have ha2 : as2.length = m := by simpa using ha
    have hb2 : bs.length = m := by simpa using hb
    have hx : xorDist w (a0 :: as2) (b0 :: bs) =
        popcountW w (a0 ^^^ b0) + xorDist w as2 bs := by
      unfold xorDist
      simp
    rw [hx, ih as2 bs ha2 hb2, popcountW_xor_eq]
    have hsplit : List.range ((m + 1) * w) =
        List.range w ++ (List.range (m * w)).map (w + ·) := by
      rw [show (m + 1) * w = w + m * w by ring]
      exact List.range_add w (m * w)
    rw [hsplit, List.countP_append]
    congr 1
    · have h1 : (List.range w).countP
          (fun q => getBit w (a0 :: as2) q != getBit w (b0 :: bs) q) =
          (List.range w).countP
            (fun q => (fun j => a0.testBit j != b0.testBit j) (w - 1 - q)) := by
        apply List.countP_congr
        intro q hq
        rw [List.mem_range] at hq
        rw [getBit_cons_low _ _ hq, getBit_cons_low _ _ hq]
      rw [h1, countP_range_flip w (fun j => a0.testBit j != b0.testBit j)]
    · rw [List.countP_map]
      apply List.countP_congr
      intro q _
      show (getBit w as2 q != getBit w bs q) = true ↔
        (getBit w (a0 :: as2) (w + q) != getBit w (b0 :: bs) (w + q)) = true
      rw [getBit_cons_high hw, getBit_cons_high hw]

theorem countP_range_eq_card (n : Nat) (p : Nat → Bool) :
    (List.range n).countP p = ((Finset.range n).filter (fun q => p q = true)).card := by
  induction n with
  | zero => rfl
  | succ m ih =>
    rw [List.range_succ, List.countP_append, Finset.range_succ, Finset.filter_insert]
    by_cases h : p m = true
    · simp only [h, if_true, ite_true]
      rw [Finset.card_insert_of_not_mem (by simp)]
      simp [h, ih]
    · simp [h, ih]

theorem variant_more_facts {f r k w : Nat} (hr : 0 < r) (hfr : r ≤ f)
    {P : Permutation} (hP : P ∈ createPermutations f w r k) :
    (∀ q, q < f → ∃ pb ∈ P.blocks, pb.newPos ≤ q ∧ q < pb.newPos + pb.block.len) ∧
    (∀ pb ∈ P.blocks, pb.block.pos + pb.block.len ≤ f) := by
  obtain ⟨order, ho, hPe⟩ := createPermutations_mem hP
  have hsub := combinations_sublist k (List.range r) order ho
  have hord : order.Nodup := hsub.nodup (List.nodup_range r)
  have hbound : ∀ p ∈ order, p < (splitBitsIntoBlocks f r).length := by
    intro p hp
    rw [splitBitsIntoBlocks_length]
    exact List.mem_range.mp (hsub.subset hp)
  have hidx : ∀ t, t < (splitBitsIntoBlocks f r).length →
      ((splitBitsIntoBlocks f r).getD t default).idx = t := by
    intro t ht
    exact splitBitsIntoBlocks_idx f r t (by rwa [splitBitsIntoBlocks_length] at ht)
  have htile : Tiling 0 (splitBitsIntoBlocks f r) := splitBitsIntoBlocks_tiling f r hr hfr
  have hsum0 : ((splitBitsIntoBlocks f r).map BitBlock.len).sum = f :=
    splitBitsIntoBlocks_sum f r hr
  set bs : List BitBlock := reorderBlocks (splitBitsIntoBlocks f r) order with hbs
  have hsum : (bs.map BitBlock.len).sum = f := by
    rw [hbs, reorderBlocks_sum hidx hord hbound, hsum0]
  have hPb : P.blocks = createPermutedBlocksGo 0 bs := by
    rw [hPe]; rfl
  constructor
  · intro q hq
    obtain ⟨pb, hpb, hc⟩ := cpbGo_cover bs 0 q (Nat.zero_le q) (by omega)
    exact ⟨pb, hPb ▸ hpb, hc⟩
  · intro pb hpb
    rw [hPb] at hpb
    have hbmem : pb.block ∈ bs := by
      have h2 := List.mem_map_of_mem PermutedBitBlock.block hpb
      rwa [cpbGo_map_block] at h2
    have h3 := Tiling_mem _ 0 htile pb.block (reorderBlocks_mem hbound _ hbmem)
    omega

/-- A permuted-interval cover is unique under pairwise disjointness. -/
theorem cover_unique {pbs : List PermutedBitBlock}
    (hdisj : List.Pairwise (fun a b => a.newPos + a.block.len ≤ b.newPos ∨
      b.newPos + b.block.len ≤ a.newPos) pbs)
    {pb1 pb2 : PermutedBitBlock} (h1 : pb1 ∈ pbs) (h2 : pb2 ∈ pbs) {q : Nat}
    (hc1 : pb1.newPos ≤ q ∧ q < pb1.newPos + pb1.block.len)
    (hc2 : pb2.newPos ≤ q ∧ q < pb2.newPos + pb2.block.len) : pb1 = pb2 := by
  by_contra hne
  have hsym : Symmetric (fun a b : PermutedBitBlock =>
      a.newPos + a.block.len ≤ b.newPos ∨ b.newPos + b.block.len ≤ a.newPos) := by
    intro a b h
    omega
  have := hdisj.forall hsym h1 h2 hne
  omega

/-- A source-interval cover is unique under pairwise disjointness of the
source intervals. -/
theorem cover_unique_src {pbs : List PermutedBitBlock}
    (hdisj : List.Pairwise (fun a b =>
      a.block.pos + a.block.len ≤ b.block.pos ∨
      b.block.pos + b.block.len ≤ a.block.pos) pbs)
    {pb1 pb2 : PermutedBitBlock} (h1 : pb1 ∈ pbs) (h2 : pb2 ∈ pbs) {p : Nat}
    (hc1 : pb1.block.pos ≤ p ∧ p < pb1.block.pos + pb1.block.len)
    (hc2 : pb2.block.pos ≤ p ∧ p < pb2.block.pos + pb2.block.len) : pb1 = pb2 := by
  by_contra hne
  have hsym : Symmetric (fun a b : PermutedBitBlock =>
      a.block.pos + a.block.len ≤ b.block.pos ∨
      b.block.pos + b.block.len ≤ a.block.pos) := by
    intro a b h
    omega
  have := hdisj.forall hsym h1 h2 hne
  omega

/-- Applying a variant permutes the bit positions, so the set of differing
bits between two applied keys has the same size as between the keys. -/
theorem apply_diff_card {f w r k nw : Nat} (hw : 0 < w) (hw64 : w ≤ 64)
    (hr : 0 < r) (hfr : r ≤ f) (hf : f = nw * w)
    {P : Permutation} (hP : P ∈ createPermutations f w r k)
    {a b : List Nat} (ha : ∀ i, a.getD i 0 < 2 ^ w)
    (hb : ∀ i, b.getD i 0 < 2 ^ w) :
    ((Finset.range (nw * w)).filter (fun q =>
      (getBit w (P.applyW w nw a) q != getBit w (P.applyW w nw b) q) = true)).card =
    ((Finset.range (nw * w)).filter (fun q =>
      (getBit w a q != getBit w b q) = true)).card := by
  obtain ⟨hhead, hblen, hadisj, hsdisj, hscover, hnbound⟩ := variant_facts hr hfr hP
  obtain ⟨hacover, hsbound⟩ := variant_more_facts hr hfr hP
  have hax : ∀ (y : List Nat), (∀ i, y.getD i 0 < 2 ^ w) → ∀ q, q < nw * w →
      getBit w (P.applyW w nw y) q = specBit w P.blocks y q := by
    intro y hy q hq
    exact stream_exec_spec hw hw64 hy P.blocks hblen hadisj true nw hq
  classical
  have hex : ∀ q, q < f →
      ∃ pb, pb ∈ P.blocks ∧ pb.newPos ≤ q ∧ q < pb.newPos + pb.block.len := by
    intro q hq
    obtain ⟨pb, h1, h2⟩ := hacover q hq
    exact ⟨pb, h1, h2⟩
  have hexs : ∀ p, p < f →
      ∃ pb, pb ∈ P.blocks ∧ pb.block.pos ≤ p ∧ p < pb.block.pos + pb.block.len := by
    intro p hp
    obtain ⟨pb, h1, h2⟩ := hscover p hp
    exact ⟨pb, h1, h2⟩
  refine Finset.card_bij'
    (fun q hq =>
      if h : q < f then
        (hex q h).choose.block.pos + (q - (hex q h).choose.newPos)
      else 0)
    (fun p hp =>
      if h : p < f then
        (hexs p h).choose.newPos + (p - (hexs p h).choose.block.pos)
      else 0)
    ?_ ?_ ?_ ?_
  · intro q hq
    rw [Finset.mem_filter, Finset.mem_range] at hq
    have hqf : q < f := by omega
    beta_reduce
    rw [dif_pos hqf]
    obtain ⟨hm, hcov⟩ := (hex q hqf).choose_spec
    set pb := (hex q hqf).choose
    have hlt : pb.block.pos + (q - pb.newPos) < f := by
      have := hsbound pb hm
      omega
    rw [Finset.mem_filter, Finset.mem_range]
    refine ⟨by omega, ?_⟩
    have hga : getBit w (P.applyW w nw a) q = getBit w a (pb.block.pos + (q - pb.newPos)) := by
      rw [hax a ha q (by omega)]
      exact specBit_cover P.blocks hadisj pb hm hcov.1 hcov.2
    have hgb : getBit w (P.applyW w nw b) q = getBit w b (pb.block.pos + (q - pb.newPos)) := by
      rw [hax b hb q (by omega)]
      exact specBit_cover P.blocks hadisj pb hm hcov.1 hcov.2
    rw [← hga, ← hgb]
    exact hq.2
  · intro p hp
    rw [Finset.mem_filter, Finset.mem_range] at hp
    have hpf : p < f := by omega
    beta_reduce
    rw [dif_pos hpf]
    obtain ⟨hm, hcov⟩ := (hexs p hpf).choose_spec
    set pb := (hexs p hpf).choose
    have hlt : pb.newPos + (p - pb.block.pos) < f := by
      have := hnbound pb hm
      omega
    rw [Finset.mem_filter, Finset.mem_range]
    refine ⟨by omega, ?_⟩
    have hcov2 : pb.newPos ≤ pb.newPos + (p - pb.block.pos) ∧
        pb.newPos + (p - pb.block.pos) < pb.newPos + pb.block.len := by omega
    have hidx2 : pb.block.pos + (pb.newPos + (p - pb.block.pos) - pb.newPos) = p := by
      omega
    have hga : getBit w (P.applyW w nw a) (pb.newPos + (p - pb.block.pos)) =
        getBit w a p := by
      rw [hax a ha _ (by omega),
        specBit_cover P.blocks hadisj pb hm hcov2.1 hcov2.2, hidx2]
    have hgb : getBit w (P.applyW w nw b) (pb.newPos + (p - pb.block.pos)) =
        getBit w b p := by
      rw [hax b hb _ (by omega),
        specBit_cover P.blocks hadisj pb hm hcov2.1 hcov2.2, hidx2]
    rw [hga, hgb]
    exact hp.2
  · intro q hq
    rw [Finset.mem_filter, Finset.mem_range] at hq
    have hqf : q < f := by omega
    beta_reduce
    rw [dif_pos hqf]
    obtain ⟨hm, hcov⟩ := (hex q hqf).choose_spec
    set pb := (hex q hqf).choose with hpbdef
    have hlt : pb.block.pos + (q - pb.newPos) < f := by
      have := hsbound pb hm
      omega
    rw [dif_pos hlt]
    obtain ⟨hm2, hcov2⟩ := (hexs _ hlt).choose_spec
    set pb2 := (hexs (pb.block.pos + (q - pb.newPos)) hlt).choose with hpb2def
    have hsrccov : pb.block.pos ≤ pb.block.pos + (q - pb.newPos) ∧
        pb.block.pos + (q - pb.newPos) < pb.block.pos + pb.block.len := by omega
    have heq : pb2 = pb :=
      cover_unique_src hsdisj hm2 hm hcov2 hsrccov
    rw [heq]
    omega
  · intro p hp
    rw [Finset.mem_filter, Finset.mem_range] at hp
    have hpf : p < f := by omega
    beta_reduce
    rw [dif_pos hpf]
    obtain ⟨hm, hcov⟩ := (hexs p hpf).choose_spec
    set pb := (hexs p hpf).choose with hpbdef
    have hlt : pb.newPos + (p - pb.block.pos) < f := by
      have := hnbound pb hm
      omega
    rw [dif_pos hlt]
    obtain ⟨hm2, hcov2⟩ := (hex _ hlt).choose_spec
    set pb2 := (hex (pb.newPos + (p - pb.block.pos)) hlt).choose with hpb2def
    have hdstcov : pb.newPos ≤ pb.newPos + (p - pb.block.pos) ∧
        pb.newPos + (p - pb.block.pos) < pb.newPos + pb.block.len := by omega
    have heq : pb2 = pb :=
      cover_unique hadisj hm2 hm hcov2 hdstcov
    rw [heq]
    omega

/-- Distance invariance: xor_dist between two applied keys equals xor_dist
between the keys. -/
theorem xorDist_applyW {f w r k nw : Nat} (hw : 0 < w) (hw64 : w ≤ 64)
    (hr : 0 < r) (hfr : r ≤ f) (hf : f = nw * w)
    {P : Permutation} (hP : P ∈ createPermutations f w r k)
    {a b : List Nat} (halen : a.length = nw) (ha : ∀ i, a.getD i 0 < 2 ^ w)
    (hblen2 : b.length = nw) (hb : ∀ i, b.getD i 0 < 2 ^ w) :
    xorDist w (P.applyW w nw a) (P.applyW w nw b) = xorDist w a b := by
  obtain ⟨hhead, hblen, hadisj, hsdisj, hscover, hnbound⟩ := variant_facts hr hfr hP
  have hla : (P.applyW w nw a).length = nw := execStream_length _ _ _
  have hlb : (P.applyW w nw b).length = nw := execStream_length _ _ _
  rw [xorDist_eq_diffLen hw nw _ _ hla hlb,
    xorDist_eq_diffLen hw nw a b halen hblen2,
    countP_range_eq_card, countP_range_eq_card]
  exact apply_diff_card hw hw64 hr hfr hf hP ha hb

theorem combinations_length : ∀ (k : Nat) (l c : List Nat),
    c ∈ combinations k l → c.length = k := by
  intro k
  induction k with
  | zero =>
    intro l c hc
    simp [combinations] at hc
    subst hc
    rfl
  | succ m ih =>
    intro l
    induction l with
    | nil => intro c hc; simp [combinations] at hc
    | cons a rest ihl =>
      intro c hc
      simp only [combinations, List.mem_append] at hc
      rcases hc with h | h
      · obtain ⟨c2, hc2, hce⟩ := List.mem_map.mp h
        rw [← hce, List.length_cons, ih rest c2 hc2]
      · exact ihl c h

theorem mem_combinations_of_sublist : ∀ (l c : List Nat),
    c.Sublist l → c ∈ combinations c.length l := by
  intro l
  induction l with
  | nil =>
    intro c hc
    rw [List.sublist_nil.mp hc]
    simp [combinations]
  | cons a rest ih =>
    intro c hc
    cases hc with
    | cons _ hsub =>
      cases hcl : c.length with
      | zero =>
        rw [List.length_eq_zero.mp hcl]
        simp [combinations]
      | succ m =>
        simp only [combinations, List.mem_append]
        right
        rw [← hcl]
        exact ih c hsub
    | cons₂ _ hsub =>
      rename_i ys
      simp only [List.length_cons, combinations, List.mem_append]
      left
      apply List.mem_map.mpr
      exact ⟨ys, ih ys hsub, rfl⟩

theorem createPermutations_mem_of (f w r k : Nat) {order : List Nat}
    (ho : order ∈ combinations k (List.range r)) :
    Permutation.fromBlocks k (reorderBlocks (splitBitsIntoBlocks f r) order) ∈
      createPermutations f w r k := by
  unfold createPermutations
  rw [List.map_map]
  exact List.mem_map_of_mem _ ho

theorem variant_head_structure {f r k w : Nat} {P : Permutation} {order : List Nat}
    (ho : order ∈ combinations k (List.range r))
    (hPe : P = Permutation.fromBlocks k
      (reorderBlocks (splitBitsIntoBlocks f r) order)) :
    ∀ pb ∈ P.blocks.take P.head, ∃ p ∈ order,
      pb.block = (splitBitsIntoBlocks f r).getD p default := by
  have holen : order.length = k := combinations_length k _ order ho
  have hPb : P.blocks = createPermutedBlocksGo 0
      (reorderBlocks (splitBitsIntoBlocks f r) order) := by
    rw [hPe]; rfl
  have hhead : P.head = k := by rw [hPe]; rfl
  have htk : (reorderBlocks (splitBitsIntoBlocks f r) order).take k =
      order.map (fun p => (splitBitsIntoBlocks f r).getD p default) := by
    unfold reorderBlocks
    rw [show k = (order.map (fun p => (splitBitsIntoBlocks f r).getD p default)).length
      by rw [List.length_map, holen]]
    exact List.take_left _ _
  intro pb hpb
  rw [hPb, hhead, cpbGo_take, htk] at hpb
  have hbm : pb.block ∈ order.map (fun p => (splitBitsIntoBlocks f r).getD p default) := by
    have h2 := List.mem_map_of_mem PermutedBitBlock.block hpb
    rwa [cpbGo_map_block] at h2
  obtain ⟨p, hp, hpe⟩ := List.mem_map.mp hbm
  exact ⟨p, hp, hpe.symm⟩

theorem variant_head_cover {f r k w : Nat} (hr : 0 < r) (hfr : r ≤ f)
    {P : Permutation} (hP : P ∈ createPermutations f w r k) :
    ∀ q, q < P.maskBits → ∃ pb ∈ P.blocks.take P.head,
      pb.newPos ≤ q ∧ q < pb.newPos + pb.block.len := by
  obtain ⟨order, ho, hPe⟩ := createPermutations_mem hP
  set bs : List BitBlock := reorderBlocks (splitBitsIntoBlocks f r) order with hbs
  have hPb : P.blocks = createPermutedBlocksGo 0 bs := by rw [hPe]; rfl
  have htake : P.blocks.take P.head = createPermutedBlocksGo 0 (bs.take P.head) := by
    rw [hPb, cpbGo_take]
  have hmb : P.maskBits = ((bs.take P.head).map BitBlock.len).sum := by
    unfold Permutation.maskBits
    rw [hPb, cpbGo_take]
    rw [show ((createPermutedBlocksGo 0 (bs.take P.head)).map (fun pb => pb.block.len))
        = ((createPermutedBlocksGo 0 (bs.take P.head)).map
            PermutedBitBlock.block).map BitBlock.len by rw [List.map_map]; rfl]
    rw [cpbGo_map_block]
  intro q hq
  rw [hmb] at hq
  obtain ⟨pb, hpb, hc⟩ := cpbGo_cover (bs.take P.head) 0 q (Nat.zero_le q) (by omega)
  rw [← htake] at hpb
  exact ⟨pb, hpb, hc⟩

theorem variant_maskBits_le {f r k w : Nat} (hr : 0 < r) (hfr : r ≤ f)
    {P : Permutation} (hP : P ∈ createPermutations f w r k) :
    P.maskBits ≤ f := by
  obtain ⟨order, ho, hPe⟩ := createPermutations_mem hP
  have hsub := combinations_sublist k (List.range r) order ho
  have hord : order.Nodup := hsub.nodup (List.nodup_range r)
  have hbound : ∀ p ∈ order, p < (splitBitsIntoBlocks f r).length := by
    intro p hp
    rw [splitBitsIntoBlocks_length]
    exact List.mem_range.mp (hsub.subset hp)
  have hidx : ∀ t, t < (splitBitsIntoBlocks f r).length →
      ((splitBitsIntoBlocks f r).getD t default).idx = t := by
    intro t ht
    exact splitBitsIntoBlocks_idx f r t (by rwa [splitBitsIntoBlocks_length] at ht)
  set bs : List BitBlock := reorderBlocks (splitBitsIntoBlocks f r) order with hbs
  have hsum : (bs.map BitBlock.len).sum = f := by
    rw [hbs, reorderBlocks_sum hidx hord hbound, splitBitsIntoBlocks_sum f r hr]
  have hPb : P.blocks = createPermutedBlocksGo 0 bs := by rw [hPe]; rfl
  have hmb : P.maskBits = ((bs.take P.head).map BitBlock.len).sum := by
    unfold Permutation.maskBits
    rw [hPb, cpbGo_take]
    rw [show ((createPermutedBlocksGo 0 (bs.take P.head)).map (fun pb => pb.block.len))
        = ((createPermutedBlocksGo 0 (bs.take P.head)).map
            PermutedBitBlock.block).map BitBlock.len by rw [List.map_map]; rfl]
    rw [cpbGo_map_block]
  have hsplit : (bs.take P.head).map BitBlock.len ++ (bs.drop P.head).map BitBlock.len
      = bs.map BitBlock.len := by
    rw [← List.map_append, List.take_append_drop]
  have h2 : ((bs.take P.head).map BitBlock.len).sum +
      ((bs.drop P.head).map BitBlock.len).sum = f := by
    rw [← List.sum_append, hsplit, hsum]
  omega

/-- Pigeonhole: when at most d bits differ and d + k ≤ r, some increasing
k-subset of block indices is clean (equal bits on each selected block). -/
theorem clean_selection {w f2 r d k : Nat} (hr : 0 < r) (hdk : d + k ≤ r)
    (tiles : List BitBlock) (hlen : tiles.length = r) (htile : Tiling 0 tiles)
    (hsum : (tiles.map BitBlock.len).sum = f2)
    (kk x : List Nat)
    (hdist : (List.range f2).countP (fun q => getBit w kk q != getBit w x q) ≤ d) :
    ∃ order, order ∈ combinations k (List.range r) ∧
      ∀ p ∈ order, ∀ q, (tiles.getD p default).pos ≤ q →
        q < (tiles.getD p default).pos + (tiles.getD p default).len →
        getBit w kk q = getBit w x q := by
  classical
  set cleanB : Nat → Bool := fun j => decide (∀ t, t < (tiles.getD j default).len →
    getBit w kk ((tiles.getD j default).pos + t) =
      getBit w x ((tiles.getD j default).pos + t)) with hcleanB
  have hmemtiles : ∀ j, j < r → tiles.getD j default ∈ tiles := by
    intro j hj
    have hjl : j < tiles.length := by omega
    rw [List.getD_eq_getElem _ _ hjl]
    exact List.getElem_mem _
  have hbnds : ∀ j, j < r → (tiles.getD j default).pos +
      (tiles.getD j default).len ≤ f2 := by
    intro j hj
    have := Tiling_mem tiles 0 htile _ (hmemtiles j hj)
    omega
  have htdisj : ∀ j1 j2, j1 < r → j2 < r → j1 ≠ j2 →
      (tiles.getD j1 default).pos + (tiles.getD j1 default).len ≤
        (tiles.getD j2 default).pos ∨
      (tiles.getD j2 default).pos + (tiles.getD j2 default).len ≤
        (tiles.getD j1 default).pos := by
    intro j1 j2 h1 h2 hne
    have hget := List.pairwise_iff_getElem.mp (Tiling_pairwise tiles 0 htile)
    have hl1 : j1 < tiles.length := by omega
    have hl2 : j2 < tiles.length := by omega
    rw [List.getD_eq_getElem _ _ hl1, List.getD_eq_getElem _ _ hl2]
    rcases Nat.lt_or_ge j1 j2 with h | h
    · exact Or.inl (hget j1 j2 hl1 hl2 h)
    · exact Or.inr (hget j2 j1 hl2 hl1 (by omega))
  set DF : Finset Nat := (Finset.range r).filter (fun j => ¬ cleanB j = true) with hDF
  set diffs : Finset Nat := (Finset.range f2).filter
    (fun q => (getBit w kk q != getBit w x q) = true) with hdiffs
  have hdirty : ∀ j ∈ DF, ∃ t, t < (tiles.getD j default).len ∧
      getBit w kk ((tiles.getD j default).pos + t) ≠
        getBit w x ((tiles.getD j default).pos + t) := by
    intro j hj
    rw [hDF, Finset.mem_filter] at hj
    have h2 := hj.2
    rw [hcleanB] at h2
    simp only [decide_eq_true_eq] at h2
    push_neg at h2
    obtain ⟨t, ht1, ht2⟩ := h2
    exact ⟨t, ht1, ht2⟩
  have hDd : DF.card ≤ d := by
    have hdc : diffs.card ≤ d := by
      rw [hdiffs, ← countP_range_eq_card]
      exact hdist
    refine le_trans (Finset.card_le_card_of_injOn
      (fun j => if h : ∃ t, t < (tiles.getD j default).len ∧
          getBit w kk ((tiles.getD j default).pos + t) ≠
            getBit w x ((tiles.getD j default).pos + t)
        then (tiles.getD j default).pos + h.choose else 0) ?_ ?_) hdc
    · intro j hj
      have hex := hdirty j hj
      have hjr : j < r := by
        rw [hDF, Finset.mem_filter, Finset.mem_range] at hj
        exact hj.1
      beta_reduce
      rw [dif_pos hex]
      obtain ⟨ht1, ht2⟩ := hex.choose_spec
      rw [hdiffs, Finset.mem_filter, Finset.mem_range]
      refine ⟨?_, by simpa using ht2⟩
      have := hbnds j hjr
      omega
    · intro j1 hj1 j2 hj2 heq
      rw [Finset.mem_coe] at hj1 hj2
      have hex1 := hdirty j1 hj1
      have hex2 := hdirty j2 hj2
      have hj1r : j1 < r := by
        rw [hDF, Finset.mem_filter, Finset.mem_range] at hj1
        exact hj1.1
      have hj2r : j2 < r := by
        rw [hDF, Finset.mem_filter, Finset.mem_range] at hj2
        exact hj2.1
      beta_reduce at heq
      rw [dif_pos hex1, dif_pos hex2] at heq
      by_contra hne
      obtain ⟨ht11, _⟩ := hex1.choose_spec
      obtain ⟨ht21, _⟩ := hex2.choose_spec
      rcases htdisj j1 j2 hj1r hj2r hne with h | h <;> omega
  set cl : List Nat := (List.range r).filter cleanB with hcl
  have h3 : ((Finset.range r).filter (fun j => cleanB j = true)).card +
      ((Finset.range r).filter (fun j => ¬ cleanB j = true)).card =
      (Finset.range r).card :=
    Finset.filter_card_add_filter_neg_card_eq_card (fun j => cleanB j = true)
  rw [Finset.card_range, ← hDF] at h3
  have hclen2 : cl.length = ((Finset.range r).filter (fun j => cleanB j = true)).card := by
    rw [hcl, ← List.countP_eq_length_filter, countP_range_eq_card]
  have hclk : k ≤ cl.length := by omega
  refine ⟨cl.take k, ?_, ?_⟩
  · have hsub2 : (cl.take k).Sublist (List.range r) :=
      (List.take_sublist k cl).trans (by rw [hcl]; exact List.filter_sublist _)
    have hlen2 : (cl.take k).length = k := by
      rw [List.length_take]
      omega
    have h4 := mem_combinations_of_sublist (List.range r) (cl.take k) hsub2
    rwa [hlen2] at h4
  · intro p hp q hq1 hq2
    have hpcl : p ∈ cl := List.mem_of_mem_take hp
    rw [hcl, List.mem_filter] at hpcl
    have h2 := hpcl.2
    rw [hcleanB] at h2
    simp only [decide_eq_true_eq] at h2
    have h5 := h2 (q - (tiles.getD p default).pos) (by omega)
    have heq : (tiles.getD p default).pos + (q - (tiles.getD p default).pos) = q := by
      omega
    rwa [heq] at h5

/-- Clean selected blocks give equal masked prefixes of the applied keys. -/
theorem maskEq_of_clean {f w r k nw : Nat} (hw : 0 < w) (hw64 : w ≤ 64)
    (hr : 0 < r) (hfr : r ≤ f) (hf : f = nw * w)
    {P : Permutation} {order : List Nat}
    (ho : order ∈ combinations k (List.range r))
    (hPe : P = Permutation.fromBlocks k
      (reorderBlocks (splitBitsIntoBlocks f r) order))
    {kk x : List Nat} (hkb : ∀ i, kk.getD i 0 < 2 ^ w)
    (hxb : ∀ i, x.getD i 0 < 2 ^ w)
    (hclean : ∀ p ∈ order, ∀ q, ((splitBitsIntoBlocks f r).getD p default).pos ≤ q →
      q < ((splitBitsIntoBlocks f r).getD p default).pos +
        ((splitBitsIntoBlocks f r).getD p default).len →
      getBit w kk q = getBit w x q) :
    maskEq w P.maskBits (P.applyW w nw kk) (P.applyW w nw x) = true := by
  have hP : P ∈ createPermutations f w r k := by
    rw [hPe]
    exact createPermutations_mem_of f w r k ho
  obtain ⟨hhead, hblen, hadisj, hsdisj, hscover, hnbound⟩ := variant_facts hr hfr hP
  have hmbf := variant_maskBits_le hr hfr hP
  rw [maskEq, List.all_eq_true]
  intro q hq
  rw [List.mem_range] at hq
  have hqnw : q < nw * w := by omega
  obtain ⟨pb, hpbtake, hcov⟩ := variant_head_cover hr hfr hP q hq
  have hpb : pb ∈ P.blocks := List.mem_of_mem_take hpbtake
  obtain ⟨p, hpord, hpbe⟩ := @variant_head_structure f r k w P order ho hPe pb hpbtake
  have hlenpb := hblen pb hpb
  have hb1 : getBit w (P.applyW w nw kk) q =
      getBit w kk (pb.block.pos + (q - pb.newPos)) := by
    have hs : getBit w (P.applyW w nw kk) q = specBit w P.blocks kk q :=
      stream_exec_spec hw hw64 hkb P.blocks hblen hadisj true nw hqnw
    rw [hs]
    exact specBit_cover P.blocks hadisj pb hpb hcov.1 hcov.2
  have hb2 : getBit w (P.applyW w nw x) q =
      getBit w x (pb.block.pos + (q - pb.newPos)) := by
    have hs : getBit w (P.applyW w nw x) q = specBit w P.blocks x q :=
      stream_exec_spec hw hw64 hxb P.blocks hblen hadisj true nw hqnw
    rw [hs]
    exact specBit_cover P.blocks hadisj pb hpb hcov.1 hcov.2
  have hcl := hclean p hpord (pb.block.pos + (q - pb.newPos))
  rw [← hpbe] at hcl
  have hceq := hcl (by omega) (by omega)
  rw [hb1, hb2, hceq]
  simp

theorem insertIndex_mem (P : Permutation) (w nw : Nat)
    (corpus : List (List Nat × Nat)) (e : List Nat × Nat) :
    e ∈ insertIndex P w nw [] corpus ↔
      ∃ kv ∈ corpus, e = (P.applyW w nw kv.1, kv.2) := by
  unfold insertIndex
  rw [(List.mergeSort_perm _ _).mem_iff]
  simp only [List.nil_append, List.mem_map]
  constructor
  · intro h
    obtain ⟨kv, hkv, he⟩ := h
    exact ⟨kv, hkv, he.symm⟩
  · intro h
    obtain ⟨kv, hkv, he⟩ := h
    exact ⟨kv, hkv, he.symm⟩

theorem scanBlock_mem (w : Nat) (data : List (List Nat × Nat)) (key : List Nat)
    (thr : Nat) (v dd : Nat) :
    (v, dd) ∈ scanBlock w data key thr ↔
      ∃ e ∈ data, xorDist w e.1 key = dd ∧ dd ≤ thr ∧ e.2 = v := by
  unfold scanBlock
  rw [List.mem_filterMap]
  constructor
  · intro h
    obtain ⟨e, he, hfe⟩ := h
    by_cases hc : xorDist w e.1 key ≤ thr
    · simp only [hc, if_true, ite_true] at hfe
      have h2 := Option.some.inj hfe
      have h3 : e.2 = v := congrArg Prod.fst h2
      have h4 : xorDist w e.1 key = dd := congrArg Prod.snd h2
      exact ⟨e, he, h4, h4 ▸ hc, h3⟩
    · simp only [hc, if_false, ite_false] at hfe
      exact absurd hfe (by simp)
  · intro h
    obtain ⟨e, he, h1, h2, h3⟩ := h
    refine ⟨e, he, ?_⟩
    simp only [h1, h2, if_true, ite_true, h3]

theorem maxSearchDistance_variants {f w r k nw : Nat} (hr : 0 < r) (hfr : r ≤ f)
    (hk : k ≤ r) (corpus : List (List Nat × Nat)) :
    maxSearchDistance ((createPermutations f w r k).map
      (fun P => (P, insertIndex P w nw [] corpus))) = r - 1 := by
  have hne : createPermutations f w r k ≠ [] := by
    have hmem := mem_combinations_of_sublist (List.range r) ((List.range r).take k)
      (List.take_sublist k _)
    rw [List.length_take, List.length_range, min_eq_left hk] at hmem
    have hmm : Permutation.fromBlocks k (reorderBlocks (splitBitsIntoBlocks f r)
        ((List.range r).take k)) ∈ createPermutations f w r k :=
      createPermutations_mem_of f w r k hmem
    intro hcon
    rw [hcon] at hmm
    simp at hmm
  unfold maxSearchDistance
  have hlen : 0 < (createPermutations f w r k).length := List.length_pos.mpr hne
  have hlen2 : 0 < ((createPermutations f w r k).map
      (fun P => (P, insertIndex P w nw [] corpus))).length := by
    rw [List.length_map]
    exact hlen
  rw [List.getD_eq_getElem _ _ hlen2, List.getElem_map]
  have hP0 : (createPermutations f w r k)[0] ∈ createPermutations f w r k :=
    List.getElem_mem _
  show (createPermutations f w r k)[0].nBlocks - 1 = r - 1
  rw [variant_nBlocks hr hfr hP0]

/-- C1 (amended): the claim's hypothesis d ≤ r − 1 is strengthened to
d + k ≤ r (the pigeonhole argument needs k ≤ r − d; the original bound is
refuted by a counterexample). Under it, for every corpus inserted into the
full family of C(r,k) permutation variants, every probe x and every
distance d, search_simple succeeds and returns exactly the values whose
stored key lies within Hamming distance d of x: its value set equals that
of the naive linear scan. -/
theorem claim_C1_amended_union_eq_naive (f w r k nw d : Nat)
    (hw : 0 < w) (hw64 : w ≤ 64) (hr : 0 < r) (hfr : r ≤ f) (hk : 0 < k)
    (hdk : d + k ≤ r) (hf : f = nw * w)
    (corpus : List (List Nat × Nat)) (x : List Nat)
    (hclen : ∀ kv ∈ corpus, kv.1.length = nw)
    (hcb : ∀ kv ∈ corpus, ∀ i, kv.1.getD i 0 < 2 ^ w)
    (hxlen : x.length = nw) (hxb : ∀ i, x.getD i 0 < 2 ^ w) :
    ∃ res, searchSimple w nw
        ((createPermutations f w r k).map
          (fun P => (P, insertIndex P w nw [] corpus))) x d = some res ∧
      ∀ v, (∃ dd, (v, dd) ∈ res) ↔ ∃ dd, (v, dd) ∈ scanBlock w corpus x d := by
  have hkr : k ≤ r := by omega
  set idxs := (createPermutations f w r k).map
    (fun P => (P, insertIndex P w nw [] corpus)) with hidxs
  have hmax : maxSearchDistance idxs = r - 1 :=
    maxSearchDistance_variants hr hfr hkr corpus
  have hnotlt : ¬ (maxSearchDistance idxs < d) := by
    rw [hmax]
    omega
  have hsearch : searchSimple w nw idxs x d = some (dedupByData
      ((idxs.map (fun ix =>
        scanBlock w (getCandidates ix.1 w nw ix.2 x)
          (ix.1.applyW w nw x) d)).flatten)) := by
    unfold searchSimple lookupSearch
    rw [if_neg hnotlt]
  refine ⟨_, hsearch, ?_⟩
  intro v
  rw [dedupByData_mem]
  constructor
  · rintro ⟨dd, hdd⟩
    obtain ⟨l, hl, hvl⟩ := List.mem_flatten.mp hdd
    obtain ⟨ix, hix, hlw⟩ := List.mem_map.mp hl
    obtain ⟨P, hPmem, hfix⟩ := List.mem_map.mp hix
    rw [← hlw, ← hfix] at hvl
    dsimp only at hvl
    obtain ⟨e, he, hxd, hddle, hev⟩ :=
      (scanBlock_mem w _ _ d v dd).mp hvl
    unfold getCandidates at he
    rw [List.mem_filter] at he
    obtain ⟨kv, hkv, hekv⟩ := (insertIndex_mem P w nw corpus e).mp he.1
    refine ⟨dd, (scanBlock_mem w corpus x d v dd).mpr ⟨kv, hkv, ?_, hddle, ?_⟩⟩
    · rw [← hxd, hekv]
      exact (xorDist_applyW hw hw64 hr hfr hf hPmem (hclen kv hkv)
        (hcb kv hkv) hxlen hxb).symm
    · rw [← hev, hekv]
  · rintro ⟨dd, hdd⟩
    obtain ⟨kv, hkv, hxd, hddle, hva⟩ := (scanBlock_mem w corpus x d v dd).mp hdd
    have hdiff : (List.range f).countP
        (fun q => getBit w kv.1 q != getBit w x q) ≤ d := by
      rw [hf, ← xorDist_eq_diffLen hw nw kv.1 x (hclen kv hkv) hxlen, hxd]
      exact hddle
    obtain ⟨order, ho, hclean⟩ := clean_selection hr hdk (splitBitsIntoBlocks f r)
      (splitBitsIntoBlocks_length f r) (splitBitsIntoBlocks_tiling f r hr hfr)
      (splitBitsIntoBlocks_sum f r hr) kv.1 x hdiff
    set P := Permutation.fromBlocks k
      (reorderBlocks (splitBitsIntoBlocks f r) order) with hPe
    have hPmem : P ∈ createPermutations f w r k := by
      rw [hPe]
      exact createPermutations_mem_of f w r k ho
    have hmask : maskEq w P.maskBits (P.applyW w nw kv.1) (P.applyW w nw x) = true :=
      maskEq_of_clean hw hw64 hr hfr hf ho hPe (hcb kv hkv) hxb hclean
    have hein : (P.applyW w nw kv.1, kv.2) ∈ insertIndex P w nw [] corpus :=
      (insertIndex_mem P w nw corpus _).mpr ⟨kv, hkv, rfl⟩
    have hecand : (P.applyW w nw kv.1, kv.2) ∈
        getCandidates P w nw (insertIndex P w nw [] corpus) x := by
      unfold getCandidates
      rw [List.mem_filter]
      exact ⟨hein, hmask⟩
    have hxd2 : xorDist w (P.applyW w nw kv.1) (P.applyW w nw x) = dd := by
      rw [xorDist_applyW hw hw64 hr hfr hf hPmem (hclen kv hkv)
        (hcb kv hkv) hxlen hxb]
      exact hxd
    have hscan : (v, dd) ∈ scanBlock w
        (getCandidates P w nw (insertIndex P w nw [] corpus) x)
        (P.applyW w nw x) d :=
      (scanBlock_mem w _ _ d v dd).mpr ⟨_, hecand, hxd2, hddle, hva⟩
    refine ⟨dd, List.mem_flatten.mpr ⟨_, ?_, hscan⟩⟩
    rw [List.mem_map]
    exact ⟨(P, insertIndex P w nw [] corpus),
      List.mem_map_of_mem _ hPmem, rfl⟩

theorem insertIndex_single (P : Permutation) (w nw : Nat) (kv : List Nat × Nat) :
    insertIndex P w nw [] [kv] = [(P.applyW w nw kv.1, kv.2)] := by
  unfold insertIndex
  simp

theorem claim_C1_counterexample :
    3 ≤ maxSearchDistance ((createPermutations 8 8 4 2).map
        (fun P => (P, insertIndex P 8 1 [] [([0], 0)]))) ∧
    searchSimple 8 1 ((createPermutations 8 8 4 2).map
        (fun P => (P, insertIndex P 8 1 [] [([0], 0)]))) [168] 3 = some [] ∧
    scanBlock 8 [([0], 0)] [168] 3 = [(0, 3)] := by
  have h : (createPermutations 8 8 4 2).map
      (fun P => (P, insertIndex P 8 1 [] [([0], 0)])) =
      (createPermutations 8 8 4 2).map (fun P => (P, [(P.applyW 8 1 [0], 0)])) :=
    List.map_congr_left (fun P _ => by rw [insertIndex_single])
  rw [h]
  decide

theorem claim_C1_witness :
    ∃ res, searchSimple 8 1 ((createPermutations 8 8 4 2).map
        (fun P => (P, insertIndex P 8 1 [] [([0], 0)]))) [3] 2 = some res ∧
      ∀ v, (∃ dd, (v, dd) ∈ res) ↔ ∃ dd, (v, dd) ∈ scanBlock 8 [([0], 0)] [3] 2 :=
  claim_C1_amended_union_eq_naive 8 8 4 2 1 2 (by decide) (by decide) (by decide)
    (by decide) (by decide) (by decide) (by decide) [([0], 0)] [3]
    (by
      intro kv hkv
      rw [List.mem_singleton] at hkv
      rw [hkv]
      rfl)
    (by
      intro kv hkv
      rw [List.mem_singleton] at hkv
      rw [hkv]
      exact getD_lt (by decide) (by decide))
    rfl (getD_lt (by decide) (by decide))

end Hloo
